import Mathlib

/-!
# A separate-chaining hash table with prime-sized bucket array

Shallow embedding of `ac::HashTbl` (files `hashtbl.h`, `hashtbl.inl`).

Modelling conventions.

* `size_type` (`std::size_t`) is `Nat`. The sizes and counters of a table are
  bounded by the number of allocated buckets and entries, so overflow is out of
  reach there. `--m_count` is `m_count - 1` on `Nat`; it is executed only where
  an entry was found, and there the counter of a reachable table is positive
  (`reachable_count_ge`). The prime search is modelled twice: `is_prime` and
  `find_next_prime` over the natural numbers, and `is_prime_wrap`,
  `find_next_prime_wrap` and `HashTbl.new_wrap` in arithmetic modulo `2^64`,
  where `++n_` wraps at `SIZE_MAX`. Below `2^62` the two agree
  (`find_next_prime_wrap_agrees`).
* `float` values are rationals. The load factor is modelled twice:
  `HashTbl.insert` takes `(float) m_count / m_size` as the exact ratio;
  `HashTbl.insert_float` rounds the two operands and their quotient to `float`
  as the code does (`to_float`, IEEE 754 binary32, round to nearest even). The
  `float` test never fires where the exact one does not
  (`load_factor_float_le`), and the two agree as long as the bucket array has
  fewer than `2^24` buckets (`load_factor_float_gt`, `insert_float_agrees`).
  From `2^24` buckets on they differ (`load_factor_float_big`). What depends on
  the rounding, the condition of growth and the bound of the count by the
  bucket-array length, is stated over `HashTbl.insert_float`.
* The loops of `is_prime` and `find_next_prime` and the mutual recursion of
  `insert` and `rehash` are the only places where the code may fail to return.
  The two loops are total functions here (well-founded recursion); the mutual
  recursion is cut by fuel and completes with fuel 3 (`insert_total`).
* `std::unique_ptr< std::forward_list< entry_type > [] >` is a list of buckets,
  each bucket a list of entries with the chain head first.
* `KeyHash` and `KeyEqual` are the parameters `hashf : K → Nat` and
  `eq : K → K → Bool`.
* `insert` calls `rehash`, which calls `insert` again: `insert` takes a fuel
  argument and `rehash` receives the `insert` it has to use.
-/

namespace ac

/-- Struct `HashEntry`: a key with its data. -/
structure HashEntry (K V : Type) where
  m_key : K
  m_data : V
deriving DecidableEq, Repr

/-- Class `HashTbl`: the private data members. -/
structure HashTbl (K V : Type) where
  m_size : Nat
  m_count : Nat
  m_max_load_factor : ℚ
  m_table : List (List (HashEntry K V))
deriving DecidableEq

/-- The loop of `is_prime`: `while ( divisor * divisor - 2 * divisor + 1 <= n_ )`. -/
def is_prime_loop (n_ divisor : Nat) : Bool :=
  if divisor * divisor - 2 * divisor + 1 ≤ n_ then
    if n_ % (divisor - 1) = 0 then false
    else if n_ % (divisor + 1) = 0 then false
    else is_prime_loop n_ (divisor + 6)
  else true
termination_by n_ + 7 - divisor
decreasing_by
  rename_i h _ _
  have hd : divisor ≤ n_ + 6 := by
    by_contra hc
    have h1 : 2 * divisor + n_ < divisor * divisor := by nlinarith
    omega
  omega

/-- Method `HashTbl::is_prime`. -/
def is_prime (n_ : Nat) : Bool :=
  if n_ = 2 ∨ n_ = 3 then true
  else if n_ % 2 = 0 ∨ n_ % 3 = 0 then false
  else is_prime_loop n_ 6

/-- The trial-division loop never rejects a prime. -/
theorem is_prime_loop_of_prime (p : Nat) (hp : p.Prime) :
    ∀ d : Nat, 6 ≤ d → is_prime_loop p d = true := by
  intro d
  induction d using is_prime_loop.induct p with
  | case1 d hc h1 =>
    intro hd
    exfalso
    have hdvd : (d - 1) ∣ p := Nat.dvd_of_mod_eq_zero h1
    rcases (Nat.dvd_prime hp).1 hdvd with h | h
    · omega
    · have : d * d = (d - 1) * (d - 1) + 2 * d - 1 := by
        obtain ⟨e, rfl⟩ : ∃ e, d = e + 1 := ⟨d - 1, by omega⟩
        simp only [Nat.add_sub_cancel]; ring_nf; omega
      have h5 : 5 ≤ d - 1 := by omega
      have : (d - 1) * (d - 1) ≥ 5 * (d - 1) := Nat.mul_le_mul_right _ h5
      omega
  | case2 d hc h1 h2 =>
    intro hd
    exfalso
    have hdvd : (d + 1) ∣ p := Nat.dvd_of_mod_eq_zero h2
    rcases (Nat.dvd_prime hp).1 hdvd with h | h
    · omega
    · have : d * d ≥ 6 * d := Nat.mul_le_mul_right _ hd
      omega
  | case3 d hc h1 h2 ih =>
    intro hd
    rw [is_prime_loop, if_pos hc, if_neg h1, if_neg h2]
    exact ih (by omega)
  | case4 d hc =>
    intro _
    rw [is_prime_loop, if_neg hc]

/-- Method `is_prime` accepts every prime number. -/
theorem is_prime_of_prime (p : Nat) (hp : p.Prime) : is_prime p = true := by
  unfold is_prime
  by_cases h23 : p = 2 ∨ p = 3
  · simp [h23]
  · rw [if_neg h23]
    have h2 : ¬ p % 2 = 0 := by
      intro h
      have := (Nat.dvd_prime hp).1 (Nat.dvd_of_mod_eq_zero h)
      omega
    have h3 : ¬ p % 3 = 0 := by
      intro h
      have := (Nat.dvd_prime hp).1 (Nat.dvd_of_mod_eq_zero h)
      omega
    rw [if_neg (by tauto)]
    exact is_prime_loop_of_prime p hp 6 (le_refl 6)

/-- Some number above `n` is accepted by `is_prime`, so the scan of
`find_next_prime` stops. -/
theorem exists_is_prime_gt (n : Nat) : ∃ q, n < q ∧ is_prime q = true := by
  obtain ⟨q, hq, hp⟩ := Nat.exists_infinite_primes (n + 1)
  exact ⟨q, hq, is_prime_of_prime q hp⟩

/-- Method `HashTbl::find_next_prime`: `while ( not is_prime( ++n_ ) ); return n_;`. -/
def find_next_prime (n_ : Nat) : Nat :=
  if is_prime (n_ + 1) then n_ + 1 else find_next_prime (n_ + 1)
termination_by Nat.find (exists_is_prime_gt n_) - n_
decreasing_by
  rename_i h
  have hq := Nat.find_spec (exists_is_prime_gt n_)
  have hq' := Nat.find_spec (exists_is_prime_gt (n_ + 1))
  have hne : Nat.find (exists_is_prime_gt n_) ≠ n_ + 1 := by
    intro he
    rw [he] at hq
    exact h hq.2
  have hle : Nat.find (exists_is_prime_gt (n_ + 1)) ≤ Nat.find (exists_is_prime_gt n_) :=
    Nat.find_min' _ ⟨by omega, hq.2⟩
  omega

/-- The loop of `is_prime` cut after `rounds` evaluations of its condition:
`none` when the bound was too small, otherwise what the loop decides. -/
def is_prime_loop_within : Nat → Nat → Nat → Option Bool
  | 0, _, _ => none
  | rounds + 1, n_, divisor =>
    if divisor * divisor - 2 * divisor + 1 ≤ n_ then
      if n_ % (divisor - 1) = 0 then some false
      else if n_ % (divisor + 1) = 0 then some false
      else is_prime_loop_within rounds n_ (divisor + 6)
    else some true

/-- The scan `while ( not is_prime( ++n_ ) );` of `find_next_prime` cut after
`rounds` evaluations of its condition: `none` when the bound was too small,
otherwise the value returned. -/
def find_next_prime_within : Nat → Nat → Option Nat
  | 0, _ => none
  | rounds + 1, n_ =>
    if is_prime (n_ + 1) then some (n_ + 1) else find_next_prime_within rounds (n_ + 1)

/-! ## Machine arithmetic: `float` rounding and `std::size_t` wrap-around -/

/-- Rounding to the nearest integer, ties to the even one. -/
def round_half_even (x : ℚ) : ℤ :=
  if x - ⌊x⌋ < 1 / 2 then ⌊x⌋
  else if 1 / 2 < x - ⌊x⌋ then ⌊x⌋ + 1
  else if ⌊x⌋ % 2 = 0 then ⌊x⌋
  else ⌊x⌋ + 1

/-- The value a `float` (IEEE 754 binary32) takes for the non-negative real
`x`: 24 significant bits, round to nearest, ties to even. The exponent is
`Int.log 2 x` and the unit in the last place `2 ^ (Int.log 2 x - 23)`.
Overflow and subnormal values are out of reach: the operands are `size_t`
values, below `2^64`, and their quotients are at least `2^-64`. -/
def to_float (x : ℚ) : ℚ :=
  if x ≤ 0 then 0
  else (round_half_even (x / 2 ^ (Int.log 2 x - 23)) : ℚ) * 2 ^ (Int.log 2 x - 23)

/-- The expression `( float ) count / size` for two `size_t` operands, evaluated
in `float` precision: both operands are converted to `float` and their quotient
is rounded to `float`. The divisor is `m_size`, which is at least 1 in every
table a constructor builds. -/
def load_factor_float (count size : Nat) : ℚ :=
  to_float (to_float (count : ℚ) / to_float (size : ℚ))

/-- A `std::size_t` value after an arithmetic step, with `std::size_t` of 64
bits: the result modulo `2^64`. -/
def size_wrap (n : Nat) : Nat := n % 2 ^ 64

/-- The loop of `is_prime` in `std::size_t` arithmetic, cut after `rounds`
evaluations of its condition. -/
def is_prime_loop_wrap : Nat → Nat → Nat → Option Bool
  | 0, _, _ => none
  | rounds + 1, n_, divisor =>
    if size_wrap (size_wrap (size_wrap (divisor * divisor) + 2 ^ 64 - size_wrap (2 * divisor)) + 1)
        ≤ n_ then
      if n_ % size_wrap (divisor + 2 ^ 64 - 1) = 0 then some false
      else if n_ % size_wrap (divisor + 1) = 0 then some false
      else is_prime_loop_wrap rounds n_ (size_wrap (divisor + 6))
    else some true

/-- Method `is_prime` in `std::size_t` arithmetic, its loop cut after `rounds`
evaluations of the condition. -/
def is_prime_wrap (rounds n_ : Nat) : Option Bool :=
  if n_ = 2 ∨ n_ = 3 then some true
  else if n_ % 2 = 0 ∨ n_ % 3 = 0 then some false
  else is_prime_loop_wrap rounds n_ 6

/-- Method `find_next_prime` in `std::size_t` arithmetic: `++n_` wraps at
`SIZE_MAX`. The scan is cut after `rounds` evaluations of its condition, each
call of `is_prime` after `inner` evaluations of the condition of its loop. -/
def find_next_prime_wrap (inner : Nat) : Nat → Nat → Option Nat
  | 0, _ => none
  | rounds + 1, n_ =>
    match is_prime_wrap inner (size_wrap (n_ + 1)) with
    | some true => some (size_wrap (n_ + 1))
    | some false => find_next_prime_wrap inner rounds (size_wrap (n_ + 1))
    | none => none

section Operations

variable {K V : Type}

/-- Size constructor `HashTbl( size_type sz )`. The constructor never writes
`m_max_load_factor`; `uninit` stands for the indeterminate value the field
holds. -/
def HashTbl.new (table_sz_ : Nat) (uninit : ℚ) : HashTbl K V :=
  { m_size := find_next_prime table_sz_
    m_count := 0
    m_max_load_factor := uninit
    m_table := List.replicate (find_next_prime table_sz_) [] }

/-- Size constructor `HashTbl( size_type sz )` with `find_next_prime` computed
in `std::size_t` arithmetic (`inner` and `rounds` bound its two loops). -/
def HashTbl.new_wrap (inner rounds : Nat) (table_sz_ : Nat) (uninit : ℚ) :
    Option (HashTbl K V) :=
  (find_next_prime_wrap inner rounds table_sz_).map (fun sz =>
    { m_size := sz
      m_count := 0
      m_max_load_factor := uninit
      m_table := List.replicate sz [] })

/-- The loop shared by the copy constructor and copy assignment: every
non-empty bucket of `src`, for `i < m_size`, is copied into `dst`. -/
def copy_buckets (m_size : Nat) (src dst : List (List (HashEntry K V))) :
    List (List (HashEntry K V)) :=
  (List.range m_size).foldl
    (fun acc i => if !(src.getD i []).isEmpty then acc.set i (src.getD i []) else acc) dst

/-- Copy constructor `HashTbl( const HashTbl& source )`. -/
def HashTbl.from_copy (source : HashTbl K V) : HashTbl K V :=
  { m_size := source.m_size
    m_count := source.m_count
    m_max_load_factor := source.m_max_load_factor
    m_table := copy_buckets source.m_size source.m_table (List.replicate source.m_size []) }

/-- Copy assignment `operator=( const HashTbl& clone )` onto a distinct object
`this_`: every member of `this_` is overwritten. -/
def HashTbl.assign (_this_ clone : HashTbl K V) : HashTbl K V :=
  { m_size := clone.m_size
    m_count := clone.m_count
    m_max_load_factor := clone.m_max_load_factor
    m_table := copy_buckets clone.m_size clone.m_table (List.replicate clone.m_size []) }

/-- Copy assignment of a table to itself (`t = t`). `clone` aliases `*this`, so
after `m_table = std::make_unique<...>( m_size )` the loop reads the fresh,
empty array: the counters stay and every bucket is empty. -/
def HashTbl.assign_self (t : HashTbl K V) : HashTbl K V :=
  { m_size := t.m_size
    m_count := t.m_count
    m_max_load_factor := t.m_max_load_factor
    m_table := copy_buckets t.m_size (List.replicate t.m_size []) (List.replicate t.m_size []) }

/-- Setter `max_load_factor( float mlf )`. -/
def HashTbl.set_max_load_factor (t : HashTbl K V) (mlf : ℚ) : HashTbl K V :=
  { t with m_max_load_factor := mlf }

/-- Getter `max_load_factor( )`. -/
def HashTbl.max_load_factor (t : HashTbl K V) : ℚ := t.m_max_load_factor

/-- Method `size( )`: the number of stored elements, `m_count`. -/
def HashTbl.size (t : HashTbl K V) : Nat := t.m_count

/-- Method `empty( )`. -/
def HashTbl.empty (t : HashTbl K V) : Bool := t.m_count == 0

/-- The assignment `item->m_data = new_data_` at the entry `std::find_if`
selects: the first entry of the chain satisfying `p`. -/
def assign_first (p : HashEntry K V → Bool) (new_data_ : V) :
    List (HashEntry K V) → List (HashEntry K V)
  | [] => []
  | en :: rest =>
    if p en then { en with m_data := new_data_ } :: rest
    else en :: assign_first p new_data_ rest

/-- Method `rehash( )`, given the `insert` it calls. `copy` is the snapshot of
the non-empty buckets; the entries are re-inserted bucket by bucket, each chain
from its head. -/
def HashTbl.rehash (insert : HashTbl K V → K → V → Option (Bool × HashTbl K V))
    (t : HashTbl K V) : Option (HashTbl K V) :=
  let copy := ((List.range t.m_size).map (fun i => t.m_table.getD i [])).filter
    (fun fl => !fl.isEmpty)
  let t0 : HashTbl K V :=
    { t with
      m_size := find_next_prime (2 * t.m_size)
      m_count := 0
      m_table := List.replicate (find_next_prime (2 * t.m_size)) [] }
  copy.foldlM
    (fun acc fl => fl.foldlM (fun acc en => (insert acc en.m_key en.m_data).map Prod.snd) acc) t0

/-- Method `insert( key_, new_data_ )`: the returned flag and the table after
the call. The first argument bounds the depth of nested `rehash` calls; `none`
means the bound was too small. -/
def HashTbl.insert (hashf : K → Nat) (eq : K → K → Bool) :
    Nat → HashTbl K V → K → V → Option (Bool × HashTbl K V)
  | 0, _, _, _ => none
  | fuel + 1, t, key_, new_data_ =>
    let idx := hashf key_ % t.m_size
    let which := t.m_table.getD idx []
    if which.any (fun en => eq en.m_key key_) then
      let updated := assign_first (fun en => eq en.m_key key_) new_data_ which
      some (false, { t with m_table := t.m_table.set idx updated })
    else
      let t1 : HashTbl K V :=
        { t with
          m_table := t.m_table.set idx (⟨key_, new_data_⟩ :: which)
          m_count := t.m_count + 1
          m_max_load_factor := ((t.m_count + 1 : Nat) : ℚ) / (t.m_size : ℚ) }
      if t1.m_max_load_factor > 1 then
        (HashTbl.rehash (HashTbl.insert hashf eq fuel) t1).map (fun t2 => (true, t2))
      else some (true, t1)

/-- Method `insert( key_, new_data_ )` with the load factor computed in `float`
as the code does: `max_load_factor( ( float ) ++m_count / m_size )` stores the
rounded quotient of the two rounded operands, and that stored value is compared
with `1.0`. Everything else is as in `HashTbl.insert`. -/
def HashTbl.insert_float (hashf : K → Nat) (eq : K → K → Bool) :
    Nat → HashTbl K V → K → V → Option (Bool × HashTbl K V)
  | 0, _, _, _ => none
  | fuel + 1, t, key_, new_data_ =>
    let idx := hashf key_ % t.m_size
    let which := t.m_table.getD idx []
    if which.any (fun en => eq en.m_key key_) then
      let updated := assign_first (fun en => eq en.m_key key_) new_data_ which
      some (false, { t with m_table := t.m_table.set idx updated })
    else
      let t1 : HashTbl K V :=
        { t with
          m_table := t.m_table.set idx (⟨key_, new_data_⟩ :: which)
          m_count := t.m_count + 1
          m_max_load_factor := load_factor_float (t.m_count + 1) t.m_size }
      if t1.m_max_load_factor > 1 then
        (HashTbl.rehash (HashTbl.insert_float hashf eq fuel) t1).map (fun t2 => (true, t2))
      else some (true, t1)

/-- The loop `for ( auto en : ilist ) insert( en.m_key, en.m_data );`. -/
def insert_all (hashf : K → Nat) (eq : K → K → Bool) (fuel : Nat)
    (t : HashTbl K V) (ilist : List (HashEntry K V)) : Option (HashTbl K V) :=
  ilist.foldlM (fun acc en => (HashTbl.insert hashf eq fuel acc en.m_key en.m_data).map Prod.snd) t

/-- Initializer-list constructor. As in the size constructor,
`m_max_load_factor` starts indeterminate (`uninit`). -/
def HashTbl.from_entries (hashf : K → Nat) (eq : K → K → Bool) (fuel : Nat)
    (ilist : List (HashEntry K V)) (uninit : ℚ) : Option (HashTbl K V) :=
  insert_all hashf eq fuel
    { m_size := find_next_prime (ilist.length * 2)
      m_count := 0
      m_max_load_factor := uninit
      m_table := List.replicate (find_next_prime (ilist.length * 2)) [] } ilist

/-- Initializer-list assignment `operator=( ilist )`. -/
def HashTbl.assign_entries (hashf : K → Nat) (eq : K → K → Bool) (fuel : Nat)
    (this_ : HashTbl K V) (ilist : List (HashEntry K V)) : Option (HashTbl K V) :=
  insert_all hashf eq fuel
    { this_ with
      m_size := find_next_prime (ilist.length * 2)
      m_count := 0
      m_table := List.replicate (find_next_prime (ilist.length * 2)) [] } ilist

/-- Method `clear( )`. -/
def HashTbl.clear (t : HashTbl K V) : HashTbl K V :=
  { t with
    m_count := 0
    m_table := (List.range t.m_size).foldl
      (fun acc i => if !(acc.getD i []).isEmpty then acc.set i [] else acc) t.m_table }

/-- Method `retrieve( key_, data_item_ )`: `some d` when the call returns `true`
and stores `d` in `data_item_`, `none` when it returns `false`. -/
def HashTbl.retrieve (hashf : K → Nat) (eq : K → K → Bool) (t : HashTbl K V) (key_ : K) :
    Option V :=
  ((t.m_table.getD (hashf key_ % t.m_size) []).find? (fun en => eq en.m_key key_)).map
    (fun item => item.m_data)

/-- Method `erase( key_ )`: the returned flag and the table after the call. -/
def HashTbl.erase (hashf : K → Nat) (eq : K → K → Bool) (t : HashTbl K V) (key_ : K) :
    Bool × HashTbl K V :=
  let idx := hashf key_ % t.m_size
  let which := t.m_table.getD idx []
  if which.any (fun en => eq en.m_key key_) then
    (true,
      { t with
        m_table := t.m_table.set idx (which.filter (fun en => !eq en.m_key key_))
        m_count := t.m_count - 1 })
  else (false, t)

/-- Method `count( key_ )`. -/
def HashTbl.count (hashf : K → Nat) (t : HashTbl K V) (key_ : K) : Nat :=
  (t.m_table.getD (hashf key_ % t.m_size) []).length

/-- The error `at` throws: `std::out_of_range( "Not present" )`. -/
inductive TblError where
  | out_of_range (what : String)
deriving DecidableEq, Repr

/-- Method `at( key_ )`: the data the returned reference designates or the
exception thrown, together with the table after the call. -/
def HashTbl.at (hashf : K → Nat) (eq : K → K → Bool) (t : HashTbl K V) (key_ : K) :
    Except TblError V × HashTbl K V :=
  match (t.m_table.getD (hashf key_ % t.m_size) []).find? (fun en => eq en.m_key key_) with
  | some item => (.ok item.m_data, t)
  | none => (.error (.out_of_range "Not present"), t)

/-- A write `d` through the reference returned by `at( key_ )` (or by
`operator[]` on a present key): it lands in the entry `std::find_if` selected.
Nothing is written when `at` throws. -/
def HashTbl.write_at (hashf : K → Nat) (eq : K → K → Bool) (t : HashTbl K V) (key_ : K)
    (d : V) : HashTbl K V :=
  let idx := hashf key_ % t.m_size
  let which := t.m_table.getD idx []
  if which.any (fun en => eq en.m_key key_) then
    { t with m_table := t.m_table.set idx (assign_first (fun en => eq en.m_key key_) d which) }
  else t

/-- Method `operator[]( key_ )`: the data the returned reference designates and
the table after the call. `DataType{ }` is `default`. -/
def HashTbl.get_or_insert [Inhabited V] (hashf : K → Nat) (eq : K → K → Bool)
    (t : HashTbl K V) (key_ : K) : V × HashTbl K V :=
  let idx := hashf key_ % t.m_size
  let which := t.m_table.getD idx []
  match which.find? (fun en => eq en.m_key key_) with
  | some item => (item.m_data, t)
  | none =>
    (default,
      { t with
        m_count := t.m_count + 1
        m_max_load_factor := ((t.m_count + 1 : Nat) : ℚ) / (t.m_size : ℚ)
        m_table := t.m_table.set idx (⟨key_, default⟩ :: which) })

/-- The dump `operator<<` per bucket index: `none` for the `"Empty"` marker,
otherwise the chain that is printed. -/
def HashTbl.dump (t : HashTbl K V) : List (Option (List V)) :=
  (List.range t.m_size).map (fun i =>
    if !(t.m_table.getD i []).isEmpty then some ((t.m_table.getD i []).map (fun en => en.m_data))
    else none)

end Operations

section Invariants

variable {K V : Type}

/-- What the container asks of `KeyEqual` and `KeyHash`: the equality predicate
is an equivalence and equal keys hash identically. -/
structure KeyLaws (hashf : K → Nat) (eq : K → K → Bool) : Prop where
  refl : ∀ a, eq a a = true
  symm : ∀ a b, eq a b = true → eq b a = true
  trans : ∀ a b c, eq a b = true → eq b c = true → eq a c = true
  hash_eq : ∀ a b, eq a b = true → hashf a = hashf b

/-- The scan `std::find_if( begin( which ), end( which ), eq( en.m_key, key_ ) )`
followed by reading `item->m_data`. -/
def lookup (eq : K → K → Bool) (which : List (HashEntry K V)) (key_ : K) : Option V :=
  (which.find? (fun en => eq en.m_key key_)).map (fun item => item.m_data)

/-- All entries held by the bucket array, bucket by bucket. -/
def HashTbl.entries (t : HashTbl K V) : List (HashEntry K V) := t.m_table.flatten

/-- The shape of the chains: the array has `m_size > 0` buckets, each entry
sits in the bucket `hash(key) mod m_size`, and no bucket holds two entries with
equal keys. -/
structure Chains (hashf : K → Nat) (eq : K → K → Bool) (t : HashTbl K V) : Prop where
  size_pos : 0 < t.m_size
  length_eq : t.m_table.length = t.m_size
  index_ok : ∀ i, ∀ en ∈ t.m_table.getD i [], hashf en.m_key % t.m_size = i
  nodup : ∀ i, (t.m_table.getD i []).Pairwise (fun a b => eq a.m_key b.m_key = false)

/-- The counter `m_count` equals the number of entries in the bucket array. -/
def Counted (t : HashTbl K V) : Prop := t.m_count = t.entries.length

/-- The representation invariant of the table. -/
def WF (hashf : K → Nat) (eq : K → K → Bool) (t : HashTbl K V) : Prop :=
  Chains hashf eq t ∧ Counted t

/-- The condition under which `insert( key_, _ )` calls `rehash( )`: the key is
not found and the recomputed load factor exceeds `1.0`. -/
def triggers_rehash (hashf : K → Nat) (eq : K → K → Bool) (t : HashTbl K V) (key_ : K) : Prop :=
  HashTbl.retrieve hashf eq t key_ = none ∧
    ((t.m_count + 1 : Nat) : ℚ) / (t.m_size : ℚ) > 1

/-- Tables reachable through the public interface: the three constructors, the
two assignments (copy assignment also onto the table itself), `insert`, `erase`,
`clear`, `operator[]`, writes through the references handed out by `at` and
`operator[]`, and the `max_load_factor` setter. -/
inductive Reachable [Inhabited V] (hashf : K → Nat) (eq : K → K → Bool) : HashTbl K V → Prop
  | new (table_sz_ : Nat) (uninit : ℚ) : Reachable hashf eq (HashTbl.new table_sz_ uninit)
  | from_copy {source : HashTbl K V} :
      Reachable hashf eq source → Reachable hashf eq (HashTbl.from_copy source)
  | from_entries {fuel : Nat} {ilist : List (HashEntry K V)} {uninit : ℚ} {t : HashTbl K V} :
      HashTbl.from_entries hashf eq fuel ilist uninit = some t → Reachable hashf eq t
  | assign {this_ clone : HashTbl K V} :
      Reachable hashf eq this_ → Reachable hashf eq clone →
      Reachable hashf eq (HashTbl.assign this_ clone)
  | assign_self {t : HashTbl K V} :
      Reachable hashf eq t → Reachable hashf eq (HashTbl.assign_self t)
  | assign_entries {fuel : Nat} {this_ : HashTbl K V} {ilist : List (HashEntry K V)}
      {t : HashTbl K V} :
      Reachable hashf eq this_ →
      HashTbl.assign_entries hashf eq fuel this_ ilist = some t → Reachable hashf eq t
  | insert {fuel : Nat} {t : HashTbl K V} {key_ : K} {new_data_ : V} {r : Bool × HashTbl K V} :
      Reachable hashf eq t →
      HashTbl.insert hashf eq fuel t key_ new_data_ = some r → Reachable hashf eq r.2
  | erase {t : HashTbl K V} (key_ : K) :
      Reachable hashf eq t → Reachable hashf eq (HashTbl.erase hashf eq t key_).2
  | clear {t : HashTbl K V} : Reachable hashf eq t → Reachable hashf eq (HashTbl.clear t)
  | write_at {t : HashTbl K V} (key_ : K) (d : V) :
      Reachable hashf eq t → Reachable hashf eq (HashTbl.write_at hashf eq t key_ d)
  | get_or_insert {t : HashTbl K V} (key_ : K) :
      Reachable hashf eq t → Reachable hashf eq (HashTbl.get_or_insert hashf eq t key_).2
  | set_max_load_factor {t : HashTbl K V} (mlf : ℚ) :
      Reachable hashf eq t → Reachable hashf eq (HashTbl.set_max_load_factor t mlf)

/-- Tables created by the size constructor with a capacity below `2^62` and
modified only by `insert`, `erase` and `clear`, the load factor computed in
`float`. -/
inductive ReachablePlainFloat (hashf : K → Nat) (eq : K → K → Bool) : HashTbl K V → Prop
  | new (table_sz_ : Nat) (uninit : ℚ) :
      table_sz_ < 2 ^ 62 → ReachablePlainFloat hashf eq (HashTbl.new table_sz_ uninit)
  | insert {fuel : Nat} {t : HashTbl K V} {key_ : K} {new_data_ : V} {r : Bool × HashTbl K V} :
      ReachablePlainFloat hashf eq t →
      HashTbl.insert_float hashf eq fuel t key_ new_data_ = some r →
      ReachablePlainFloat hashf eq r.2
  | erase {t : HashTbl K V} (key_ : K) :
      ReachablePlainFloat hashf eq t →
      ReachablePlainFloat hashf eq (HashTbl.erase hashf eq t key_).2
  | clear {t : HashTbl K V} :
      ReachablePlainFloat hashf eq t → ReachablePlainFloat hashf eq (HashTbl.clear t)

/-- Two tables that differ at most in the stored load factor. -/
structure SameButFactor (t t' : HashTbl K V) : Prop where
  size_eq : t.m_size = t'.m_size
  count_eq : t.m_count = t'.m_count
  table_eq : t.m_table = t'.m_table

/-- The table `insert` has built when it reaches its load-factor test: the new
entry is at the head of its bucket, `m_count` is incremented and the load
factor recomputed. -/
def HashTbl.pushed (hashf : K → Nat) (t : HashTbl K V) (k : K) (v : V) : HashTbl K V :=
  { t with
    m_table := t.m_table.set (hashf k % t.m_size) (⟨k, v⟩ :: t.m_table.getD (hashf k % t.m_size) [])
    m_count := t.m_count + 1
    m_max_load_factor := ((t.m_count + 1 : Nat) : ℚ) / (t.m_size : ℚ) }

/-- The table `insert` has built when it reaches its load-factor test, the load
factor computed in `float`. -/
def HashTbl.pushed_float (hashf : K → Nat) (t : HashTbl K V) (k : K) (v : V) : HashTbl K V :=
  { t with
    m_table := t.m_table.set (hashf k % t.m_size) (⟨k, v⟩ :: t.m_table.getD (hashf k % t.m_size) [])
    m_count := t.m_count + 1
    m_max_load_factor := load_factor_float (t.m_count + 1) t.m_size }

/-- The fresh table `rehash` re-inserts into. -/
def HashTbl.regrown (t : HashTbl K V) : HashTbl K V :=
  { t with
    m_size := find_next_prime (2 * t.m_size)
    m_count := 0
    m_table := List.replicate (find_next_prime (2 * t.m_size)) [] }

/-- The table `erase` leaves when it finds the key. -/
def HashTbl.unlinked (hashf : K → Nat) (eq : K → K → Bool) (t : HashTbl K V) (k : K) :
    HashTbl K V :=
  { t with
    m_table := (t.m_table.set (hashf k % t.m_size)
      ((t.m_table.getD (hashf k % t.m_size) []).filter (fun en => !eq en.m_key k)))
    m_count := t.m_count - 1 }

/-- What a completed `insert( k, v )` guarantees about its result `r`. -/
structure InsertSpec (hashf : K → Nat) (eq : K → K → Bool) (t : HashTbl K V) (k : K) (v : V)
    (r : Bool × HashTbl K V) : Prop where
  chains : Chains hashf eq r.2
  retrieve_eq : ∀ k', HashTbl.retrieve hashf eq r.2 k' =
    if eq k k' then some v else HashTbl.retrieve hashf eq t k'
  flag : r.1 = (HashTbl.retrieve hashf eq t k).isNone
  size_le : t.m_size ≤ r.2.m_size
  size_same : ¬ triggers_rehash hashf eq t k → r.2.m_size = t.m_size
  size_grow : triggers_rehash hashf eq t k → find_next_prime (2 * t.m_size) ≤ r.2.m_size
  count_same : ¬ triggers_rehash hashf eq t k →
    r.2.m_count = t.m_count + (if r.1 then 1 else 0)
  count_grow : triggers_rehash hashf eq t k → r.2.m_count = t.entries.length + 1
  entries_length : r.2.entries.length = t.entries.length + (if r.1 then 1 else 0)
  counted_grow : triggers_rehash hashf eq t k → Counted r.2

/-- An `insert` function is sound when every completed call on a table with
well-shaped chains meets `InsertSpec`. -/
def Sound (hashf : K → Nat) (eq : K → K → Bool)
    (ins : HashTbl K V → K → V → Option (Bool × HashTbl K V)) : Prop :=
  ∀ t k v r, Chains hashf eq t → ins t k v = some r → InsertSpec hashf eq t k v r

end Invariants

/-! ## Sequences of calls -/

/-- A call of `insert` or of `erase`. -/
inductive Op (K V : Type) where
  | insert (key_ : K) (new_data_ : V)
  | erase (key_ : K)

/-- One call of a sequence: the table after it. -/
def apply_op {K V : Type} (hashf : K → Nat) (eq : K → K → Bool) (fuel : Nat) (t : HashTbl K V) :
    Op K V → Option (HashTbl K V)
  | .insert key_ new_data_ => (HashTbl.insert hashf eq fuel t key_ new_data_).map Prod.snd
  | .erase key_ => some (HashTbl.erase hashf eq t key_).2

/-- A sequence of `insert` and `erase` calls, applied in order. -/
def run_ops {K V : Type} (hashf : K → Nat) (eq : K → K → Bool) (fuel : Nat) (t : HashTbl K V)
    (ops : List (Op K V)) : Option (HashTbl K V) :=
  ops.foldlM (apply_op hashf eq fuel) t

/-- Bookkeeping of the keys after one call: an inserted key is added unless an
equal one is there, an erased key is taken out. -/
def track_key {K V : Type} (eq : K → K → Bool) (ks : List K) : Op K V → List K
  | .insert key_ _ => if ks.any (fun x => eq x key_) then ks else key_ :: ks
  | .erase key_ => ks.filter (fun x => !eq x key_)

/-- The distinct keys inserted by a sequence of calls minus those erased since
(one representative per class of equal keys). It never looks at a table. -/
def distinct_keys {K V : Type} (eq : K → K → Bool) (ops : List (Op K V)) : List K :=
  ops.foldl (track_key eq) []

/-- A list of keys describes a table: it lists, without repetition, exactly the
keys `retrieve` finds, and `m_count` is its length. -/
structure KeysOf {K V : Type} (hashf : K → Nat) (eq : K → K → Bool) (t : HashTbl K V) (ks : List K) :
    Prop where
  wf : WF hashf eq t
  nodup : ks.Pairwise (fun a b => eq a b = false)
  present : ∀ k, (HashTbl.retrieve hashf eq t k).isSome = true ↔ ∃ k0 ∈ ks, eq k0 k = true
  count : t.m_count = ks.length

/-- The keys of an entry list without repetition: one key per class of equal
keys, so its length is the number of distinct keys of the list. -/
def keys_of_entries {K V : Type} (eq : K → K → Bool) (ilist : List (HashEntry K V)) : List K :=
  ilist.foldl (fun ks en => if ks.any (fun x => eq x en.m_key) then ks else en.m_key :: ks) []

/-- A table holds an entry list: it has `find_next_prime( 2 * length )` buckets,
`retrieve( k )` yields the data of the last entry of the list whose key equals
`k` and fails for a key that does not occur, and `size()` is the number of
distinct keys of the list. -/
structure HoldsList {K V : Type} (hashf : K → Nat) (eq : K → K → Bool) (t : HashTbl K V)
    (ilist : List (HashEntry K V)) : Prop where
  size_eq : t.m_size = find_next_prime (2 * ilist.length)
  length_eq : t.m_table.length = find_next_prime (2 * ilist.length)
  retrieve_eq : ∀ k, HashTbl.retrieve hashf eq t k =
    (ilist.reverse.find? (fun en => eq en.m_key k)).map (fun en => en.m_data)
  absent : ∀ k, (∀ en ∈ ilist, eq en.m_key k = false) → HashTbl.retrieve hashf eq t k = none
  count_eq : t.size = (keys_of_entries eq ilist).length
  keys_distinct : (keys_of_entries eq ilist).Pairwise (fun a b => eq a b = false)
  keys_occur : ∀ k, (∃ k0 ∈ keys_of_entries eq ilist, eq k0 k = true) ↔
    ∃ en ∈ ilist, eq en.m_key k = true

/-! ## A concrete instance: natural-number keys hashed by their value -/

/-- A `KeyHash` on `Nat` keys: the key itself. -/
def natHash : Nat → Nat := fun k => k

/-- A `KeyEqual` on `Nat` keys: `std::equal_to`. -/
def natEq : Nat → Nat → Bool := fun a b => a == b

/-- A table of two buckets holding the keys `0` and `1`, built through
`operator[]`. -/
def sample_full : HashTbl Nat Nat :=
  (HashTbl.get_or_insert natHash natEq
    (HashTbl.get_or_insert natHash natEq (HashTbl.new 1 0) 0).2 1).2

/-- A table of two buckets holding the keys `0` and `2`, which share bucket `0`. -/
def sample_collide : HashTbl Nat Nat :=
  (HashTbl.get_or_insert natHash natEq
    (HashTbl.get_or_insert natHash natEq (HashTbl.new 1 0) 0).2 2).2

/-- A table of two buckets holding the five keys `0` to `4`, built through
`operator[]`. -/
def sample_over : HashTbl Nat Nat :=
  (HashTbl.get_or_insert natHash natEq
    (HashTbl.get_or_insert natHash natEq
      (HashTbl.get_or_insert natHash natEq
        (HashTbl.get_or_insert natHash natEq
          (HashTbl.get_or_insert natHash natEq (HashTbl.new 1 0) 0).2 1).2 2).2 3).2 4).2

/-- The entries `(0, 0)`, `(1, 0)`, ..., `(n - 1, 0)`. -/
def range_entries (n : Nat) : List (HashEntry Nat Nat) :=
  (List.range n).map (fun i => ⟨i, 0⟩)

/-! ## Lists of buckets -/

section BucketLemmas

variable {K V : Type}

theorem getD_set_bucket {α : Type} (l : List (List α)) (i j : Nat) (x : List α) :
    (l.set i x).getD j [] = if i = j ∧ i < l.length then x else l.getD j [] := by
  simp only [List.getD_eq_getElem?_getD, List.getElem?_set]
  by_cases hij : i = j
  · subst hij
    by_cases hl : i < l.length
    · simp [hl]
    · simp [hl, List.getElem?_eq_none (Nat.le_of_not_lt hl)]
  · simp [hij]

theorem getD_replicate_nil {α : Type} (n j : Nat) :
    (List.replicate n ([] : List α)).getD j [] = [] := by
  simp only [List.getD_eq_getElem?_getD, List.getElem?_replicate]
  split <;> rfl

theorem lookup_nil (eq : K → K → Bool) (k : K) : lookup eq ([] : List (HashEntry K V)) k = none :=
  rfl

theorem lookup_cons (eq : K → K → Bool) (en : HashEntry K V) (l : List (HashEntry K V)) (k : K) :
    lookup eq (en :: l) k = if eq en.m_key k then some en.m_data else lookup eq l k := by
  unfold lookup
  rw [List.find?_cons]
  cases eq en.m_key k <;> simp

theorem lookup_eq_none_iff (eq : K → K → Bool) (l : List (HashEntry K V)) (k : K) :
    lookup eq l k = none ↔ l.any (fun en => eq en.m_key k) = false := by
  induction l with
  | nil => simp [lookup]
  | cons en l ih =>
    rw [lookup_cons, List.any_cons]
    cases h : eq en.m_key k <;> simp [ih]

theorem assign_first_keys (p : HashEntry K V → Bool) (d : V) (l : List (HashEntry K V)) :
    (assign_first p d l).map (fun en => en.m_key) = l.map (fun en => en.m_key) := by
  induction l with
  | nil => rfl
  | cons en l ih =>
    unfold assign_first
    split
    · simp
    · simp [ih]

theorem assign_first_length (p : HashEntry K V → Bool) (d : V) (l : List (HashEntry K V)) :
    (assign_first p d l).length = l.length := by
  have := congrArg List.length (assign_first_keys p d l)
  simpa using this

theorem lookup_assign_first {hashf : K → Nat} {eq : K → K → Bool} (laws : KeyLaws hashf eq)
    (k : K) (d : V) (k' : K) (l : List (HashEntry K V))
    (h : l.any (fun en => eq en.m_key k) = true) :
    lookup eq (assign_first (fun en => eq en.m_key k) d l) k' =
      if eq k k' then some d else lookup eq l k' := by
  induction l with
  | nil => simp at h
  | cons en l ih =>
    unfold assign_first
    by_cases hp : eq en.m_key k = true
    · simp only [hp, if_true]
      rw [lookup_cons, lookup_cons]
      by_cases hk : eq k k' = true
      · simp [hk, laws.trans _ _ _ hp hk]
      · have : eq en.m_key k' = false := by
          cases h2 : eq en.m_key k'
          · rfl
          · exact absurd (laws.trans _ _ _ (laws.symm _ _ hp) h2) hk
        simp [hk, this]
    · simp only [hp, Bool.false_eq_true, if_false]
      rw [lookup_cons, lookup_cons]
      have hrest : l.any (fun en => eq en.m_key k) = true := by
        rw [List.any_cons] at h
        simpa [hp] using h
      rw [ih hrest]
      by_cases hk : eq k k' = true
      · have : eq en.m_key k' = false := by
          cases h2 : eq en.m_key k'
          · rfl
          · exact absurd (laws.trans _ _ _ h2 (laws.symm _ _ hk)) hp
        simp [hk, this]
      · simp [hk]

theorem lookup_filter_self (eq : K → K → Bool) (k : K) (l : List (HashEntry K V)) :
    lookup eq (l.filter (fun en => !eq en.m_key k)) k = none := by
  rw [lookup_eq_none_iff]
  rw [Bool.eq_false_iff]
  intro h
  rw [List.any_eq_true] at h
  obtain ⟨x, hx, hxk⟩ := h
  have := (List.mem_filter.1 hx).2
  simp [hxk] at this

theorem lookup_filter_other {hashf : K → Nat} {eq : K → K → Bool} (laws : KeyLaws hashf eq)
    (k k' : K) (hne : eq k k' = false) (l : List (HashEntry K V)) :
    lookup eq (l.filter (fun en => !eq en.m_key k)) k' = lookup eq l k' := by
  induction l with
  | nil => rfl
  | cons en l ih =>
    rw [List.filter_cons]
    by_cases hp : eq en.m_key k = true
    · have : eq en.m_key k' = false := by
        cases h2 : eq en.m_key k'
        · rfl
        · rw [laws.trans _ _ _ (laws.symm _ _ hp) h2] at hne
          exact absurd hne (by simp)
      simp [hp, lookup_cons, this, ih]
    · simp [hp, lookup_cons, ih]

theorem lookup_eq_some_iff {hashf : K → Nat} {eq : K → K → Bool} (laws : KeyLaws hashf eq)
    (l : List (HashEntry K V)) (hpw : l.Pairwise (fun a b => eq a.m_key b.m_key = false))
    (k : K) (v : V) :
    lookup eq l k = some v ↔ ∃ en ∈ l, eq en.m_key k = true ∧ en.m_data = v := by
  induction l with
  | nil => simp [lookup]
  | cons en l ih =>
    rw [List.pairwise_cons] at hpw
    rw [lookup_cons]
    by_cases hp : eq en.m_key k = true
    · simp only [hp, if_true, Option.some.injEq, List.mem_cons, exists_eq_or_imp, true_and]
      constructor
      · intro h; exact Or.inl h
      · rintro (h | ⟨x, hx, hxk, _⟩)
        · exact h
        · have := hpw.1 x hx
          rw [laws.trans _ _ _ hp (laws.symm _ _ hxk)] at this
          exact absurd this (by simp)
    · simp only [hp, Bool.false_eq_true, if_false, List.mem_cons, exists_eq_or_imp, false_and,
        false_or]
      exact ih hpw.2

theorem lt_find_next_prime (n : Nat) : n < find_next_prime n := by
  induction n using find_next_prime.induct with
  | case1 n h =>
    rw [find_next_prime, if_pos h]
    exact Nat.lt_succ_self n
  | case2 n h ih =>
    rw [find_next_prime, if_neg h]
    omega

theorem range_map_getD {α : Type} (l : List (List α)) :
    (List.range l.length).map (fun i => l.getD i []) = l := by
  apply List.ext_getElem
  · simp
  · intro n h1 h2
    simp [List.getElem?_eq_getElem h2]

theorem foldlM_flatten {α β : Type} (f : β → α → Option β) (L : List (List α)) (init : β) :
    L.foldlM (fun acc l => l.foldlM f acc) init = L.flatten.foldlM f init := by
  induction L generalizing init with
  | nil => rfl
  | cons l L ih =>
    rw [List.foldlM_cons, List.flatten_cons, List.foldlM_append]
    congr 1
    funext b
    exact ih b

end BucketLemmas

/-! ## The chain invariant -/

section ChainLemmas

variable {K V : Type} {hashf : K → Nat} {eq : K → K → Bool}

theorem retrieve_eq_lookup (t : HashTbl K V) (k : K) :
    HashTbl.retrieve hashf eq t k = lookup eq (t.m_table.getD (hashf k % t.m_size) []) k := rfl

theorem Chains.idx_lt {t : HashTbl K V} (hc : Chains hashf eq t) (k : K) :
    hashf k % t.m_size < t.m_table.length := by
  rw [hc.length_eq]
  exact Nat.mod_lt _ hc.size_pos

theorem chains_of_fields {t t' : HashTbl K V} (hc : Chains hashf eq t)
    (hs : t'.m_size = t.m_size) (ht : t'.m_table = t.m_table) : Chains hashf eq t' :=
  ⟨by rw [hs]; exact hc.size_pos, by rw [ht, hs]; exact hc.length_eq,
    by rw [ht, hs]; exact hc.index_ok, by rw [ht]; exact hc.nodup⟩

theorem chains_set {t t' : HashTbl K V} (hc : Chains hashf eq t) (idx : Nat)
    (b : List (HashEntry K V)) (hs : t'.m_size = t.m_size)
    (ht : t'.m_table = t.m_table.set idx b)
    (hb : ∀ en ∈ b, hashf en.m_key % t.m_size = idx)
    (hp : b.Pairwise (fun a b => eq a.m_key b.m_key = false)) : Chains hashf eq t' := by
  refine ⟨by rw [hs]; exact hc.size_pos, by rw [ht, hs, List.length_set]; exact hc.length_eq,
    ?_, ?_⟩
  · intro i en hen
    rw [ht, getD_set_bucket] at hen
    rw [hs]
    split at hen
    · rename_i h
      rw [← h.1]
      exact hb en hen
    · exact hc.index_ok i en hen
  · intro i
    rw [ht, getD_set_bucket]
    split
    · exact hp
    · exact hc.nodup i

theorem retrieve_set {t t' : HashTbl K V} (hc : Chains hashf eq t) (idx : Nat)
    (b : List (HashEntry K V)) (hs : t'.m_size = t.m_size)
    (ht : t'.m_table = t.m_table.set idx b) (hidx : idx < t.m_size) (k' : K) :
    HashTbl.retrieve hashf eq t' k' =
      if hashf k' % t.m_size = idx then lookup eq b k' else HashTbl.retrieve hashf eq t k' := by
  rw [retrieve_eq_lookup, retrieve_eq_lookup, ht, hs, getD_set_bucket]
  have hl : idx < t.m_table.length := by rw [hc.length_eq]; exact hidx
  by_cases h : hashf k' % t.m_size = idx
  · simp [h, hl]
  · have h2 : ¬ idx = hashf k' % t.m_size := fun e => h e.symm
    simp [h, h2]

theorem length_flatten_set {α : Type} (l : List (List α)) (i : Nat) (b : List α)
    (hi : i < l.length) :
    (l.set i b).flatten.length + (l.getD i []).length = l.flatten.length + b.length := by
  induction l generalizing i with
  | nil => simp at hi
  | cons x l ih =>
    cases i with
    | zero => simp; omega
    | succ i =>
      have hi' : i < l.length := by simpa using hi
      have := ih i hi'
      simp only [List.set_cons_succ, List.flatten_cons, List.length_append, List.getD_cons_succ]
      omega

theorem mem_entries_iff (t : HashTbl K V) (en : HashEntry K V) :
    en ∈ t.entries ↔ ∃ i, en ∈ t.m_table.getD i [] := by
  unfold HashTbl.entries
  rw [List.mem_flatten]
  constructor
  · rintro ⟨l, hl, hen⟩
    obtain ⟨i, hi, rfl⟩ := List.getElem_of_mem hl
    exact ⟨i, by simpa [List.getElem?_eq_getElem hi] using hen⟩
  · rintro ⟨i, hen⟩
    by_cases hi : i < t.m_table.length
    · refine ⟨t.m_table[i], List.getElem_mem hi, ?_⟩
      simpa [List.getElem?_eq_getElem hi] using hen
    · simp [List.getElem?_eq_none (Nat.le_of_not_lt hi)] at hen

theorem entries_pairwise (laws : KeyLaws hashf eq) {t : HashTbl K V} (hc : Chains hashf eq t) :
    t.entries.Pairwise (fun a b => eq a.m_key b.m_key = false) := by
  unfold HashTbl.entries
  rw [List.pairwise_flatten]
  constructor
  · intro l hl
    obtain ⟨i, hi, rfl⟩ := List.getElem_of_mem hl
    have := hc.nodup i
    simpa [List.getElem?_eq_getElem hi] using this
  · rw [List.pairwise_iff_getElem]
    intro i j hi hj hij x hx y hy
    have h1 := hc.index_ok i x (by simpa [List.getElem?_eq_getElem hi] using hx)
    have h2 := hc.index_ok j y (by simpa [List.getElem?_eq_getElem hj] using hy)
    cases h : eq x.m_key y.m_key
    · rfl
    · have := laws.hash_eq _ _ h
      rw [this] at h1
      omega

theorem retrieve_eq_some_iff (laws : KeyLaws hashf eq) {t : HashTbl K V}
    (hc : Chains hashf eq t) (k : K) (v : V) :
    HashTbl.retrieve hashf eq t k = some v ↔
      ∃ en ∈ t.entries, eq en.m_key k = true ∧ en.m_data = v := by
  rw [retrieve_eq_lookup, lookup_eq_some_iff laws _ (hc.nodup _)]
  constructor
  · rintro ⟨en, hen, h⟩
    exact ⟨en, (mem_entries_iff t en).2 ⟨_, hen⟩, h⟩
  · rintro ⟨en, hen, hk, hv⟩
    obtain ⟨i, hi⟩ := (mem_entries_iff t en).1 hen
    have h1 := hc.index_ok i en hi
    rw [laws.hash_eq _ _ hk] at h1
    rw [h1]
    exact ⟨en, hi, hk, hv⟩

theorem lookup_entries (laws : KeyLaws hashf eq) {t : HashTbl K V} (hc : Chains hashf eq t)
    (k : K) : lookup eq t.entries k = HashTbl.retrieve hashf eq t k := by
  apply Option.ext
  intro v
  simp only [Option.mem_def]
  rw [retrieve_eq_some_iff laws hc, lookup_eq_some_iff laws _ (entries_pairwise laws hc)]

theorem chains_fresh (n : Nat) (hn : 0 < n) {t : HashTbl K V} (hs : t.m_size = n)
    (ht : t.m_table = List.replicate n []) : Chains hashf eq t := by
  refine ⟨by omega, by simp [ht, hs], ?_, ?_⟩
  · intro i en hen
    rw [ht, getD_replicate_nil] at hen
    simp at hen
  · intro i
    rw [ht, getD_replicate_nil]
    exact List.Pairwise.nil

theorem entries_fresh (n : Nat) {t : HashTbl K V} (ht : t.m_table = List.replicate n []) :
    t.entries = [] := by
  unfold HashTbl.entries
  rw [ht]
  induction n with
  | zero => rfl
  | succ n ih => simp [List.replicate_succ]

theorem retrieve_fresh (n : Nat) {t : HashTbl K V} (ht : t.m_table = List.replicate n [])
    (k : K) : HashTbl.retrieve hashf eq t k = none := by
  rw [retrieve_eq_lookup, ht, getD_replicate_nil]
  rfl

end ChainLemmas

/-! ## What one `insert` does -/

section InsertLemmas

variable {K V : Type} {hashf : K → Nat} {eq : K → K → Bool}

/-- The effect of `which.push_front( entry )` for a key not found in its bucket. -/
theorem push_spec (laws : KeyLaws hashf eq) {t : HashTbl K V} (hc : Chains hashf eq t)
    (k : K) (v : V)
    (hnf : (t.m_table.getD (hashf k % t.m_size) []).any (fun en => eq en.m_key k) = false)
    (t1 : HashTbl K V) (hs : t1.m_size = t.m_size)
    (ht : t1.m_table = t.m_table.set (hashf k % t.m_size)
      (⟨k, v⟩ :: t.m_table.getD (hashf k % t.m_size) [])) :
    Chains hashf eq t1 ∧
    (∀ k', HashTbl.retrieve hashf eq t1 k' =
      if eq k k' then some v else HashTbl.retrieve hashf eq t k') ∧
    t1.entries.length = t.entries.length + 1 := by
  refine ⟨?_, ?_, ?_⟩
  · apply chains_set hc _ _ hs ht
    · intro en hen
      rcases List.mem_cons.1 hen with h | h
      · rw [h]
      · exact hc.index_ok _ en h
    · rw [List.pairwise_cons]
      refine ⟨?_, hc.nodup _⟩
      intro en hen
      cases h : eq k en.m_key
      · rfl
      · have h2 := laws.symm _ _ h
        have : (t.m_table.getD (hashf k % t.m_size) []).any (fun en => eq en.m_key k) = true :=
          List.any_eq_true.2 ⟨en, hen, h2⟩
        rw [this] at hnf
        exact absurd hnf (by simp)
  · intro k'
    rw [retrieve_set hc _ _ hs ht (Nat.mod_lt _ hc.size_pos)]
    by_cases hi : hashf k' % t.m_size = hashf k % t.m_size
    · rw [if_pos hi, lookup_cons, retrieve_eq_lookup, hi]
    · rw [if_neg hi]
      have : eq k k' = false := by
        cases h : eq k k'
        · rfl
        · exact absurd (by rw [laws.hash_eq _ _ h]) hi
      simp [this]
  · have := length_flatten_set t.m_table (hashf k % t.m_size)
      (⟨k, v⟩ :: t.m_table.getD (hashf k % t.m_size) []) (hc.idx_lt k)
    unfold HashTbl.entries
    rw [ht]
    simp only [List.length_cons] at this
    omega

/-- The effect of `item->m_data = new_data_` for a key found in its bucket. -/
theorem assign_spec (laws : KeyLaws hashf eq) {t : HashTbl K V} (hc : Chains hashf eq t)
    (k : K) (v : V)
    (hf : (t.m_table.getD (hashf k % t.m_size) []).any (fun en => eq en.m_key k) = true)
    (t1 : HashTbl K V) (hs : t1.m_size = t.m_size)
    (ht : t1.m_table = t.m_table.set (hashf k % t.m_size)
      (assign_first (fun en => eq en.m_key k) v (t.m_table.getD (hashf k % t.m_size) []))) :
    Chains hashf eq t1 ∧
    (∀ k', HashTbl.retrieve hashf eq t1 k' =
      if eq k k' then some v else HashTbl.retrieve hashf eq t k') ∧
    t1.entries.length = t.entries.length := by
  have hkeys := assign_first_keys (fun en => eq en.m_key k) v
    (t.m_table.getD (hashf k % t.m_size) [])
  refine ⟨?_, ?_, ?_⟩
  · apply chains_set hc _ _ hs ht
    · intro en hen
      have : en.m_key ∈ (t.m_table.getD (hashf k % t.m_size) []).map (fun en => en.m_key) := by
        rw [← hkeys]
        exact List.mem_map.2 ⟨en, hen, rfl⟩
      obtain ⟨en2, hen2, he⟩ := List.mem_map.1 this
      rw [← he]
      exact hc.index_ok _ en2 hen2
    · have h1 := hc.nodup (hashf k % t.m_size)
      have h2 : ((t.m_table.getD (hashf k % t.m_size) []).map (fun en => en.m_key)).Pairwise
          (fun a b => eq a b = false) := List.pairwise_map.2 h1
      rw [← hkeys] at h2
      exact List.pairwise_map.1 h2
  · intro k'
    rw [retrieve_set hc _ _ hs ht (Nat.mod_lt _ hc.size_pos)]
    by_cases hi : hashf k' % t.m_size = hashf k % t.m_size
    · rw [if_pos hi, lookup_assign_first laws k v k' _ hf, retrieve_eq_lookup, hi]
    · rw [if_neg hi]
      have : eq k k' = false := by
        cases h : eq k k'
        · rfl
        · exact absurd (by rw [laws.hash_eq _ _ h]) hi
      simp [this]
  · have := length_flatten_set t.m_table (hashf k % t.m_size)
      (assign_first (fun en => eq en.m_key k) v (t.m_table.getD (hashf k % t.m_size) []))
      (hc.idx_lt k)
    unfold HashTbl.entries
    rw [ht]
    rw [assign_first_length] at this
    omega

theorem InsertSpec.counted {t : HashTbl K V} {k : K} {v : V} {r : Bool × HashTbl K V}
    (h : InsertSpec hashf eq t k v r) (hct : Counted t) :
    Counted r.2 ∧ r.2.m_count = t.m_count + (if r.1 then 1 else 0) := by
  unfold Counted at *
  by_cases htr : triggers_rehash hashf eq t k
  · have h1 := h.count_grow htr
    have h2 := h.flag
    rw [htr.1] at h2
    have h3 := h.entries_length
    simp only [h2, Option.isNone_none, if_true] at h3 ⊢
    omega
  · have h1 := h.count_same htr
    have h3 := h.entries_length
    omega

theorem lookup_append (eq : K → K → Bool) (l1 l2 : List (HashEntry K V)) (k : K) :
    lookup eq (l1 ++ l2) k =
      if (lookup eq l1 k).isSome then lookup eq l1 k else lookup eq l2 k := by
  induction l1 with
  | nil => simp [lookup_nil]
  | cons en l ih =>
    rw [List.cons_append, lookup_cons, lookup_cons]
    by_cases h : eq en.m_key k = true
    · simp [h]
    · simp [h, ih]

/-- Re-inserting a list of entries one after the other: the chains stay
well-shaped, the bucket array never shrinks, and each key ends up with the data
of its last occurrence in the list. -/
theorem fold_spec {ins : HashTbl K V → K → V → Option (Bool × HashTbl K V)}
    (hs : Sound hashf eq ins) :
    ∀ (L : List (HashEntry K V)) (T T' : HashTbl K V), Chains hashf eq T →
      L.foldlM (fun acc en => (ins acc en.m_key en.m_data).map Prod.snd) T = some T' →
      Chains hashf eq T' ∧ T.m_size ≤ T'.m_size ∧
      (∀ k', HashTbl.retrieve hashf eq T' k' =
        if (lookup eq L.reverse k').isSome then lookup eq L.reverse k'
        else HashTbl.retrieve hashf eq T k') ∧
      (Counted T → Counted T') ∧
      (Counted T → L.Pairwise (fun a b => eq a.m_key b.m_key = false) →
        (∀ e ∈ L, HashTbl.retrieve hashf eq T e.m_key = none) →
        T'.m_count = T.m_count + L.length) := by
  intro L
  induction L with
  | nil =>
    intro T T' hc h
    simp only [List.foldlM_nil] at h
    have : T = T' := by simpa using h
    subst this
    exact ⟨hc, le_refl _, by intro k'; simp [lookup_nil], fun h => h, fun _ _ _ => by simp⟩
  | cons e L ih =>
    intro T T' hc h
    rw [List.foldlM_cons] at h
    obtain ⟨T1, h1, h2⟩ := Option.bind_eq_some.1 h
    obtain ⟨r, hr, hrT⟩ := Option.map_eq_some'.1 h1
    have sp := hs T e.m_key e.m_data r hc hr
    subst hrT
    obtain ⟨c', sz', ret', cnt', num'⟩ := ih r.2 T' sp.chains h2
    refine ⟨c', le_trans sp.size_le sz', ?_, ?_, ?_⟩
    · intro k'
      rw [ret', sp.retrieve_eq, List.reverse_cons, lookup_append, lookup_cons, lookup_nil]
      by_cases hl : (lookup eq L.reverse k').isSome = true
      · simp [hl]
      · simp only [hl, Bool.false_eq_true, if_false]
        by_cases he : eq e.m_key k' = true
        · simp [he]
        · simp [he]
    · intro hct
      exact cnt' (sp.counted hct).1
    · intro hct hpw habs
      rw [List.pairwise_cons] at hpw
      have hcnt := sp.counted hct
      have hflag := sp.flag
      rw [habs e (List.mem_cons_self _ _)] at hflag
      have := num' hcnt.1 hpw.2 (by
        intro e' he'
        rw [sp.retrieve_eq, hpw.1 e' he']
        simpa using habs e' (List.mem_cons_of_mem _ he'))
      rw [this, hcnt.2, hflag]
      simp only [Option.isNone_none, if_true, List.length_cons]
      omega

theorem lookup_reverse (laws : KeyLaws hashf eq) (l : List (HashEntry K V))
    (hpw : l.Pairwise (fun a b => eq a.m_key b.m_key = false)) (k : K) :
    lookup eq l.reverse k = lookup eq l k := by
  have hrev : l.reverse.Pairwise (fun a b => eq a.m_key b.m_key = false) := by
    rw [List.pairwise_reverse]
    refine hpw.imp ?_
    intro a b hab
    cases h : eq b.m_key a.m_key
    · rfl
    · rw [laws.symm _ _ h] at hab
      exact absurd hab (by simp)
  apply Option.ext
  intro v
  simp only [Option.mem_def]
  rw [lookup_eq_some_iff laws _ hrev, lookup_eq_some_iff laws _ hpw]
  simp only [List.mem_reverse]

theorem retrieve_eq_none_iff (t : HashTbl K V) (k : K) :
    HashTbl.retrieve hashf eq t k = none ↔
      (t.m_table.getD (hashf k % t.m_size) []).any (fun en => eq en.m_key k) = false := by
  rw [retrieve_eq_lookup, lookup_eq_none_iff]

theorem write_at_found (t : HashTbl K V) (k : K) (v : V)
    (hf : (t.m_table.getD (hashf k % t.m_size) []).any (fun en => eq en.m_key k) = true) :
    HashTbl.write_at hashf eq t k v =
      { t with m_table := (t.m_table.set (hashf k % t.m_size)
          (assign_first (fun en => eq en.m_key k) v (t.m_table.getD (hashf k % t.m_size) []))) } := by
  unfold HashTbl.write_at
  simp only []
  rw [if_pos hf]

theorem write_at_absent (t : HashTbl K V) (k : K) (v : V)
    (hf : (t.m_table.getD (hashf k % t.m_size) []).any (fun en => eq en.m_key k) = false) :
    HashTbl.write_at hashf eq t k v = t := by
  unfold HashTbl.write_at
  simp only []
  rw [if_neg (by rw [hf]; exact Bool.false_ne_true)]

/-- The equation of `insert` with fuel left. -/
theorem insert_succ (fuel : Nat) (t : HashTbl K V) (k : K) (v : V) :
    HashTbl.insert hashf eq (fuel + 1) t k v =
      if (t.m_table.getD (hashf k % t.m_size) []).any (fun en => eq en.m_key k) then
        some (false, HashTbl.write_at hashf eq t k v)
      else if ((t.m_count + 1 : Nat) : ℚ) / (t.m_size : ℚ) > 1 then
        (HashTbl.rehash (HashTbl.insert hashf eq fuel) (HashTbl.pushed hashf t k v)).map
          (fun t2 => (true, t2))
      else
        some (true, HashTbl.pushed hashf t k v) := by
  by_cases hf : (t.m_table.getD (hashf k % t.m_size) []).any (fun en => eq en.m_key k) = true
  · simp only [HashTbl.insert, HashTbl.write_at, hf, if_true]
  · simp only [HashTbl.insert, hf, Bool.false_eq_true, if_false]
    rfl

/-- The equation of `rehash`: the entries are re-inserted in array order into
a fresh array of `find_next_prime( 2 * m_size )` buckets. -/
theorem rehash_eq_fold (ins : HashTbl K V → K → V → Option (Bool × HashTbl K V))
    (t : HashTbl K V) (hl : t.m_table.length = t.m_size) :
    HashTbl.rehash ins t =
      t.entries.foldlM (fun acc en => (ins acc en.m_key en.m_data).map Prod.snd)
        (HashTbl.regrown t) := by
  unfold HashTbl.rehash HashTbl.entries HashTbl.regrown
  simp only []
  rw [foldlM_flatten, ← hl, range_map_getD, List.flatten_filter_not_isEmpty]

theorem chains_regrown (t : HashTbl K V) : Chains hashf eq (HashTbl.regrown t) :=
  chains_fresh _ (Nat.lt_of_le_of_lt (Nat.zero_le _) (lt_find_next_prime _)) rfl rfl

theorem counted_regrown (t : HashTbl K V) : Counted (HashTbl.regrown t) := by
  unfold Counted
  rw [entries_fresh (find_next_prime (2 * t.m_size)) rfl]
  rfl

theorem retrieve_regrown (t : HashTbl K V) (k : K) :
    HashTbl.retrieve hashf eq (HashTbl.regrown t) k = none :=
  retrieve_fresh (find_next_prime (2 * t.m_size)) rfl k

/-- Method `rehash` keeps every pair, recounts the entries and grows the array. -/
theorem rehash_spec (laws : KeyLaws hashf eq)
    {ins : HashTbl K V → K → V → Option (Bool × HashTbl K V)} (hs : Sound hashf eq ins)
    {t1 t2 : HashTbl K V} (hc1 : Chains hashf eq t1) (h : HashTbl.rehash ins t1 = some t2) :
    Chains hashf eq t2 ∧ Counted t2 ∧ t2.m_count = t1.entries.length ∧
      find_next_prime (2 * t1.m_size) ≤ t2.m_size ∧
      ∀ k', HashTbl.retrieve hashf eq t2 k' = HashTbl.retrieve hashf eq t1 k' := by
  rw [rehash_eq_fold ins t1 hc1.length_eq] at h
  obtain ⟨c2, sz2, ret2, cnt2, num2⟩ := fold_spec hs _ _ _ (chains_regrown t1) h
  have hpw := entries_pairwise laws hc1
  refine ⟨c2, cnt2 (counted_regrown t1), ?_, sz2, ?_⟩
  · have := num2 (counted_regrown t1) hpw (fun e _ => retrieve_regrown t1 _)
    simpa [HashTbl.regrown] using this
  · intro k'
    rw [ret2, lookup_reverse laws _ hpw, lookup_entries laws hc1, retrieve_regrown]
    cases HashTbl.retrieve hashf eq t1 k' <;> rfl

/-- Every completed `insert`, at any fuel, meets `InsertSpec`. -/
theorem insert_sound (laws : KeyLaws hashf eq) :
    ∀ fuel : Nat, Sound hashf eq (HashTbl.insert (V := V) hashf eq fuel) := by
  intro fuel
  induction fuel with
  | zero =>
    intro t k v r _ h
    simp [HashTbl.insert] at h
  | succ fuel ih =>
    intro t k v r hc h
    rw [insert_succ] at h
    by_cases hf : (t.m_table.getD (hashf k % t.m_size) []).any (fun en => eq en.m_key k) = true
    · rw [if_pos hf] at h
      have hr : r = (false, _) := (Option.some.inj h).symm
      subst hr
      obtain ⟨a1, a2, a3⟩ := assign_spec laws hc k v hf
        (HashTbl.write_at hashf eq t k v) (by rw [write_at_found t k v hf]) (by rw [write_at_found t k v hf])
      have hret : HashTbl.retrieve hashf eq t k ≠ none := by
        rw [Ne, retrieve_eq_none_iff, hf]
        simp
      have hnt : ¬ triggers_rehash hashf eq t k := fun h => hret h.1
      refine ⟨a1, a2, ?_, ?_, ?_, fun h => absurd h hnt, ?_,
        fun h => absurd h hnt, by simpa using a3, fun h => absurd h hnt⟩
      · cases hh : HashTbl.retrieve hashf eq t k
        · exact absurd hh hret
        · rfl
      · rw [write_at_found t k v hf]
      · intro _
        rw [write_at_found t k v hf]
      · intro _
        rw [write_at_found t k v hf]
        simp
    · have hnf : (t.m_table.getD (hashf k % t.m_size) []).any (fun en => eq en.m_key k) = false := by
        simpa using hf
      have hret : HashTbl.retrieve hashf eq t k = none := (retrieve_eq_none_iff t k).2 hnf
      obtain ⟨p1, p2, p3⟩ := push_spec laws hc k v hnf (HashTbl.pushed hashf t k v) rfl rfl
      rw [if_neg hf] at h
      by_cases hlf : ((t.m_count + 1 : Nat) : ℚ) / (t.m_size : ℚ) > 1
      · rw [if_pos hlf] at h
        obtain ⟨t2, h2, hr⟩ := Option.map_eq_some'.1 h
        subst hr
        have htr : triggers_rehash hashf eq t k := ⟨hret, hlf⟩
        obtain ⟨r1, r2, r3, r4, r5⟩ := rehash_spec laws ih p1 h2
        have hlt := lt_find_next_prime (2 * t.m_size)
        have r4' : find_next_prime (2 * t.m_size) ≤ t2.m_size := r4
        refine ⟨r1, ?_, by simp [hret], by show t.m_size ≤ t2.m_size; omega,
          fun h => absurd htr h, fun _ => r4',
          fun h => absurd htr h, fun _ => by rw [r3, p3], ?_, fun _ => r2⟩
        · intro k'
          rw [r5, p2]
        · have : t2.entries.length = t2.m_count := r2.symm
          simp only [this, r3, p3, if_true]
      · rw [if_neg hlf] at h
        have hr : r = (true, _) := (Option.some.inj h).symm
        subst hr
        have hnt : ¬ triggers_rehash hashf eq t k := fun h => hlf h.2
        exact ⟨p1, p2, by simp [hret], le_refl _, fun _ => rfl, fun h => absurd h hnt,
          fun _ => rfl, fun h => absurd h hnt, by simpa using p3, fun h => absurd h hnt⟩

/-! ## Fuel: three levels of `insert` always suffice -/

theorem load_gt_one_iff (c s : Nat) : ((c : Nat) : ℚ) / (s : ℚ) > 1 ↔ 0 < s ∧ s < c := by
  rcases Nat.eq_zero_or_pos s with h0 | hpos
  · subst h0
    simp
  · have hq : (0 : ℚ) < (s : ℚ) := by exact_mod_cast hpos
    rw [gt_iff_lt, one_lt_div hq, Nat.cast_lt]
    exact ⟨fun h => ⟨hpos, h⟩, fun h => h.2⟩

/-- With room for one more entry, `insert` completes without calling `rehash`. -/
theorem insert_light (fuel : Nat) (t : HashTbl K V) (k : K) (v : V)
    (h : t.m_count + 1 ≤ t.m_size) :
    ∃ r, HashTbl.insert hashf eq (fuel + 1) t k v = some r ∧ r.2.m_size = t.m_size ∧
      r.2.m_count ≤ t.m_count + 1 := by
  rw [insert_succ]
  by_cases hf : (t.m_table.getD (hashf k % t.m_size) []).any (fun en => eq en.m_key k) = true
  · rw [if_pos hf]
    refine ⟨_, rfl, ?_, ?_⟩
    · rw [write_at_found t k v hf]
    · rw [write_at_found t k v hf]
      exact Nat.le_succ _
  · rw [if_neg hf]
    have hlf : ¬ ((t.m_count + 1 : Nat) : ℚ) / (t.m_size : ℚ) > 1 := by
      rw [load_gt_one_iff]
      omega
    rw [if_neg hlf]
    exact ⟨_, rfl, rfl, le_refl _⟩

theorem fold_light (fuel : Nat) :
    ∀ (L : List (HashEntry K V)) (T : HashTbl K V), T.m_count + L.length ≤ T.m_size →
      ∃ T', L.foldlM
        (fun acc en => (HashTbl.insert hashf eq (fuel + 1) acc en.m_key en.m_data).map Prod.snd)
        T = some T' := by
  intro L
  induction L with
  | nil => intro T _; exact ⟨T, rfl⟩
  | cons e L ih =>
    intro T h
    simp only [List.length_cons] at h
    obtain ⟨r, hr, hs, hc⟩ := @insert_light K V hashf eq fuel T e.m_key e.m_data
      (by omega)
    obtain ⟨T', hT'⟩ := ih r.2 (by omega)
    refine ⟨T', ?_⟩
    rw [List.foldlM_cons, hr]
    exact hT'

theorem light_of_spec {t : HashTbl K V} {k : K} {v : V} {r : Bool × HashTbl K V}
    (sp : InsertSpec hashf eq t k v r) (hct : Counted t) (hl : t.m_count ≤ t.m_size) :
    r.2.m_count ≤ r.2.m_size := by
  by_cases htr : triggers_rehash hashf eq t k
  · have h1 := sp.count_grow htr
    have h2 := sp.size_grow htr
    have h3 := lt_find_next_prime (2 * t.m_size)
    unfold Counted at hct
    omega
  · have h1 := sp.count_same htr
    have h2 := sp.size_same htr
    have h3 := sp.flag
    cases hb : r.1
    · simp only [hb, Bool.false_eq_true, if_false] at h1
      omega
    · rw [hb] at h3
      have hnone : HashTbl.retrieve hashf eq t k = none := by
        cases hh : HashTbl.retrieve hashf eq t k
        · rfl
        · rw [hh] at h3
          simp at h3
      have hlf : ¬ ((t.m_count + 1 : Nat) : ℚ) / (t.m_size : ℚ) > 1 := fun h => htr ⟨hnone, h⟩
      rw [load_gt_one_iff] at hlf
      simp only [hb, if_true] at h1
      have := sp.chains.size_pos
      omega

/-- On a table whose count does not exceed the array length, two levels of
`insert` suffice: the `rehash` it may call re-inserts without a further
`rehash`. -/
theorem insert_two (laws : KeyLaws hashf eq) (fuel : Nat) (t : HashTbl K V) (k : K) (v : V)
    (hc : Chains hashf eq t) (hct : Counted t) (hl : t.m_count ≤ t.m_size) :
    ∃ r, HashTbl.insert hashf eq (fuel + 2) t k v = some r := by
  rw [insert_succ]
  by_cases hf : (t.m_table.getD (hashf k % t.m_size) []).any (fun en => eq en.m_key k) = true
  · rw [if_pos hf]
    exact ⟨_, rfl⟩
  · rw [if_neg hf]
    by_cases hlf : ((t.m_count + 1 : Nat) : ℚ) / (t.m_size : ℚ) > 1
    · rw [if_pos hlf]
      have hnf : (t.m_table.getD (hashf k % t.m_size) []).any (fun en => eq en.m_key k) = false := by
        simpa using hf
      obtain ⟨p1, _, p3⟩ := push_spec laws hc k v hnf (HashTbl.pushed hashf t k v) rfl rfl
      rw [rehash_eq_fold _ _ p1.length_eq]
      have hlt := lt_find_next_prime (2 * t.m_size)
      have hpos := hc.size_pos
      unfold Counted at hct
      obtain ⟨T', hT'⟩ := @fold_light K V hashf eq fuel
        (HashTbl.pushed hashf t k v).entries (HashTbl.regrown (HashTbl.pushed hashf t k v)) (by
          rw [p3]
          show 0 + (t.entries.length + 1) ≤ find_next_prime (2 * t.m_size)
          omega)
      rw [hT']
      exact ⟨_, rfl⟩
    · rw [if_neg hlf]
      exact ⟨_, rfl⟩

theorem fold_two (laws : KeyLaws hashf eq) (fuel : Nat) :
    ∀ (L : List (HashEntry K V)) (T : HashTbl K V), Chains hashf eq T → Counted T →
      T.m_count ≤ T.m_size →
      ∃ T', L.foldlM
        (fun acc en => (HashTbl.insert hashf eq (fuel + 2) acc en.m_key en.m_data).map Prod.snd)
        T = some T' := by
  intro L
  induction L with
  | nil => intro T _ _ _; exact ⟨T, rfl⟩
  | cons e L ih =>
    intro T hc hct hl
    obtain ⟨r, hr⟩ := insert_two laws fuel T e.m_key e.m_data hc hct hl
    have sp := insert_sound laws (fuel + 2) T e.m_key e.m_data r hc hr
    obtain ⟨T', hT'⟩ := ih r.2 sp.chains (sp.counted hct).1 (light_of_spec sp hct hl)
    refine ⟨T', ?_⟩
    rw [List.foldlM_cons, hr]
    exact hT'

/-- With fuel 3 or more `insert` completes on every table: a `rehash` starts
from an empty array, so the `rehash` calls it nests never nest a third. -/
theorem insert_total (laws : KeyLaws hashf eq) (fuel : Nat) (hfuel : 3 ≤ fuel)
    (t : HashTbl K V) (k : K) (v : V) :
    ∃ r, HashTbl.insert hashf eq fuel t k v = some r := by
  obtain ⟨f, rfl⟩ : ∃ f, fuel = f + 2 + 1 := ⟨fuel - 3, by omega⟩
  rw [insert_succ]
  by_cases hf : (t.m_table.getD (hashf k % t.m_size) []).any (fun en => eq en.m_key k) = true
  · rw [if_pos hf]
    exact ⟨_, rfl⟩
  · rw [if_neg hf]
    by_cases hlf : ((t.m_count + 1 : Nat) : ℚ) / (t.m_size : ℚ) > 1
    · rw [if_pos hlf]
      unfold HashTbl.rehash
      simp only []
      rw [foldlM_flatten]
      obtain ⟨T', hT'⟩ := fold_two laws f
        (List.filter (fun fl => !fl.isEmpty)
          (List.map (fun i => (HashTbl.pushed hashf t k v).m_table.getD i [])
            (List.range (HashTbl.pushed hashf t k v).m_size))).flatten
        (HashTbl.regrown (HashTbl.pushed hashf t k v))
        (chains_regrown _) (counted_regrown _) (Nat.zero_le _)
      unfold HashTbl.regrown at hT'
      rw [hT']
      exact ⟨_, rfl⟩
    · rw [if_neg hlf]
      exact ⟨_, rfl⟩

/-- With fuel 3 or more, `insert` on a table with well-shaped chains completes
and meets its specification. -/
theorem insert_complete (laws : KeyLaws hashf eq) (fuel : Nat) (hfuel : 3 ≤ fuel)
    (t : HashTbl K V) (k : K) (v : V) (hc : Chains hashf eq t) :
    ∃ r, HashTbl.insert hashf eq fuel t k v = some r ∧ InsertSpec hashf eq t k v r := by
  obtain ⟨r, hr⟩ := insert_total laws fuel hfuel t k v
  exact ⟨r, hr, insert_sound laws fuel t k v r hc hr⟩

end InsertLemmas

/-! ## The remaining operations -/

section OperationLemmas

variable {K V : Type} {hashf : K → Nat} {eq : K → K → Bool}

theorem copy_buckets_spec (n : Nat) (src dst : List (List (HashEntry K V)))
    (hdst : ∀ j, dst.getD j [] = []) :
    (copy_buckets n src dst).length = dst.length ∧
    ∀ j, (copy_buckets n src dst).getD j [] =
      if j < n ∧ j < dst.length then src.getD j [] else [] := by
  induction n with
  | zero =>
    unfold copy_buckets
    simp only [List.range_zero, List.foldl_nil, Nat.not_lt_zero, false_and, if_false, true_and]
    exact hdst
  | succ n ih =>
    have hstep : copy_buckets (n + 1) src dst =
        (if !(src.getD n []).isEmpty then (copy_buckets n src dst).set n (src.getD n [])
          else copy_buckets n src dst) := by
      unfold copy_buckets
      rw [List.range_succ, List.foldl_append]
      rfl
    rw [hstep]
    obtain ⟨ihl, ihg⟩ := ih
    by_cases he : (src.getD n []).isEmpty = true
    · simp only [he, Bool.not_true, Bool.false_eq_true, if_false]
      refine ⟨ihl, ?_⟩
      intro j
      rw [ihg]
      by_cases hj : j = n
      · subst hj
        have hnil : src.getD j [] = [] := List.isEmpty_iff.1 he
        rw [hnil]
        simp
      · have : (j < n + 1) ↔ (j < n) := by omega
        simp only [this]
    · simp only [he, Bool.not_false, if_true]
      refine ⟨by rw [List.length_set]; exact ihl, ?_⟩
      intro j
      rw [getD_set_bucket, ihl, ihg]
      by_cases hj : n = j
      · subst hj
        by_cases hd : n < dst.length
        · simp [hd]
        · simp [hd]
      · have : (j < n + 1) ↔ (j < n) := by omega
        simp [hj, this]

theorem copy_buckets_getD (src : List (List (HashEntry K V))) (j : Nat) :
    (copy_buckets src.length src (List.replicate src.length [])).getD j [] = src.getD j [] := by
  rw [(copy_buckets_spec src.length src _ (getD_replicate_nil _)).2 j]
  by_cases hj : j < src.length
  · simp [hj]
  · simp [hj, List.getElem?_eq_none (Nat.le_of_not_lt hj)]

theorem copy_buckets_length (n : Nat) (src : List (List (HashEntry K V))) :
    (copy_buckets n src (List.replicate n [])).length = n := by
  rw [(copy_buckets_spec n src _ (getD_replicate_nil _)).1]
  simp

theorem copy_buckets_eq (src : List (List (HashEntry K V))) :
    copy_buckets src.length src (List.replicate src.length []) = src := by
  apply List.ext_getElem
  · exact copy_buckets_length _ _
  · intro n h1 h2
    have := copy_buckets_getD src n
    simpa [List.getElem?_eq_getElem h1, List.getElem?_eq_getElem h2] using this

/-- The loop of `clear`. -/
theorem clear_loop_spec (n : Nat) (tbl : List (List (HashEntry K V))) :
    ((List.range n).foldl
      (fun acc i => if !(acc.getD i []).isEmpty then acc.set i [] else acc) tbl).length
        = tbl.length ∧
    ∀ j, ((List.range n).foldl
      (fun acc i => if !(acc.getD i []).isEmpty then acc.set i [] else acc) tbl).getD j [] =
      if j < n then [] else tbl.getD j [] := by
  induction n with
  | zero => simp
  | succ n ih =>
    rw [List.range_succ, List.foldl_append]
    obtain ⟨ihl, ihg⟩ := ih
    simp only [List.foldl_cons, List.foldl_nil]
    by_cases he : (((List.range n).foldl
      (fun acc i => if !(acc.getD i []).isEmpty then acc.set i [] else acc) tbl).getD n []).isEmpty
        = true
    · simp only [he, Bool.not_true, Bool.false_eq_true, if_false]
      refine ⟨ihl, ?_⟩
      intro j
      by_cases hj : j = n
      · subst hj
        rw [List.isEmpty_iff.1 he]
        simp
      · rw [ihg]
        have : (j < n + 1) ↔ (j < n) := by omega
        simp only [this]
    · simp only [he, Bool.not_false, if_true]
      refine ⟨by rw [List.length_set]; exact ihl, ?_⟩
      intro j
      rw [getD_set_bucket, ihl, ihg]
      by_cases hj : n = j
      · subst hj
        by_cases hd : n < tbl.length
        · simp [hd]
        · simp [hd, List.getElem?_eq_none (Nat.le_of_not_lt hd)]
      · have : (j < n + 1) ↔ (j < n) := by omega
        simp [hj, this]

theorem clear_getD (t : HashTbl K V) (hl : t.m_table.length = t.m_size) (j : Nat) :
    (HashTbl.clear t).m_table.getD j [] = [] := by
  unfold HashTbl.clear
  simp only []
  rw [(clear_loop_spec t.m_size t.m_table).2 j]
  by_cases hj : j < t.m_size
  · simp [hj]
  · simp [hj, List.getElem?_eq_none (by omega : t.m_table.length ≤ j)]

theorem clear_length (t : HashTbl K V) :
    (HashTbl.clear t).m_table.length = t.m_table.length := by
  unfold HashTbl.clear
  simp only []
  exact (clear_loop_spec t.m_size t.m_table).1

theorem clear_table (t : HashTbl K V) (hl : t.m_table.length = t.m_size) :
    (HashTbl.clear t).m_table = List.replicate t.m_size [] := by
  apply List.ext_getElem
  · rw [clear_length, hl]; simp
  · intro n h1 h2
    have := clear_getD t hl n
    simpa [List.getElem?_eq_getElem h1] using this

theorem chains_new (table_sz_ : Nat) (uninit : ℚ) :
    Chains hashf eq (HashTbl.new table_sz_ uninit : HashTbl K V) :=
  chains_fresh _ (Nat.lt_of_le_of_lt (Nat.zero_le _) (lt_find_next_prime _)) rfl rfl

theorem counted_new (table_sz_ : Nat) (uninit : ℚ) :
    Counted (HashTbl.new table_sz_ uninit : HashTbl K V) := by
  unfold Counted
  rw [entries_fresh (find_next_prime table_sz_) rfl]
  rfl

theorem from_copy_eq {t : HashTbl K V} (hl : t.m_table.length = t.m_size) :
    HashTbl.from_copy t = t := by
  unfold HashTbl.from_copy
  rw [← hl, copy_buckets_eq]
  cases t
  simp only [] at hl
  subst hl
  rfl

theorem assign_eq (this_ : HashTbl K V) {t : HashTbl K V} (hl : t.m_table.length = t.m_size) :
    HashTbl.assign this_ t = t := by
  unfold HashTbl.assign
  rw [← hl, copy_buckets_eq]
  cases t
  simp only [] at hl
  subst hl
  rfl

theorem assign_self_table (t : HashTbl K V) :
    (HashTbl.assign_self t).m_table = List.replicate t.m_size [] := by
  unfold HashTbl.assign_self
  simp only []
  apply List.ext_getElem
  · rw [copy_buckets_length]; simp
  · intro n h1 h2
    have := (copy_buckets_spec t.m_size (List.replicate t.m_size ([] : List (HashEntry K V)))
      (List.replicate t.m_size []) (getD_replicate_nil _)).2 n
    rw [getD_replicate_nil] at this
    simp only [ite_self] at this
    simpa [List.getElem?_eq_getElem h1] using this

theorem chains_assign_self {t : HashTbl K V} (hc : Chains hashf eq t) :
    Chains hashf eq (HashTbl.assign_self t) :=
  chains_fresh t.m_size hc.size_pos rfl (assign_self_table t)

theorem chains_clear {t : HashTbl K V} (hc : Chains hashf eq t) :
    Chains hashf eq (HashTbl.clear t) :=
  chains_fresh t.m_size hc.size_pos rfl (clear_table t hc.length_eq)

theorem erase_absent (t : HashTbl K V) (k : K)
    (hf : (t.m_table.getD (hashf k % t.m_size) []).any (fun en => eq en.m_key k) = false) :
    HashTbl.erase hashf eq t k = (false, t) := by
  unfold HashTbl.erase
  simp only []
  rw [if_neg (by rw [hf]; exact Bool.false_ne_true)]

theorem erase_found (t : HashTbl K V) (k : K)
    (hf : (t.m_table.getD (hashf k % t.m_size) []).any (fun en => eq en.m_key k) = true) :
    HashTbl.erase hashf eq t k = (true, HashTbl.unlinked hashf eq t k) := by
  unfold HashTbl.erase HashTbl.unlinked
  simp only []
  rw [if_pos hf]

/-- In a chain without equal keys `remove_if` removes exactly one entry. -/
theorem filter_length_of_found (laws : KeyLaws hashf eq) (k : K) (l : List (HashEntry K V))
    (hpw : l.Pairwise (fun a b => eq a.m_key b.m_key = false))
    (hf : l.any (fun en => eq en.m_key k) = true) :
    (l.filter (fun en => !eq en.m_key k)).length + 1 = l.length := by
  induction l with
  | nil => simp at hf
  | cons en l ih =>
    rw [List.pairwise_cons] at hpw
    rw [List.filter_cons]
    by_cases hp : eq en.m_key k = true
    · have hall : l.filter (fun en => !eq en.m_key k) = l := by
        rw [List.filter_eq_self]
        intro x hx
        have h1 := hpw.1 x hx
        cases h2 : eq x.m_key k
        · rfl
        · rw [laws.trans _ _ _ hp (laws.symm _ _ h2)] at h1
          exact absurd h1 (by simp)
      simp [hp, hall]
    · have hrest : l.any (fun en => eq en.m_key k) = true := by
        rw [List.any_cons] at hf
        simpa [hp] using hf
      have := ih hpw.2 hrest
      simp only [hp, Bool.not_false, if_true, List.length_cons]
      omega

/-- What `erase( k )` does when the key is found. -/
theorem erase_spec (laws : KeyLaws hashf eq) {t : HashTbl K V} (hc : Chains hashf eq t) (k : K)
    (hf : (t.m_table.getD (hashf k % t.m_size) []).any (fun en => eq en.m_key k) = true) :
    Chains hashf eq (HashTbl.erase hashf eq t k).2 ∧
    HashTbl.retrieve hashf eq (HashTbl.erase hashf eq t k).2 k = none ∧
    (∀ k', eq k k' = false →
      HashTbl.retrieve hashf eq (HashTbl.erase hashf eq t k).2 k' =
        HashTbl.retrieve hashf eq t k') ∧
    (HashTbl.erase hashf eq t k).2.entries.length + 1 = t.entries.length := by
  rw [erase_found t k hf]
  have hidx : hashf k % t.m_size < t.m_size := Nat.mod_lt _ hc.size_pos
  have hs : (HashTbl.unlinked hashf eq t k).m_size = t.m_size := rfl
  have ht : (HashTbl.unlinked hashf eq t k).m_table = t.m_table.set (hashf k % t.m_size)
      ((t.m_table.getD (hashf k % t.m_size) []).filter (fun en => !eq en.m_key k)) := rfl
  refine ⟨?_, ?_, ?_, ?_⟩
  · apply chains_set hc (hashf k % t.m_size) _ hs ht
    · intro en hen
      exact hc.index_ok _ en (List.mem_filter.1 hen).1
    · exact (hc.nodup _).filter _
  · show HashTbl.retrieve hashf eq (HashTbl.unlinked hashf eq t k) k = none
    rw [retrieve_set hc _ _ hs ht hidx, if_pos rfl, lookup_filter_self]
  · intro k' hne
    show HashTbl.retrieve hashf eq (HashTbl.unlinked hashf eq t k) k' = _
    rw [retrieve_set hc _ _ hs ht hidx]
    by_cases hi : hashf k' % t.m_size = hashf k % t.m_size
    · rw [if_pos hi, lookup_filter_other laws k k' hne, retrieve_eq_lookup, hi]
    · rw [if_neg hi]
  · have h1 := length_flatten_set t.m_table (hashf k % t.m_size)
      ((t.m_table.getD (hashf k % t.m_size) []).filter (fun en => !eq en.m_key k)) (hc.idx_lt k)
    have h2 := filter_length_of_found laws k _ (hc.nodup (hashf k % t.m_size)) hf
    show (HashTbl.unlinked hashf eq t k).m_table.flatten.length + 1 = t.m_table.flatten.length
    rw [ht]
    omega

theorem chains_erase (laws : KeyLaws hashf eq) {t : HashTbl K V} (hc : Chains hashf eq t)
    (k : K) : Chains hashf eq (HashTbl.erase hashf eq t k).2 := by
  by_cases hf : (t.m_table.getD (hashf k % t.m_size) []).any (fun en => eq en.m_key k) = true
  · exact (erase_spec laws hc k hf).1
  · rw [erase_absent t k (by simpa using hf)]
    exact hc

theorem chains_write_at (laws : KeyLaws hashf eq) {t : HashTbl K V} (hc : Chains hashf eq t)
    (k : K) (d : V) : Chains hashf eq (HashTbl.write_at hashf eq t k d) := by
  by_cases hf : (t.m_table.getD (hashf k % t.m_size) []).any (fun en => eq en.m_key k) = true
  · exact (assign_spec laws hc k d hf (HashTbl.write_at hashf eq t k d)
      (by rw [write_at_found t k d hf]) (by rw [write_at_found t k d hf])).1
  · rw [write_at_absent t k d (by simpa using hf)]
    exact hc

theorem find_eq_none_iff_any (l : List (HashEntry K V)) (k : K) :
    l.find? (fun en => eq en.m_key k) = none ↔ l.any (fun en => eq en.m_key k) = false := by
  rw [← lookup_eq_none_iff]
  unfold lookup
  cases l.find? (fun en => eq en.m_key k) <;> simp

theorem get_or_insert_absent [Inhabited V] (t : HashTbl K V) (k : K)
    (hf : (t.m_table.getD (hashf k % t.m_size) []).any (fun en => eq en.m_key k) = false) :
    HashTbl.get_or_insert hashf eq t k = (default, HashTbl.pushed hashf t k default) := by
  unfold HashTbl.get_or_insert
  simp only []
  rw [(find_eq_none_iff_any _ k).2 hf]
  rfl

theorem get_or_insert_present [Inhabited V] (t : HashTbl K V) (k : K) (item : HashEntry K V)
    (hf : (t.m_table.getD (hashf k % t.m_size) []).find? (fun en => eq en.m_key k) = some item) :
    HashTbl.get_or_insert hashf eq t k = (item.m_data, t) := by
  unfold HashTbl.get_or_insert
  simp only []
  rw [hf]

theorem chains_get_or_insert [Inhabited V] (laws : KeyLaws hashf eq) {t : HashTbl K V}
    (hc : Chains hashf eq t) (k : K) :
    Chains hashf eq (HashTbl.get_or_insert hashf eq t k).2 := by
  cases hfind : (t.m_table.getD (hashf k % t.m_size) []).find? (fun en => eq en.m_key k) with
  | none =>
    have hf := (find_eq_none_iff_any _ k).1 hfind
    rw [get_or_insert_absent t k hf]
    exact (push_spec laws hc k default hf (HashTbl.pushed hashf t k default) rfl rfl).1
  | some item =>
    rw [get_or_insert_present t k item hfind]
    exact hc

theorem chains_insert_all (laws : KeyLaws hashf eq) (fuel : Nat) {t t' : HashTbl K V}
    (ilist : List (HashEntry K V)) (hc : Chains hashf eq t)
    (h : insert_all hashf eq fuel t ilist = some t') : Chains hashf eq t' :=
  (fold_spec (insert_sound laws fuel) ilist t t' hc h).1

/-- Every reachable table has well-shaped chains. -/
theorem reachable_chains [Inhabited V] (laws : KeyLaws hashf eq) {t : HashTbl K V}
    (hr : Reachable hashf eq t) : Chains hashf eq t := by
  induction hr with
  | new sz u => exact chains_new sz u
  | from_copy _ ih => rw [from_copy_eq ih.length_eq]; exact ih
  | from_entries h =>
    exact chains_insert_all laws _ _
      (chains_fresh _ (Nat.lt_of_le_of_lt (Nat.zero_le _) (lt_find_next_prime _)) rfl rfl) h
  | assign _ _ _ ih => rw [assign_eq _ ih.length_eq]; exact ih
  | assign_self _ ih => exact chains_assign_self ih
  | assign_entries _ h _ =>
    exact chains_insert_all laws _ _
      (chains_fresh _ (Nat.lt_of_le_of_lt (Nat.zero_le _) (lt_find_next_prime _)) rfl rfl) h
  | insert _ h ih => exact (insert_sound laws _ _ _ _ _ ih h).chains
  | erase k _ ih => exact chains_erase laws ih k
  | clear _ ih => exact chains_clear ih
  | write_at k d _ ih => exact chains_write_at laws ih k d
  | get_or_insert k _ ih => exact chains_get_or_insert laws ih k
  | set_max_load_factor mlf _ ih => exact chains_of_fields ih rfl rfl

theorem counted_fresh (n : Nat) {t : HashTbl K V} (hc : t.m_count = 0)
    (ht : t.m_table = List.replicate n []) : Counted t := by
  unfold Counted
  rw [entries_fresh n ht, hc]
  rfl

theorem counted_insert_all (laws : KeyLaws hashf eq) (fuel : Nat) {t t' : HashTbl K V}
    (ilist : List (HashEntry K V)) (hc : Chains hashf eq t) (hct : Counted t)
    (h : insert_all hashf eq fuel t ilist = some t') : Counted t' :=
  (fold_spec (insert_sound laws fuel) ilist t t' hc h).2.2.2.1 hct

/-- In every reachable table the counter is at least the number of stored
entries, so the decrement in `erase` never starts from 0. -/
theorem reachable_count_ge [Inhabited V] (laws : KeyLaws hashf eq) {t : HashTbl K V}
    (hr : Reachable hashf eq t) : t.entries.length ≤ t.m_count := by
  induction hr with
  | new sz u => exact Nat.le_of_eq (counted_new sz u).symm
  | from_copy hprev ih => rw [from_copy_eq (reachable_chains laws hprev).length_eq]; exact ih
  | from_entries h =>
    exact Nat.le_of_eq (counted_insert_all laws _ _
      (chains_fresh _ (Nat.lt_of_le_of_lt (Nat.zero_le _) (lt_find_next_prime _)) rfl rfl)
      (counted_fresh _ rfl rfl) h).symm
  | assign _ hclone _ ih =>
    rw [assign_eq _ (reachable_chains laws hclone).length_eq]; exact ih
  | assign_self _ _ =>
    rw [entries_fresh _ (assign_self_table _)]
    exact Nat.zero_le _
  | assign_entries _ h _ =>
    exact Nat.le_of_eq (counted_insert_all laws _ _
      (chains_fresh _ (Nat.lt_of_le_of_lt (Nat.zero_le _) (lt_find_next_prime _)) rfl rfl)
      (counted_fresh _ rfl rfl) h).symm
  | @insert fuel t k v r hprev h ih =>
    have sp := insert_sound laws fuel t k v r (reachable_chains laws hprev) h
    by_cases htr : triggers_rehash hashf eq t k
    · exact Nat.le_of_eq (sp.counted_grow htr).symm
    · have h1 := sp.count_same htr
      have h2 := sp.entries_length
      omega
  | @erase t k hprev ih =>
    by_cases hf : (t.m_table.getD (hashf k % t.m_size) []).any (fun en => eq en.m_key k) = true
    · have h4 := (erase_spec laws (reachable_chains laws hprev) k hf).2.2.2
      have hcnt : (HashTbl.erase hashf eq t k).2.m_count = t.m_count - 1 := by
        rw [erase_found t k hf]; rfl
      omega
    · rw [erase_absent t k (by simpa using hf)]
      exact ih
  | @clear t hprev _ =>
    rw [entries_fresh _ (clear_table t (reachable_chains laws hprev).length_eq)]
    exact Nat.zero_le _
  | @write_at t k d hprev ih =>
    by_cases hf : (t.m_table.getD (hashf k % t.m_size) []).any (fun en => eq en.m_key k) = true
    · have h3 := (assign_spec laws (reachable_chains laws hprev) k d hf
        (HashTbl.write_at hashf eq t k d)
        (by rw [write_at_found t k d hf]) (by rw [write_at_found t k d hf])).2.2
      have hcnt : (HashTbl.write_at hashf eq t k d).m_count = t.m_count := by
        rw [write_at_found t k d hf]
      omega
    · rw [write_at_absent t k d (by simpa using hf)]
      exact ih
  | @get_or_insert t k hprev ih =>
    cases hfind : (t.m_table.getD (hashf k % t.m_size) []).find? (fun en => eq en.m_key k) with
    | none =>
      have hf := (find_eq_none_iff_any _ k).1 hfind
      rw [get_or_insert_absent t k hf]
      have h3 := (push_spec laws (reachable_chains laws hprev) k default hf
        (HashTbl.pushed hashf t k default) rfl rfl).2.2
      show (HashTbl.pushed hashf t k default).entries.length ≤ t.m_count + 1
      omega
    | some item =>
      rw [get_or_insert_present t k item hfind]
      exact ih
  | set_max_load_factor mlf _ ih => exact ih

end OperationLemmas

/-! ## The concrete instance -/

section Samples

theorem natLaws : KeyLaws natHash natEq :=
  ⟨fun a => by simp [natEq], fun a b h => by simp_all [natEq],
    fun a b c h1 h2 => by simp_all [natEq], fun a b h => by simp_all [natEq, natHash]⟩

theorem find_next_prime_one : find_next_prime 1 = 2 := by
  rw [find_next_prime, if_pos (by decide)]

theorem new_one (uninit : ℚ) :
    (HashTbl.new 1 uninit : HashTbl Nat Nat) = ⟨2, 0, uninit, [[], []]⟩ := by
  unfold HashTbl.new
  rw [find_next_prime_one]
  rfl

theorem sample_full_table :
    sample_full.m_size = 2 ∧ sample_full.m_count = 2 ∧
      sample_full.m_table = [[⟨0, 0⟩], [⟨1, 0⟩]] := by
  unfold sample_full
  rw [new_one]
  exact ⟨rfl, rfl, rfl⟩

theorem sample_collide_table :
    sample_collide.m_size = 2 ∧ sample_collide.m_count = 2 ∧
      sample_collide.m_table = [[⟨2, 0⟩, ⟨0, 0⟩], []] := by
  unfold sample_collide
  rw [new_one]
  exact ⟨rfl, rfl, rfl⟩

theorem sample_full_reachable : Reachable natHash natEq sample_full :=
  Reachable.get_or_insert 1 (Reachable.get_or_insert 0 (Reachable.new 1 0))

theorem sample_collide_reachable : Reachable natHash natEq sample_collide :=
  Reachable.get_or_insert 2 (Reachable.get_or_insert 0 (Reachable.new 1 0))

end Samples

/-! ## Insertion and lookup -/

section InsertClaims

variable {K V : Type} {hashf : K → Nat} {eq : K → K → Bool}

theorem wf_new (table_sz_ : Nat) (uninit : ℚ) :
    WF hashf eq (HashTbl.new table_sz_ uninit : HashTbl K V) :=
  ⟨chains_new table_sz_ uninit, counted_new table_sz_ uninit⟩

theorem wf_get_or_insert [Inhabited V] (laws : KeyLaws hashf eq) {t : HashTbl K V}
    (hwf : WF hashf eq t) (k : K) : WF hashf eq (HashTbl.get_or_insert hashf eq t k).2 := by
  refine ⟨chains_get_or_insert laws hwf.1 k, ?_⟩
  cases hfind : (t.m_table.getD (hashf k % t.m_size) []).find? (fun en => eq en.m_key k) with
  | none =>
    have hf := (find_eq_none_iff_any _ k).1 hfind
    rw [get_or_insert_absent t k hf]
    have h3 := (push_spec laws hwf.1 k default hf (HashTbl.pushed hashf t k default)
      rfl rfl).2.2
    have h4 : t.m_count = t.entries.length := hwf.2
    show t.m_count + 1 = (HashTbl.pushed hashf t k default).entries.length
    omega
  | some item =>
    rw [get_or_insert_present t k item hfind]
    exact hwf.2

end InsertClaims

/-! ## Removal and counting -/

section EraseClaims

variable {K V : Type} {hashf : K → Nat} {eq : K → K → Bool}

theorem any_of_retrieve_isSome (t : HashTbl K V) (k : K)
    (hp : (HashTbl.retrieve hashf eq t k).isSome = true) :
    (t.m_table.getD (hashf k % t.m_size) []).any (fun en => eq en.m_key k) = true := by
  cases h : (t.m_table.getD (hashf k % t.m_size) []).any (fun en => eq en.m_key k)
  · rw [(retrieve_eq_none_iff t k).2 h] at hp
    simp at hp
  · rfl

/-- C4. On every table whose counter is positive (as it is whenever an entry
is stored in a table that satisfies the representation invariant or is
reachable through the public operations) and every present key `k`:
`erase( k )` returns `true`, afterwards `retrieve( k )` returns `false`,
`size()` is smaller by exactly 1, and `retrieve` is unchanged for every other
key. -/
theorem erase_present (laws : KeyLaws hashf eq) (t : HashTbl K V) (k : K)
    (hp : (HashTbl.retrieve hashf eq t k).isSome = true) (hcount : 0 < t.m_count) :
    (HashTbl.erase hashf eq t k).1 = true ∧
    HashTbl.retrieve hashf eq (HashTbl.erase hashf eq t k).2 k = none ∧
    (HashTbl.erase hashf eq t k).2.size + 1 = t.size ∧
    (∀ k', eq k k' = false →
      HashTbl.retrieve hashf eq (HashTbl.erase hashf eq t k).2 k' =
        HashTbl.retrieve hashf eq t k') := by
  have hf := any_of_retrieve_isSome t k hp
  have hlen : hashf k % t.m_size < t.m_table.length := by
    by_contra hge
    have hnil : t.m_table.getD (hashf k % t.m_size) [] = [] := by
      simp [List.getElem?_eq_none (Nat.le_of_not_lt hge)]
    rw [hnil] at hf
    simp at hf
  have hs : (HashTbl.unlinked hashf eq t k).m_size = t.m_size := rfl
  have ht : (HashTbl.unlinked hashf eq t k).m_table = t.m_table.set (hashf k % t.m_size)
      ((t.m_table.getD (hashf k % t.m_size) []).filter (fun en => !eq en.m_key k)) := rfl
  rw [erase_found t k hf]
  refine ⟨rfl, ?_, ?_, ?_⟩
  · show HashTbl.retrieve hashf eq (HashTbl.unlinked hashf eq t k) k = none
    rw [retrieve_eq_lookup, hs, ht, getD_set_bucket, if_pos ⟨rfl, hlen⟩, lookup_filter_self]
  · show t.m_count - 1 + 1 = t.m_count
    omega
  · intro k' hne
    show HashTbl.retrieve hashf eq (HashTbl.unlinked hashf eq t k) k' = _
    rw [retrieve_eq_lookup, retrieve_eq_lookup, hs, ht, getD_set_bucket]
    by_cases hi : hashf k % t.m_size = hashf k' % t.m_size
    · rw [if_pos ⟨hi, hlen⟩, lookup_filter_other laws k k' hne, hi]
    · rw [if_neg (fun h => hi h.1)]

theorem sample_collide_wf : WF natHash natEq sample_collide :=
  wf_get_or_insert natLaws (wf_get_or_insert natLaws (wf_new 1 0) 0) 2

/-- Witness of C4: erasing key `0` from the table whose bucket `0` holds the
keys `2` and `0`. -/
theorem erase_present_witness :
    (HashTbl.erase natHash natEq sample_collide 0).1 = true ∧
    HashTbl.retrieve natHash natEq (HashTbl.erase natHash natEq sample_collide 0).2 0 = none ∧
    (HashTbl.erase natHash natEq sample_collide 0).2.size + 1 = sample_collide.size ∧
    (∀ k', natEq 0 k' = false →
      HashTbl.retrieve natHash natEq (HashTbl.erase natHash natEq sample_collide 0).2 k' =
        HashTbl.retrieve natHash natEq sample_collide k') :=
  erase_present natLaws sample_collide 0
    (by rw [retrieve_eq_lookup, sample_collide_table.1, sample_collide_table.2.2]; rfl)
    (by rw [sample_collide_table.2.1]; decide)

/-- C5. On every table and every absent key `k`, `erase( k )` returns `false`
and leaves the table as it was: same buckets, same bucket-array length, same
`size()`. -/
theorem erase_absent_unchanged (t : HashTbl K V) (k : K)
    (ha : HashTbl.retrieve hashf eq t k = none) :
    (HashTbl.erase hashf eq t k).1 = false ∧
    (HashTbl.erase hashf eq t k).2.m_table = t.m_table ∧
    (HashTbl.erase hashf eq t k).2.m_size = t.m_size ∧
    (HashTbl.erase hashf eq t k).2.size = t.size ∧
    (HashTbl.erase hashf eq t k).2 = t := by
  rw [erase_absent t k ((retrieve_eq_none_iff t k).1 ha)]
  exact ⟨rfl, rfl, rfl, rfl, rfl⟩

/-- Witness of C5: erasing the absent key `4` from the table holding `0` and `2`. -/
theorem erase_absent_unchanged_witness :
    (HashTbl.erase natHash natEq sample_collide 4).1 = false ∧
    (HashTbl.erase natHash natEq sample_collide 4).2.m_table = sample_collide.m_table ∧
    (HashTbl.erase natHash natEq sample_collide 4).2.m_size = sample_collide.m_size ∧
    (HashTbl.erase natHash natEq sample_collide 4).2.size = sample_collide.size ∧
    (HashTbl.erase natHash natEq sample_collide 4).2 = sample_collide :=
  erase_absent_unchanged sample_collide 4 (by
    rw [retrieve_eq_lookup, sample_collide_table.1, sample_collide_table.2.2]
    rfl)

/-- Counterexample to C6 as stated. In the reachable two-bucket table holding
the keys `0` and `2` (both in bucket `0`): key `0` is present and `count( 0 )`
is 2, not 1; key `4` is absent and `count( 4 )` is 2, not 0; `erase( 0 )`
returns `true` and afterwards `count( 0 )` is 1, not 0. -/
theorem count_not_membership :
    WF natHash natEq sample_collide ∧
    HashTbl.retrieve natHash natEq sample_collide 0 = some 0 ∧
    HashTbl.count natHash sample_collide 0 = 2 ∧
    HashTbl.retrieve natHash natEq sample_collide 4 = none ∧
    HashTbl.count natHash sample_collide 4 = 2 ∧
    (HashTbl.erase natHash natEq sample_collide 0).1 = true ∧
    HashTbl.count natHash (HashTbl.erase natHash natEq sample_collide 0).2 0 = 1 := by
  obtain ⟨h1, h2, h3⟩ := sample_collide_table
  have he : HashTbl.erase natHash natEq sample_collide 0 =
      (true, HashTbl.unlinked natHash natEq sample_collide 0) :=
    erase_found sample_collide 0 (by rw [h1, h3]; rfl)
  refine ⟨sample_collide_wf, ?_, ?_, ?_, ?_, ?_, ?_⟩
  · rw [retrieve_eq_lookup, h1, h3]; rfl
  · unfold HashTbl.count; rw [h1, h3]; rfl
  · rw [retrieve_eq_lookup, h1, h3]; rfl
  · unfold HashTbl.count; rw [h1, h3]; rfl
  · rw [he]
  · rw [he]
    unfold HashTbl.count HashTbl.unlinked
    simp only []
    rw [h1, h3]
    rfl

/-- C6, amended. On every table satisfying the representation invariant,
`count( k )` is the length of the chain in `k`'s bucket, whose members are
exactly the stored entries whose key hashes into that bucket; it is at least 1
when `k` is present; it is 1 for a present and 0 for an absent key exactly
when no other key is stored in that bucket; and after `erase( k )` returns
`true`, `count( k )` is one less than before. -/
theorem count_is_chain_length (laws : KeyLaws hashf eq) {t : HashTbl K V}
    (hwf : WF hashf eq t) (k : K) :
    HashTbl.count hashf t k = (t.m_table.getD (hashf k % t.m_size) []).length ∧
    (∀ en, en ∈ t.m_table.getD (hashf k % t.m_size) [] ↔
      (en ∈ t.entries ∧ hashf en.m_key % t.m_size = hashf k % t.m_size)) ∧
    ((HashTbl.retrieve hashf eq t k).isSome = true → 1 ≤ HashTbl.count hashf t k) ∧
    ((∀ en ∈ t.entries, hashf en.m_key % t.m_size = hashf k % t.m_size →
        eq en.m_key k = true) ↔
      HashTbl.count hashf t k = if (HashTbl.retrieve hashf eq t k).isSome then 1 else 0) ∧
    ((HashTbl.erase hashf eq t k).1 = true →
      HashTbl.count hashf (HashTbl.erase hashf eq t k).2 k + 1 = HashTbl.count hashf t k) := by
  have hc := hwf.1
  have hmem : ∀ en, en ∈ t.m_table.getD (hashf k % t.m_size) [] ↔
      (en ∈ t.entries ∧ hashf en.m_key % t.m_size = hashf k % t.m_size) := by
    intro en
    constructor
    · intro h
      exact ⟨(mem_entries_iff t en).2 ⟨_, h⟩, hc.index_ok _ en h⟩
    · rintro ⟨h1, h2⟩
      obtain ⟨i, hi⟩ := (mem_entries_iff t en).1 h1
      have := hc.index_ok i en hi
      rw [h2] at this
      rw [this]
      exact hi
  refine ⟨rfl, hmem, ?_, ?_, ?_⟩
  · intro hp
    have hf := any_of_retrieve_isSome t k hp
    obtain ⟨x, hx, _⟩ := List.any_eq_true.1 hf
    show 1 ≤ (t.m_table.getD (hashf k % t.m_size) []).length
    exact List.length_pos_of_mem hx
  · have hiff : (∀ en ∈ t.entries, hashf en.m_key % t.m_size = hashf k % t.m_size →
        eq en.m_key k = true) ↔
        ∀ en ∈ t.m_table.getD (hashf k % t.m_size) [], eq en.m_key k = true :=
      ⟨fun hall en hen => hall en ((hmem en).1 hen).1 ((hmem en).1 hen).2,
        fun hall en he1 he2 => hall en ((hmem en).2 ⟨he1, he2⟩)⟩
    rw [hiff, retrieve_eq_lookup]
    show _ ↔ (t.m_table.getD (hashf k % t.m_size) []).length = _
    have hnd := hc.nodup (hashf k % t.m_size)
    generalize t.m_table.getD (hashf k % t.m_size) [] = b at hnd
    constructor
    · intro hallb
      match b, hallb, hnd with
      | [], _, _ => rfl
      | [e], hallb, _ =>
        rw [lookup_cons, hallb e (List.mem_cons_self _ _)]
        rfl
      | e1 :: e2 :: rest, hallb, hnd =>
        exfalso
        have h1 := hallb e1 (List.mem_cons_self _ _)
        have h2 := hallb e2 (List.mem_cons_of_mem _ (List.mem_cons_self _ _))
        have h3 := (List.pairwise_cons.1 hnd).1 e2 (List.mem_cons_self _ _)
        rw [laws.trans _ _ _ h1 (laws.symm _ _ h2)] at h3
        exact absurd h3 (by simp)
    · intro hcount en hen
      match b, hcount, hen with
      | [e], hcount, hen =>
        rw [lookup_cons] at hcount
        cases he : eq e.m_key k
        · rw [he] at hcount
          simp [lookup_nil] at hcount
        · rw [List.mem_singleton] at hen
          rw [hen]
          exact he
      | e1 :: e2 :: rest, hcount, _ =>
        exfalso
        simp only [List.length_cons] at hcount
        split at hcount <;> omega
  · intro hb
    have hf : (t.m_table.getD (hashf k % t.m_size) []).any (fun en => eq en.m_key k) = true := by
      cases h : (t.m_table.getD (hashf k % t.m_size) []).any (fun en => eq en.m_key k)
      · rw [erase_absent t k h] at hb
        exact absurd hb (by simp)
      · rfl
    rw [erase_found t k hf]
    show ((HashTbl.unlinked hashf eq t k).m_table.getD
      (hashf k % (HashTbl.unlinked hashf eq t k).m_size) []).length + 1 =
        (t.m_table.getD (hashf k % t.m_size) []).length
    have hs : (HashTbl.unlinked hashf eq t k).m_size = t.m_size := rfl
    have ht : (HashTbl.unlinked hashf eq t k).m_table = t.m_table.set (hashf k % t.m_size)
      ((t.m_table.getD (hashf k % t.m_size) []).filter (fun en => !eq en.m_key k)) := rfl
    rw [hs, ht, getD_set_bucket, if_pos ⟨rfl, hc.idx_lt k⟩]
    exact filter_length_of_found laws k _ (hc.nodup _) hf

/-- Witness of amended C6 on the table whose bucket `0` holds the keys `2` and `0`. -/
theorem count_is_chain_length_witness :
    HashTbl.count natHash sample_collide 0 =
      (sample_collide.m_table.getD (natHash 0 % sample_collide.m_size) []).length ∧
    (∀ en, en ∈ sample_collide.m_table.getD (natHash 0 % sample_collide.m_size) [] ↔
      (en ∈ sample_collide.entries ∧
        natHash en.m_key % sample_collide.m_size = natHash 0 % sample_collide.m_size)) ∧
    ((HashTbl.retrieve natHash natEq sample_collide 0).isSome = true →
      1 ≤ HashTbl.count natHash sample_collide 0) ∧
    ((∀ en ∈ sample_collide.entries,
        natHash en.m_key % sample_collide.m_size = natHash 0 % sample_collide.m_size →
        natEq en.m_key 0 = true) ↔
      HashTbl.count natHash sample_collide 0 =
        if (HashTbl.retrieve natHash natEq sample_collide 0).isSome then 1 else 0) ∧
    ((HashTbl.erase natHash natEq sample_collide 0).1 = true →
      HashTbl.count natHash (HashTbl.erase natHash natEq sample_collide 0).2 0 + 1 =
        HashTbl.count natHash sample_collide 0) :=
  count_is_chain_length natLaws sample_collide_wf 0

end EraseClaims

/-! ## Sequences of `insert` and `erase` -/

section SequenceClaims

variable {K V : Type} {hashf : K → Nat} {eq : K → K → Bool}

theorem retrieve_congr (laws : KeyLaws hashf eq) {t : HashTbl K V} (hc : Chains hashf eq t)
    (k k' : K) (h : eq k k' = true) :
    HashTbl.retrieve hashf eq t k = HashTbl.retrieve hashf eq t k' := by
  apply Option.ext
  intro v
  simp only [Option.mem_def]
  rw [retrieve_eq_some_iff laws hc, retrieve_eq_some_iff laws hc]
  constructor
  · rintro ⟨en, hen, hk, hv⟩
    exact ⟨en, hen, laws.trans _ _ _ hk h, hv⟩
  · rintro ⟨en, hen, hk, hv⟩
    exact ⟨en, hen, laws.trans _ _ _ hk (laws.symm _ _ h), hv⟩

theorem keys_filter_length (laws : KeyLaws hashf eq) (k : K) (ks : List K)
    (hpw : ks.Pairwise (fun a b => eq a b = false)) (hex : ∃ x ∈ ks, eq x k = true) :
    (ks.filter (fun x => !eq x k)).length + 1 = ks.length := by
  induction ks with
  | nil => simp at hex
  | cons a ks ih =>
    rw [List.pairwise_cons] at hpw
    rw [List.filter_cons]
    by_cases hp : eq a k = true
    · have hall : ks.filter (fun x => !eq x k) = ks := by
        rw [List.filter_eq_self]
        intro x hx
        have h1 := hpw.1 x hx
        cases h2 : eq x k
        · rfl
        · rw [laws.trans _ _ _ hp (laws.symm _ _ h2)] at h1
          exact absurd h1 (by simp)
      simp [hp, hall]
    · obtain ⟨x, hx, hxk⟩ := hex
      have hx' : x ∈ ks := by
        rcases List.mem_cons.1 hx with h | h
        · rw [h] at hxk; exact absurd hxk hp
        · exact h
      have := ih hpw.2 ⟨x, hx', hxk⟩
      simp only [hp, Bool.not_false, if_true, List.length_cons]
      omega

theorem keys_of_insert (laws : KeyLaws hashf eq) {t : HashTbl K V} {ks : List K}
    (h : KeysOf hashf eq t ks) (k : K) (v : V) (fuel : Nat) (hfuel : 3 ≤ fuel) :
    ∃ t', apply_op hashf eq fuel t (Op.insert k v) = some t' ∧
      KeysOf hashf eq t' (track_key eq ks (Op.insert k v : Op K V)) := by
  obtain ⟨r, hr, sp⟩ := insert_complete laws fuel hfuel t k v h.wf.1
  have hcnt := sp.counted h.wf.2
  refine ⟨r.2, by simp [apply_op, hr], ?_⟩
  have hret : ∀ k', (HashTbl.retrieve hashf eq r.2 k').isSome = true ↔
      (eq k k' = true ∨ (HashTbl.retrieve hashf eq t k').isSome = true) := by
    intro k'
    rw [sp.retrieve_eq]
    cases eq k k' <;> simp
  by_cases hp : (HashTbl.retrieve hashf eq t k).isSome = true
  · have hany : ks.any (fun x => eq x k) = true :=
      List.any_eq_true.2 ((h.present k).1 hp)
    have hb : r.1 = false := by
      rw [sp.flag]
      cases hh : HashTbl.retrieve hashf eq t k
      · rw [hh] at hp; simp at hp
      · rfl
    simp only [track_key, hany, if_true]
    refine ⟨⟨sp.chains, hcnt.1⟩, h.nodup, ?_, ?_⟩
    · intro k'
      rw [hret, ← h.present k']
      constructor
      · rintro (he | hs)
        · rw [← retrieve_congr laws h.wf.1 k k' he]; exact hp
        · exact hs
      · intro hs; exact Or.inr hs
    · rw [hcnt.2, hb]; simpa using h.count
  · have hany : ks.any (fun x => eq x k) = false := by
      cases hh : ks.any (fun x => eq x k)
      · rfl
      · exact absurd ((h.present k).2 (List.any_eq_true.1 hh)) hp
    have hnone : HashTbl.retrieve hashf eq t k = none := by
      cases hh : HashTbl.retrieve hashf eq t k
      · rfl
      · rw [hh] at hp; simp at hp
    have hb : r.1 = true := by rw [sp.flag, hnone]; rfl
    simp only [track_key, hany, Bool.false_eq_true, if_false]
    refine ⟨⟨sp.chains, hcnt.1⟩, ?_, ?_, ?_⟩
    · rw [List.pairwise_cons]
      refine ⟨?_, h.nodup⟩
      intro x hx
      cases he : eq k x
      · rfl
      · have : ks.any (fun x => eq x k) = true :=
          List.any_eq_true.2 ⟨x, hx, laws.symm _ _ he⟩
        rw [this] at hany
        exact absurd hany (by simp)
    · intro k'
      rw [hret, h.present k']
      simp only [List.mem_cons, exists_eq_or_imp]
    · rw [hcnt.2, hb, h.count]; simp

theorem keys_of_erase (laws : KeyLaws hashf eq) {t : HashTbl K V} {ks : List K}
    (h : KeysOf hashf eq t ks) (k : K) :
    KeysOf hashf eq (HashTbl.erase hashf eq t k).2 (track_key eq ks (Op.erase k : Op K V)) := by
  simp only [track_key]
  by_cases hf : (t.m_table.getD (hashf k % t.m_size) []).any (fun en => eq en.m_key k) = true
  · obtain ⟨e1, e2, e3, e4⟩ := erase_spec laws h.wf.1 k hf
    have hp : (HashTbl.retrieve hashf eq t k).isSome = true := by
      cases hh : HashTbl.retrieve hashf eq t k
      · rw [(retrieve_eq_none_iff t k).1 hh] at hf
        exact absurd hf (by simp)
      · rfl
    have hlen := keys_filter_length laws k ks h.nodup ((h.present k).1 hp)
    have hct : t.m_count = t.entries.length := h.wf.2
    have hcnt : (HashTbl.erase hashf eq t k).2.m_count = t.m_count - 1 := by
      rw [erase_found t k hf]; rfl
    refine ⟨⟨e1, ?_⟩, h.nodup.filter _, ?_, ?_⟩
    · show (HashTbl.erase hashf eq t k).2.m_count = _
      omega
    · intro k'
      cases he : eq k k'
      · rw [e3 k' he, h.present k']
        constructor
        · rintro ⟨k0, hk0, hk0k⟩
          refine ⟨k0, List.mem_filter.2 ⟨hk0, ?_⟩, hk0k⟩
          cases h2 : eq k0 k
          · rfl
          · rw [laws.trans _ _ _ (laws.symm _ _ h2) hk0k] at he
            exact absurd he (by simp)
        · rintro ⟨k0, hk0, hk0k⟩
          exact ⟨k0, (List.mem_filter.1 hk0).1, hk0k⟩
      · rw [← retrieve_congr laws e1 k k' he, e2]
        constructor
        · intro hh; simp at hh
        · rintro ⟨k0, hk0, hk0k⟩
          have h2 := (List.mem_filter.1 hk0).2
          rw [laws.trans _ _ _ hk0k (laws.symm _ _ he)] at h2
          simp at h2
    · have := h.count
      omega
  · have hnf : (t.m_table.getD (hashf k % t.m_size) []).any (fun en => eq en.m_key k) = false := by
      simpa using hf
    have hnone := (@retrieve_eq_none_iff K V hashf eq t k).2 hnf
    rw [erase_absent t k hnf]
    have hall : ks.filter (fun x => !eq x k) = ks := by
      rw [List.filter_eq_self]
      intro x hx
      cases h2 : eq x k
      · rfl
      · have := (h.present k).2 ⟨x, hx, h2⟩
        rw [hnone] at this
        simp at this
    rw [hall]
    exact h

theorem keys_of_run (laws : KeyLaws hashf eq) (fuel : Nat) (hfuel : 3 ≤ fuel) :
    ∀ (ops : List (Op K V)) (t : HashTbl K V) (ks : List K), KeysOf hashf eq t ks →
      ∃ t', ops.foldlM (apply_op hashf eq fuel) t = some t' ∧
        KeysOf hashf eq t' (ops.foldl (track_key eq) ks) := by
  intro ops
  induction ops with
  | nil => intro t ks h; exact ⟨t, rfl, h⟩
  | cons op ops ih =>
    intro t ks h
    cases op with
    | insert k v =>
      obtain ⟨t1, h1, hk1⟩ := keys_of_insert laws h k v fuel hfuel
      obtain ⟨t', h2, hk2⟩ := ih t1 _ hk1
      refine ⟨t', ?_, hk2⟩
      rw [List.foldlM_cons, h1]
      exact h2
    | erase k =>
      obtain ⟨t', h2, hk2⟩ := ih _ _ (keys_of_erase laws h k)
      refine ⟨t', ?_, hk2⟩
      rw [List.foldlM_cons]
      exact h2

end SequenceClaims

/-! ## `clear`, `at` and `operator[]` -/

section AccessClaims

variable {K V : Type} {hashf : K → Nat} {eq : K → K → Bool}

theorem clear_bucket (t : HashTbl K V) (i : Nat) (hi : i < t.m_size) :
    (HashTbl.clear t).m_table.getD i [] = [] := by
  unfold HashTbl.clear
  simp only []
  rw [(clear_loop_spec t.m_size t.m_table).2 i, if_pos hi]

/-- C8. On every table (with a non-empty bucket array, as every constructor
allocates), after `clear()`: `size()` is 0, `empty()` is true, every bucket is
empty (the array is `m_size` empty chains), `retrieve` fails for every key, the
dump shows the empty marker at every index, and the bucket-array length is what
it was. -/
theorem clear_empties (t : HashTbl K V) (hpos : 0 < t.m_size) :
    (HashTbl.clear t).size = 0 ∧
    (HashTbl.clear t).empty = true ∧
    (∀ i, i < t.m_size → (HashTbl.clear t).m_table.getD i [] = []) ∧
    (t.m_table.length = t.m_size → (HashTbl.clear t).m_table = List.replicate t.m_size []) ∧
    (∀ k, HashTbl.retrieve hashf eq (HashTbl.clear t) k = none) ∧
    (HashTbl.clear t).dump = List.replicate t.m_size none ∧
    (HashTbl.clear t).m_size = t.m_size ∧
    (HashTbl.clear t).m_table.length = t.m_table.length := by
  refine ⟨rfl, rfl, clear_bucket t, clear_table t, ?_, ?_, rfl, clear_length t⟩
  · intro k
    rw [retrieve_eq_lookup]
    have hs : (HashTbl.clear t).m_size = t.m_size := rfl
    rw [hs, clear_bucket t _ (Nat.mod_lt _ hpos)]
    rfl
  · unfold HashTbl.dump
    rw [List.eq_replicate_iff]
    have hs : (HashTbl.clear t).m_size = t.m_size := rfl
    refine ⟨by rw [hs]; simp, ?_⟩
    intro b hb
    obtain ⟨i, hi, rfl⟩ := List.mem_map.1 hb
    rw [hs, List.mem_range] at hi
    rw [clear_bucket t i hi]
    rfl

/-- Witness of C8 on the table holding the keys `0` and `2`. -/
theorem clear_empties_witness :
    (HashTbl.clear sample_collide).size = 0 ∧
    (HashTbl.clear sample_collide).empty = true ∧
    (∀ i, i < sample_collide.m_size → (HashTbl.clear sample_collide).m_table.getD i [] = []) ∧
    (sample_collide.m_table.length = sample_collide.m_size →
      (HashTbl.clear sample_collide).m_table = List.replicate sample_collide.m_size []) ∧
    (∀ k, HashTbl.retrieve natHash natEq (HashTbl.clear sample_collide) k = none) ∧
    (HashTbl.clear sample_collide).dump = List.replicate sample_collide.m_size none ∧
    (HashTbl.clear sample_collide).m_size = sample_collide.m_size ∧
    (HashTbl.clear sample_collide).m_table.length = sample_collide.m_table.length :=
  clear_empties sample_collide (by rw [sample_collide_table.1]; decide)

/-- C9. Method `at( k )` yields the data stored for `k` exactly when `k` is
present, throws `out_of_range( "Not present" )` exactly when `k` is absent, and
in both cases leaves the table as it was. -/
theorem at_spec (t : HashTbl K V) (k : K) :
    (HashTbl.at hashf eq t k).2 = t ∧
    (HashTbl.at hashf eq t k).2.size = t.size ∧
    (∀ d, (HashTbl.at hashf eq t k).1 = Except.ok d ↔
      HashTbl.retrieve hashf eq t k = some d) ∧
    ((HashTbl.at hashf eq t k).1 = Except.error (TblError.out_of_range "Not present") ↔
      HashTbl.retrieve hashf eq t k = none) := by
  unfold HashTbl.at HashTbl.retrieve
  cases h : (t.m_table.getD (hashf k % t.m_size) []).find? (fun en => eq en.m_key k) with
  | none =>
    refine ⟨rfl, rfl, ?_, ?_⟩
    · intro d
      simp
    · simp
  | some item =>
    refine ⟨rfl, rfl, ?_, ?_⟩
    · intro d
      simp only [Option.map_some', Option.some.injEq]
      constructor
      · intro hd
        exact Except.ok.inj hd
      · intro hd
        rw [hd]
    · simp

/-- C10. Method `operator[]( k )` on every table whose bucket array has
`m_size > 0` buckets (as every constructor allocates): on a present key it
returns the stored data and leaves the table as it was; on an absent key it
returns the default value, puts the entry `(k, default)` at the head of `k`'s
bucket, leaves every other bucket alone, increases `m_count` by exactly 1 and
keeps the bucket-array length, so that no rehash happens even when the count
then exceeds that length. -/
theorem get_or_insert_spec [Inhabited V] (t : HashTbl K V) (k : K) (hpos : 0 < t.m_size)
    (hlen : t.m_table.length = t.m_size) :
    (∀ d, HashTbl.retrieve hashf eq t k = some d →
      HashTbl.get_or_insert hashf eq t k = (d, t)) ∧
    (HashTbl.retrieve hashf eq t k = none →
      (HashTbl.get_or_insert hashf eq t k).1 = default ∧
      (HashTbl.get_or_insert hashf eq t k).2.m_table.getD (hashf k % t.m_size) [] =
        ⟨k, default⟩ :: t.m_table.getD (hashf k % t.m_size) [] ∧
      (∀ j, j ≠ hashf k % t.m_size →
        (HashTbl.get_or_insert hashf eq t k).2.m_table.getD j [] = t.m_table.getD j []) ∧
      (HashTbl.get_or_insert hashf eq t k).2.m_count = t.m_count + 1 ∧
      (HashTbl.get_or_insert hashf eq t k).2.m_size = t.m_size ∧
      (HashTbl.get_or_insert hashf eq t k).2.m_table.length = t.m_table.length ∧
      (t.m_size ≤ t.m_count →
        (HashTbl.get_or_insert hashf eq t k).2.m_size <
          (HashTbl.get_or_insert hashf eq t k).2.m_count)) := by
  constructor
  · intro d hd
    unfold HashTbl.retrieve at hd
    obtain ⟨item, hitem, hdata⟩ := Option.map_eq_some'.1 hd
    rw [get_or_insert_present t k item hitem, hdata]
  · intro hnone
    have hf := (retrieve_eq_none_iff t k).1 hnone
    rw [get_or_insert_absent t k hf]
    have ht : (HashTbl.pushed hashf t k (default : V)).m_table =
        t.m_table.set (hashf k % t.m_size)
          (⟨k, default⟩ :: t.m_table.getD (hashf k % t.m_size) []) := rfl
    refine ⟨rfl, ?_, ?_, rfl, rfl, ?_, ?_⟩
    · show (HashTbl.pushed hashf t k (default : V)).m_table.getD (hashf k % t.m_size) [] = _
      rw [ht, getD_set_bucket, if_pos ⟨rfl, by rw [hlen]; exact Nat.mod_lt _ hpos⟩]
    · intro j hj
      show (HashTbl.pushed hashf t k (default : V)).m_table.getD j [] = _
      rw [ht, getD_set_bucket, if_neg (fun h => hj h.1.symm)]
    · show (HashTbl.pushed hashf t k (default : V)).m_table.length = _
      rw [ht, List.length_set]
    · intro hle
      show t.m_size < t.m_count + 1
      omega

/-- Witness of C10: `operator[]` on the absent key `2` of the full two-bucket
table, whose count then exceeds the bucket-array length. -/
theorem get_or_insert_spec_witness :
    (∀ d, HashTbl.retrieve natHash natEq sample_full 2 = some d →
      HashTbl.get_or_insert natHash natEq sample_full 2 = (d, sample_full)) ∧
    (HashTbl.retrieve natHash natEq sample_full 2 = none →
      (HashTbl.get_or_insert natHash natEq sample_full 2).1 = default ∧
      (HashTbl.get_or_insert natHash natEq sample_full 2).2.m_table.getD
          (natHash 2 % sample_full.m_size) [] =
        ⟨2, default⟩ :: sample_full.m_table.getD (natHash 2 % sample_full.m_size) [] ∧
      (∀ j, j ≠ natHash 2 % sample_full.m_size →
        (HashTbl.get_or_insert natHash natEq sample_full 2).2.m_table.getD j [] =
          sample_full.m_table.getD j []) ∧
      (HashTbl.get_or_insert natHash natEq sample_full 2).2.m_count = sample_full.m_count + 1 ∧
      (HashTbl.get_or_insert natHash natEq sample_full 2).2.m_size = sample_full.m_size ∧
      (HashTbl.get_or_insert natHash natEq sample_full 2).2.m_table.length =
        sample_full.m_table.length ∧
      (sample_full.m_size ≤ sample_full.m_count →
        (HashTbl.get_or_insert natHash natEq sample_full 2).2.m_size <
          (HashTbl.get_or_insert natHash natEq sample_full 2).2.m_count)) :=
  get_or_insert_spec sample_full 2 (by rw [sample_full_table.1]; decide)
    (by rw [sample_full_table.1, sample_full_table.2.2]; rfl)

end AccessClaims

/-! ## Primality -/

section PrimeLemmas

/-- The trial-division loop, entered at a multiple of 6 with every candidate
divisor below `divisor - 1` already excluded, accepts only primes. -/
theorem is_prime_loop_sound (n : Nat) (hn : 2 ≤ n) :
    ∀ d : Nat, 6 ≤ d → d % 6 = 0 → (∀ m, 2 ≤ m → m < d - 1 → ¬ m ∣ n) →
      is_prime_loop n d = true → n.Prime := by
  intro d
  induction d using is_prime_loop.induct n with
  | case1 d hc h1 =>
    intro _ _ _ h
    rw [is_prime_loop, if_pos hc, if_pos h1] at h
    exact absurd h (by simp)
  | case2 d hc h1 h2 =>
    intro _ _ _ h
    rw [is_prime_loop, if_pos hc, if_neg h1, if_pos h2] at h
    exact absurd h (by simp)
  | case3 d hc h1 h2 ih =>
    intro hd h6 hall h
    rw [is_prime_loop, if_pos hc, if_neg h1, if_neg h2] at h
    refine ih (by omega) (by omega) ?_ h
    intro m hm2 hmlt hdvd
    have h2n : ¬ 2 ∣ n := hall 2 (le_refl 2) (by omega)
    have h3n : ¬ 3 ∣ n := hall 3 (by omega) (by omega)
    by_cases hlt : m < d - 1
    · exact hall m hm2 hlt hdvd
    · by_cases e1 : m = d - 1
      · rw [e1] at hdvd
        exact h1 (Nat.mod_eq_zero_of_dvd hdvd)
      · by_cases e2 : m = d + 1
        · rw [e2] at hdvd
          exact h2 (Nat.mod_eq_zero_of_dvd hdvd)
        · by_cases e3 : m = d + 3
          · have : 3 ∣ m := Nat.dvd_of_mod_eq_zero (by omega)
            exact h3n (Nat.dvd_trans this hdvd)
          · have : 2 ∣ m := Nat.dvd_of_mod_eq_zero (by omega)
            exact h2n (Nat.dvd_trans this hdvd)
  | case4 d hc =>
    intro hd _ hall _
    rw [Nat.prime_def_le_sqrt]
    refine ⟨hn, ?_⟩
    intro m hm2 hms
    apply hall m hm2
    have hmm : m * m ≤ n := Nat.le_sqrt.1 hms
    by_contra hge
    have hge' : d - 1 ≤ m := by omega
    have h1 : (d - 1) * (d - 1) ≤ m * m := Nat.mul_le_mul hge' hge'
    have h2 : d * d = (d - 1) * (d - 1) + 2 * d - 1 := by
      obtain ⟨e, rfl⟩ : ∃ e, d = e + 1 := ⟨d - 1, by omega⟩
      simp only [Nat.add_sub_cancel]; ring_nf; omega
    have h3 : (d - 1) * (d - 1) ≥ 5 * (d - 1) := Nat.mul_le_mul_right _ (by omega)
    omega

/-- Method `is_prime` accepts no composite number from 2 on. -/
theorem is_prime_sound (n : Nat) (hn : 2 ≤ n) (h : is_prime n = true) : n.Prime := by
  unfold is_prime at h
  by_cases h23 : n = 2 ∨ n = 3
  · rcases h23 with rfl | rfl
    · exact Nat.prime_two
    · exact Nat.prime_three
  · rw [if_neg h23] at h
    by_cases hdiv : n % 2 = 0 ∨ n % 3 = 0
    · rw [if_pos hdiv] at h
      exact absurd h (by simp)
    · rw [if_neg hdiv] at h
      refine is_prime_loop_sound n hn 6 (le_refl 6) rfl ?_ h
      intro m hm2 hmlt hdvd
      have hm : m = 2 ∨ m = 3 ∨ m = 4 := by omega
      rcases hm with rfl | rfl | rfl
      · exact hdiv (Or.inl (Nat.mod_eq_zero_of_dvd hdvd))
      · exact hdiv (Or.inr (Nat.mod_eq_zero_of_dvd hdvd))
      · exact hdiv (Or.inl (Nat.mod_eq_zero_of_dvd (Nat.dvd_trans (by decide : 2 ∣ 4) hdvd)))

/-- From 1 on, `find_next_prime( n )` is a prime above `n` and no prime lies
strictly between. -/
theorem find_next_prime_spec (n : Nat) (hn : 1 ≤ n) :
    (find_next_prime n).Prime ∧ n < find_next_prime n ∧
      ∀ p, p.Prime → n < p → find_next_prime n ≤ p := by
  induction n using find_next_prime.induct with
  | case1 n h =>
    rw [find_next_prime, if_pos h]
    exact ⟨is_prime_sound (n + 1) (by omega) h, Nat.lt_succ_self n, fun p _ hp => hp⟩
  | case2 n h ih =>
    rw [find_next_prime, if_neg h]
    obtain ⟨i1, i2, i3⟩ := ih (by omega)
    refine ⟨i1, by omega, ?_⟩
    intro p hp hlt
    apply i3 p hp
    have hne : p ≠ n + 1 := by
      intro e
      rw [e] at hp
      exact h (is_prime_of_prime (n + 1) hp)
    omega

theorem find_next_prime_eq (n p : Nat) (hn : 1 ≤ n) (hp : p.Prime) (hlt : n < p)
    (hmin : ∀ q, n < q → q < p → ¬ q.Prime) : find_next_prime n = p := by
  obtain ⟨h1, h2, h3⟩ := find_next_prime_spec n hn
  have hle := h3 p hp hlt
  by_contra hne
  exact hmin (find_next_prime n) h2 (by omega) h1

theorem is_prime_one : is_prime 1 = true := by
  unfold is_prime
  rw [if_neg (by decide), if_neg (by decide), is_prime_loop, if_neg (by decide)]

theorem find_next_prime_zero : find_next_prime 0 = 1 := by
  rw [find_next_prime, if_pos is_prime_one]

theorem find_next_prime_four : find_next_prime 4 = 5 :=
  find_next_prime_eq 4 5 (by decide) (by norm_num) (by decide) (fun q h1 h2 => by omega)

theorem find_next_prime_ten : find_next_prime 10 = 11 :=
  find_next_prime_eq 10 11 (by decide) (by norm_num) (by decide) (fun q h1 h2 => by omega)

end PrimeLemmas

/-! ## The bucket-array length across `insert` -/

section GrowthLemmas

variable {K V : Type} {hashf : K → Nat} {eq : K → K → Bool}

/-- Re-inserting into a table with room for the whole list never rehashes. -/
theorem fold_no_rehash {ins : HashTbl K V → K → V → Option (Bool × HashTbl K V)}
    (hs : Sound hashf eq ins) :
    ∀ (L : List (HashEntry K V)) (T T' : HashTbl K V), Chains hashf eq T → Counted T →
      T.m_count + L.length ≤ T.m_size →
      L.foldlM (fun acc en => (ins acc en.m_key en.m_data).map Prod.snd) T = some T' →
      T'.m_size = T.m_size := by
  intro L
  induction L with
  | nil =>
    intro T T' _ _ _ h
    simp only [List.foldlM_nil] at h
    have : T = T' := by simpa using h
    rw [this]
  | cons e L ih =>
    intro T T' hc hct hroom h
    rw [List.foldlM_cons] at h
    obtain ⟨T1, h1, h2⟩ := Option.bind_eq_some.1 h
    obtain ⟨r, hr, hrT⟩ := Option.map_eq_some'.1 h1
    have sp := hs T e.m_key e.m_data r hc hr
    subst hrT
    simp only [List.length_cons] at hroom
    have hnt : ¬ triggers_rehash hashf eq T e.m_key := by
      intro htr
      have := (load_gt_one_iff (T.m_count + 1) T.m_size).1 htr.2
      omega
    have hsz := sp.size_same hnt
    have hcnt := sp.counted hct
    have hb : (if r.1 = true then 1 else 0) ≤ 1 := by split <;> omega
    rw [ih r.2 T' sp.chains hcnt.1 (by omega) h2, hsz]

/-- Re-inserting keeps the count within the bucket-array length. -/
theorem fold_keeps_load {ins : HashTbl K V → K → V → Option (Bool × HashTbl K V)}
    (hs : Sound hashf eq ins) :
    ∀ (L : List (HashEntry K V)) (T T' : HashTbl K V), Chains hashf eq T → Counted T →
      T.m_count ≤ T.m_size →
      L.foldlM (fun acc en => (ins acc en.m_key en.m_data).map Prod.snd) T = some T' →
      T'.m_count ≤ T'.m_size := by
  intro L
  induction L with
  | nil =>
    intro T T' _ _ hl h
    simp only [List.foldlM_nil] at h
    have : T = T' := by simpa using h
    rw [← this]
    exact hl
  | cons e L ih =>
    intro T T' hc hct hl h
    rw [List.foldlM_cons] at h
    obtain ⟨T1, h1, h2⟩ := Option.bind_eq_some.1 h
    obtain ⟨r, hr, hrT⟩ := Option.map_eq_some'.1 h1
    have sp := hs T e.m_key e.m_data r hc hr
    subst hrT
    exact ih r.2 T' sp.chains (sp.counted hct).1 (light_of_spec sp hct hl) h2

/-- An `insert` that calls `rehash` is an `insert` of the pushed table's
entries into the regrown array. -/
theorem insert_rehash_fold (laws : KeyLaws hashf eq) (fuel : Nat) {t : HashTbl K V}
    (hc : Chains hashf eq t) (k : K) (v : V) (htr : triggers_rehash hashf eq t k)
    (r : Bool × HashTbl K V) (h : HashTbl.insert hashf eq (fuel + 1) t k v = some r) :
    r.1 = true ∧
    (HashTbl.pushed hashf t k v).entries.foldlM
      (fun acc en => (HashTbl.insert hashf eq fuel acc en.m_key en.m_data).map Prod.snd)
      (HashTbl.regrown (HashTbl.pushed hashf t k v)) = some r.2 ∧
    (HashTbl.pushed hashf t k v).entries.length = t.entries.length + 1 := by
  have hnf := (retrieve_eq_none_iff t k).1 htr.1
  obtain ⟨p1, _, p3⟩ := push_spec laws hc k v hnf (HashTbl.pushed hashf t k v) rfl rfl
  rw [insert_succ, if_neg (by rw [hnf]; exact Bool.false_ne_true), if_pos htr.2,
    rehash_eq_fold _ _ p1.length_eq] at h
  obtain ⟨t2, h2, hr⟩ := Option.map_eq_some'.1 h
  subst hr
  exact ⟨rfl, h2, p3⟩

/-- While the count does not exceed the bucket-array length, an `insert` that
rehashes ends with exactly `find_next_prime( 2 * m_size )` buckets. -/
theorem insert_exact_size (laws : KeyLaws hashf eq) (fuel : Nat) {t : HashTbl K V}
    (hwf : WF hashf eq t) (hl : t.m_count ≤ t.m_size) (k : K) (v : V)
    (htr : triggers_rehash hashf eq t k) (r : Bool × HashTbl K V)
    (h : HashTbl.insert hashf eq fuel t k v = some r) :
    r.2.m_size = find_next_prime (2 * t.m_size) := by
  cases fuel with
  | zero => simp [HashTbl.insert] at h
  | succ fuel =>
    obtain ⟨_, hfold, hlen⟩ := insert_rehash_fold laws fuel hwf.1 k v htr r h
    have hlt := lt_find_next_prime (2 * t.m_size)
    have hpos := hwf.1.size_pos
    have hct : t.m_count = t.entries.length := hwf.2
    have := fold_no_rehash (insert_sound laws fuel) _ _ _
      (chains_regrown (HashTbl.pushed hashf t k v)) (counted_regrown _) (by
        rw [hlen]
        show 0 + (t.entries.length + 1) ≤ find_next_prime (2 * t.m_size)
        omega) hfold
    rw [this]
    rfl

/-- After an `insert` that added a key, the count does not exceed the
bucket-array length, whatever the load was before. -/
theorem insert_true_load (laws : KeyLaws hashf eq) (fuel : Nat) {t : HashTbl K V}
    (hc : Chains hashf eq t) (k : K) (v : V) (r : Bool × HashTbl K V)
    (h : HashTbl.insert hashf eq fuel t k v = some r) (hb : r.1 = true) :
    r.2.m_count ≤ r.2.m_size := by
  have sp := insert_sound laws fuel t k v r hc h
  have hnone : HashTbl.retrieve hashf eq t k = none := by
    have := sp.flag
    rw [hb] at this
    cases hh : HashTbl.retrieve hashf eq t k
    · rfl
    · rw [hh] at this; simp at this
  by_cases hlf : ((t.m_count + 1 : Nat) : ℚ) / (t.m_size : ℚ) > 1
  · cases fuel with
    | zero => simp [HashTbl.insert] at h
    | succ fuel =>
      obtain ⟨_, hfold, _⟩ := insert_rehash_fold laws fuel hc k v ⟨hnone, hlf⟩ r h
      exact fold_keeps_load (insert_sound laws fuel) _ _ _
        (chains_regrown (HashTbl.pushed hashf t k v)) (counted_regrown _) (Nat.zero_le _) hfold
  · have hnt : ¬ triggers_rehash hashf eq t k := fun h => hlf h.2
    have h1 := sp.count_same hnt
    have h2 := sp.size_same hnt
    rw [load_gt_one_iff] at hlf
    have := hc.size_pos
    simp only [hb, if_true] at h1
    omega

end GrowthLemmas

/-! ## Prime-sized bucket arrays -/

section PrimeClaims

/-- C19. For every `n ≥ 2`, `is_prime( n )` returns `true` if and only if `n`
is a prime number. -/
theorem is_prime_iff_prime (n : Nat) (hn : 2 ≤ n) : is_prime n = true ↔ n.Prime :=
  ⟨is_prime_sound n hn, is_prime_of_prime n⟩

/-- Witness of C19 at 91 = 7 * 13, which is rejected inside the loop. -/
theorem is_prime_iff_prime_witness : is_prime 91 = true ↔ Nat.Prime 91 :=
  is_prime_iff_prime 91 (by decide)

/-- C18 at the failing input 0: `is_prime( 1 )` returns `true`, so
`find_next_prime( 0 )` returns 1, which is not a prime; the smallest prime
above 0 is 2. -/
theorem find_next_prime_zero_not_prime :
    is_prime 1 = true ∧ find_next_prime 0 = 1 ∧ ¬ (find_next_prime 0).Prime ∧
      Nat.Prime 2 ∧ find_next_prime 0 < 2 := by
  refine ⟨is_prime_one, find_next_prime_zero, ?_, Nat.prime_two, ?_⟩
  · rw [find_next_prime_zero]
    exact Nat.not_prime_one
  · rw [find_next_prime_zero]
    decide

/-- C13 at the failing input capacity 0 (and the empty entry list): the
constructors allocate `find_next_prime( 0 ) = 1` bucket, and 1 is not a prime. -/
theorem new_zero_not_prime :
    Reachable natHash natEq (HashTbl.new 0 0 : HashTbl Nat Nat) ∧
    (HashTbl.new 0 0 : HashTbl Nat Nat).m_size = 1 ∧
    (HashTbl.new 0 0 : HashTbl Nat Nat).m_table.length = 1 ∧
    Option.map HashTbl.m_size
      (HashTbl.from_entries natHash natEq 3 ([] : List (HashEntry Nat Nat)) 0) = some 1 ∧
    ¬ Nat.Prime 1 := by
  have h0 : (HashTbl.new 0 0 : HashTbl Nat Nat).m_size = 1 := find_next_prime_zero
  refine ⟨Reachable.new 0 0, h0, ?_, ?_, Nat.not_prime_one⟩
  · show (List.replicate (find_next_prime 0) ([] : List (HashEntry Nat Nat))).length = 1
    rw [List.length_replicate]
    exact find_next_prime_zero
  · show some (find_next_prime (0 * 2)) = some 1
    rw [Nat.zero_mul, find_next_prime_zero]

end PrimeClaims

/-! ## Construction and assignment from an entry list -/

section EntryListClaims

variable {K V : Type} {hashf : K → Nat} {eq : K → K → Bool}

theorem keys_of_entries_eq (ilist : List (HashEntry K V)) :
    keys_of_entries eq ilist =
      distinct_keys eq (ilist.map (fun en => (Op.insert en.m_key en.m_data : Op K V))) := by
  unfold keys_of_entries distinct_keys
  rw [List.foldl_map]
  rfl

theorem insert_all_eq_run (fuel : Nat) (t : HashTbl K V) (ilist : List (HashEntry K V)) :
    insert_all hashf eq fuel t ilist =
      run_ops hashf eq fuel t (ilist.map (fun en => (Op.insert en.m_key en.m_data : Op K V))) := by
  unfold insert_all run_ops
  rw [List.foldlM_map]
  rfl

/-- Inserting a whole entry list into an empty array of
`find_next_prime( 2 * length )` buckets. -/
theorem insert_all_fresh (laws : KeyLaws hashf eq) (ilist : List (HashEntry K V))
    (t0 : HashTbl K V) (hs : t0.m_size = find_next_prime (ilist.length * 2))
    (hcnt : t0.m_count = 0)
    (ht : t0.m_table = List.replicate (find_next_prime (ilist.length * 2)) [])
    (fuel : Nat) (hfuel : 3 ≤ fuel) :
    ∃ t, insert_all hashf eq fuel t0 ilist = some t ∧ HoldsList hashf eq t ilist := by
  have hlt := lt_find_next_prime (ilist.length * 2)
  have hc0 : Chains hashf eq t0 := chains_fresh _ (by omega) hs ht
  have hct0 : Counted t0 := counted_fresh _ hcnt ht
  have hk0 : KeysOf hashf eq t0 [] :=
    ⟨⟨hc0, hct0⟩, List.Pairwise.nil, fun k => by rw [retrieve_fresh _ ht]; simp, hcnt⟩
  obtain ⟨t, hrun, hk⟩ := keys_of_run laws fuel hfuel
    (ilist.map (fun en => (Op.insert en.m_key en.m_data : Op K V))) t0 [] hk0
  have hins : insert_all hashf eq fuel t0 ilist = some t := by
    rw [insert_all_eq_run]; exact hrun
  obtain ⟨c1, _, ret1, _, _⟩ := fold_spec (insert_sound laws fuel) ilist t0 t hc0 hins
  have hsz : t.m_size = t0.m_size :=
    fold_no_rehash (insert_sound laws fuel) ilist t0 t hc0 hct0 (by omega) hins
  have hret : ∀ k, HashTbl.retrieve hashf eq t k = lookup eq ilist.reverse k := by
    intro k
    rw [ret1, retrieve_fresh _ ht]
    cases lookup eq ilist.reverse k <;> rfl
  have hmul : ilist.length * 2 = 2 * ilist.length := Nat.mul_comm _ _
  have hsome : ∀ k, (HashTbl.retrieve hashf eq t k).isSome = true ↔
      ∃ en ∈ ilist, eq en.m_key k = true := by
    intro k
    rw [hret]
    cases hl : lookup eq ilist.reverse k with
    | none =>
      have := (lookup_eq_none_iff eq ilist.reverse k).1 hl
      simp only [Option.isSome_none, Bool.false_eq_true, false_iff, not_exists, not_and]
      intro en hen he
      have h2 : ilist.reverse.any (fun en => eq en.m_key k) = true :=
        List.any_eq_true.2 ⟨en, List.mem_reverse.2 hen, he⟩
      rw [h2] at this
      exact absurd this (by simp)
    | some d =>
      simp only [Option.isSome_some, true_iff]
      have hne : lookup eq ilist.reverse k ≠ none := by rw [hl]; simp
      have hany : ilist.reverse.any (fun en => eq en.m_key k) = true := by
        cases h2 : ilist.reverse.any (fun en => eq en.m_key k)
        · exact absurd ((lookup_eq_none_iff eq ilist.reverse k).2 h2) hne
        · rfl
      obtain ⟨en, hen, he⟩ := List.any_eq_true.1 hany
      exact ⟨en, List.mem_reverse.1 hen, he⟩
  refine ⟨t, hins, ⟨by rw [hsz, hs, hmul], by rw [c1.length_eq, hsz, hs, hmul], hret, ?_, ?_, ?_, ?_⟩⟩
  · intro k hno
    cases hh : HashTbl.retrieve hashf eq t k with
    | none => rfl
    | some d =>
      obtain ⟨en, hen, he⟩ := (hsome k).1 (by rw [hh]; rfl)
      rw [hno en hen] at he
      exact absurd he (by simp)
  · rw [keys_of_entries_eq]
    exact hk.count
  · rw [keys_of_entries_eq]
    exact hk.nodup
  · intro k
    rw [keys_of_entries_eq]
    exact (hk.present k).symm.trans (hsome k)

/-- C11. For every entry list, construction from it and assignment from it
(onto any table) complete and yield a table with exactly
`find_next_prime( 2 * length )` buckets in which `retrieve( k )` yields the data
of the last entry whose key equals `k`, `retrieve` fails for every key that
does not occur in the list, and `size()` is the number of distinct keys of the
list. -/
theorem from_entries_holds_list (laws : KeyLaws hashf eq) (ilist : List (HashEntry K V))
    (uninit : ℚ) (this_ : HashTbl K V) (fuel : Nat) (hfuel : 3 ≤ fuel) :
    (∃ t, HashTbl.from_entries hashf eq fuel ilist uninit = some t ∧
      HoldsList hashf eq t ilist) ∧
    (∃ t, HashTbl.assign_entries hashf eq fuel this_ ilist = some t ∧
      HoldsList hashf eq t ilist) :=
  ⟨insert_all_fresh laws ilist _ rfl rfl rfl fuel hfuel,
    insert_all_fresh laws ilist _ rfl rfl rfl fuel hfuel⟩

/-- Witness of C11 on a list of four entries with the key `1` twice, assigned
onto the table holding the keys `0` and `2`. -/
theorem from_entries_holds_list_witness :
    (∃ t, HashTbl.from_entries natHash natEq 3
        [⟨1, 10⟩, ⟨6, 20⟩, ⟨1, 30⟩, ⟨4, 40⟩] 0 = some t ∧
      HoldsList natHash natEq t [⟨1, 10⟩, ⟨6, 20⟩, ⟨1, 30⟩, ⟨4, 40⟩]) ∧
    (∃ t, HashTbl.assign_entries natHash natEq 3 sample_collide
        [⟨1, 10⟩, ⟨6, 20⟩, ⟨1, 30⟩, ⟨4, 40⟩] = some t ∧
      HoldsList natHash natEq t [⟨1, 10⟩, ⟨6, 20⟩, ⟨1, 30⟩, ⟨4, 40⟩]) :=
  from_entries_holds_list natLaws _ 0 sample_collide 3 (le_refl 3)

end EntryListClaims

/-! ## Load factor and growth -/

section LoadClaims

variable {K V : Type} {hashf : K → Nat} {eq : K → K → Bool}

/-- C12 at the failing input, a table assigned to itself: the table holding
the keys `0` and `2` keeps its bucket-array length and its count 2, but every
bucket is empty afterwards and `retrieve( 0 )`, which yielded 0, fails. -/
theorem self_assign_loses_entries :
    Reachable natHash natEq sample_collide ∧
    HashTbl.retrieve natHash natEq sample_collide 0 = some 0 ∧
    (HashTbl.assign_self sample_collide).m_size = sample_collide.m_size ∧
    (HashTbl.assign_self sample_collide).size = sample_collide.size ∧
    (HashTbl.assign_self sample_collide).size = 2 ∧
    (HashTbl.assign_self sample_collide).m_table = [[], []] ∧
    HashTbl.retrieve natHash natEq (HashTbl.assign_self sample_collide) 0 = none := by
  obtain ⟨h1, h2, h3⟩ := sample_collide_table
  have ht : (HashTbl.assign_self sample_collide).m_table = [[], []] := by
    rw [assign_self_table, h1]
    rfl
  refine ⟨sample_collide_reachable, ?_, rfl, rfl, h2, ht, ?_⟩
  · rw [retrieve_eq_lookup, h1, h3]; rfl
  · rw [retrieve_eq_lookup, ht]
    have hs : (HashTbl.assign_self sample_collide).m_size = 2 := h1
    rw [hs]
    rfl

/-- C16 at the failing input: on the reachable two-bucket table holding the
keys `0` and `1` (count 2), `operator[]( 2 )` completes with count 3 and still
2 buckets, so the count exceeds the bucket-array length. -/
theorem get_or_insert_overfills :
    Reachable natHash natEq sample_full ∧
    sample_full.m_count ≤ sample_full.m_size ∧
    Reachable natHash natEq (HashTbl.get_or_insert natHash natEq sample_full 2).2 ∧
    (HashTbl.get_or_insert natHash natEq sample_full 2).2.m_count = 3 ∧
    (HashTbl.get_or_insert natHash natEq sample_full 2).2.m_size = 2 ∧
    ¬ ((HashTbl.get_or_insert natHash natEq sample_full 2).2.m_count ≤
      (HashTbl.get_or_insert natHash natEq sample_full 2).2.m_size) := by
  obtain ⟨h1, h2, h3⟩ := sample_full_table
  have hf : (sample_full.m_table.getD (natHash 2 % sample_full.m_size) []).any
      (fun en => natEq en.m_key 2) = false := by
    rw [h1, h3]; rfl
  have hc : (HashTbl.get_or_insert natHash natEq sample_full 2).2.m_count = 3 := by
    rw [get_or_insert_absent sample_full 2 hf]
    show sample_full.m_count + 1 = 3
    rw [h2]
  have hs : (HashTbl.get_or_insert natHash natEq sample_full 2).2.m_size = 2 := by
    rw [get_or_insert_absent sample_full 2 hf]
    exact h1
  refine ⟨sample_full_reachable, by rw [h1, h2], Reachable.get_or_insert 2 sample_full_reachable,
    hc, hs, ?_⟩
  rw [hc, hs]
  decide

end LoadClaims

/-! ## The driver scenario and nested rehashes -/

section ScenarioClaims

variable {K V : Type} {hashf : K → Nat} {eq : K → K → Bool}

/-- Inserting a list of pairwise different, absent keys into a table with room
for all of them: no rehash, the count grows by the length of the list. -/
theorem insert_all_room (laws : KeyLaws hashf eq) (fuel : Nat) (hfuel : 3 ≤ fuel)
    (L : List (HashEntry K V)) (T : HashTbl K V) (hwf : WF hashf eq T)
    (hroom : T.m_count + L.length ≤ T.m_size)
    (hpw : L.Pairwise (fun a b => eq a.m_key b.m_key = false))
    (habs : ∀ e ∈ L, HashTbl.retrieve hashf eq T e.m_key = none) :
    ∃ T', insert_all hashf eq fuel T L = some T' ∧ WF hashf eq T' ∧
      T'.m_size = T.m_size ∧ T'.m_count = T.m_count + L.length ∧
      ∀ k, HashTbl.retrieve hashf eq T' k =
        if (lookup eq L.reverse k).isSome then lookup eq L.reverse k
        else HashTbl.retrieve hashf eq T k := by
  obtain ⟨f, rfl⟩ : ∃ f, fuel = f + 1 := ⟨fuel - 1, by omega⟩
  obtain ⟨T', hT'⟩ := @fold_light K V hashf eq f L T hroom
  obtain ⟨c1, _, ret1, cnt1, num1⟩ := fold_spec (insert_sound laws (f + 1)) L T T' hwf.1 hT'
  exact ⟨T', hT', ⟨c1, cnt1 hwf.2⟩,
    fold_no_rehash (insert_sound laws (f + 1)) L T T' hwf.1 hwf.2 hroom hT',
    num1 hwf.2 hpw habs, ret1⟩

theorem lookup_of_mem (laws : KeyLaws hashf eq) (L : List (HashEntry K V))
    (hpw : L.Pairwise (fun a b => eq a.m_key b.m_key = false)) (en : HashEntry K V)
    (hen : en ∈ L) : lookup eq L.reverse en.m_key = some en.m_data := by
  rw [lookup_reverse laws L hpw, lookup_eq_some_iff laws L hpw]
  exact ⟨en, hen, laws.refl _, rfl⟩

theorem lookup_none_of_distinct (L : List (HashEntry K V)) (k : K)
    (h : ∀ en ∈ L, eq en.m_key k = false) : lookup eq L.reverse k = none := by
  rw [lookup_eq_none_iff]
  cases hh : L.reverse.any (fun en => eq en.m_key k)
  · rfl
  · obtain ⟨en, hen, he⟩ := List.any_eq_true.1 hh
    rw [h en (List.mem_reverse.1 hen)] at he
    exact absurd he (by simp)

/-- C17, amended. A table created with capacity 4 has 5 buckets. Inserting 8
pairs with pairwise different keys: after the 5th insertion the table still has
5 buckets and the load factor is exactly 1, not above; the 6th insertion makes
it 6/5 and the table grows to 11 buckets at that point; after all 8 insertions
the table has 11 buckets, `size()` is 8 and every one of the 8 keys is
retrievable with its value. -/
theorem eight_inserts_capacity_four (laws : KeyLaws hashf eq) (uninit : ℚ)
    (L5 : List (HashEntry K V)) (e6 : HashEntry K V) (L2 : List (HashEntry K V))
    (h5 : L5.length = 5) (h2 : L2.length = 2)
    (hd : (L5 ++ e6 :: L2).Pairwise (fun a b => eq a.m_key b.m_key = false))
    (fuel : Nat) (hfuel : 3 ≤ fuel) :
    (HashTbl.new 4 uninit : HashTbl K V).m_size = 5 ∧
    ∃ t5 r6 t8,
      insert_all hashf eq fuel (HashTbl.new 4 uninit) L5 = some t5 ∧
      t5.m_size = 5 ∧ t5.m_count = 5 ∧
      ¬ ((t5.m_count : ℚ) / (t5.m_size : ℚ) > 1) ∧
      triggers_rehash hashf eq t5 e6.m_key ∧
      HashTbl.insert hashf eq fuel t5 e6.m_key e6.m_data = some r6 ∧
      r6.2.m_size = 11 ∧ r6.2.m_count = 6 ∧
      insert_all hashf eq fuel r6.2 L2 = some t8 ∧
      insert_all hashf eq fuel (HashTbl.new 4 uninit) (L5 ++ e6 :: L2) = some t8 ∧
      t8.m_size = 11 ∧ t8.size = 8 ∧
      ∀ en ∈ L5 ++ e6 :: L2, HashTbl.retrieve hashf eq t8 en.m_key = some en.m_data := by
  have hs0 : (HashTbl.new 4 uninit : HashTbl K V).m_size = 5 := find_next_prime_four
  have hc0 : (HashTbl.new 4 uninit : HashTbl K V).m_count = 0 := rfl
  have hr0 : ∀ k, HashTbl.retrieve hashf eq (HashTbl.new 4 uninit : HashTbl K V) k = none :=
    fun k => retrieve_fresh (find_next_prime 4) rfl k
  obtain ⟨hd5, hcross⟩ := List.pairwise_append.1 hd |>.1, (List.pairwise_append.1 hd).2
  obtain ⟨hd62, hcross2⟩ := hcross
  obtain ⟨h6L2, hd2⟩ := List.pairwise_cons.1 hd62
  -- the first five insertions
  obtain ⟨t5, ht5, wf5, sz5, cnt5, ret5⟩ := insert_all_room laws fuel hfuel L5
    (HashTbl.new 4 uninit) (wf_new 4 uninit) (by rw [hs0, hc0, h5]) hd5 (fun e _ => hr0 _)
  rw [hs0] at sz5
  rw [hc0, h5] at cnt5
  have habs6 : HashTbl.retrieve hashf eq t5 e6.m_key = none := by
    rw [ret5, lookup_none_of_distinct L5 e6.m_key
      (fun en hen => hcross2 en hen e6 (List.mem_cons_self _ _)), hr0]
    rfl
  have htr6 : triggers_rehash hashf eq t5 e6.m_key := by
    refine ⟨habs6, ?_⟩
    rw [load_gt_one_iff, sz5, cnt5]
    omega
  -- the sixth insertion
  obtain ⟨r6, hr6, sp6⟩ := insert_complete laws fuel hfuel t5 e6.m_key e6.m_data wf5.1
  have sz6 : r6.2.m_size = 11 := by
    rw [insert_exact_size laws fuel wf5 (by rw [sz5, cnt5]) e6.m_key e6.m_data htr6 r6 hr6, sz5]
    exact find_next_prime_ten
  have hcnt6 := sp6.counted wf5.2
  have hflag6 : r6.1 = true := by rw [sp6.flag, habs6]; rfl
  have cnt6 : r6.2.m_count = 6 := by
    rw [hcnt6.2, hflag6, cnt5]; rfl
  -- the last two insertions
  have habs2 : ∀ e ∈ L2, HashTbl.retrieve hashf eq r6.2 e.m_key = none := by
    intro e he
    rw [sp6.retrieve_eq, h6L2 e he, ret5, lookup_none_of_distinct L5 e.m_key
      (fun en hen => hcross2 en hen e (List.mem_cons_of_mem _ he)), hr0]
    rfl
  obtain ⟨t8, ht8, wf8, sz8, cnt8, ret8⟩ := insert_all_room laws fuel hfuel L2 r6.2
    ⟨sp6.chains, hcnt6.1⟩ (by rw [sz6, cnt6, h2]; decide) hd2 habs2
  have hall : insert_all hashf eq fuel (HashTbl.new 4 uninit) (L5 ++ e6 :: L2) = some t8 := by
    unfold insert_all at ht5 ht8 ⊢
    rw [List.foldlM_append, ht5]
    simp only [Option.bind_eq_bind, Option.some_bind]
    rw [List.foldlM_cons, hr6]
    exact ht8
  obtain ⟨_, _, retall, _, _⟩ := fold_spec (insert_sound laws fuel) _ _ _
    (chains_new 4 uninit) hall
  refine ⟨hs0, t5, r6, t8, ht5, sz5, cnt5, ?_, htr6, hr6, sz6, cnt6, ht8, hall,
    by rw [sz8, sz6], ?_, ?_⟩
  · rw [sz5, cnt5]
    norm_num
  · show t8.m_count = 8
    rw [cnt8, cnt6, h2]
  · intro en hen
    rw [retall, lookup_of_mem laws _ hd en hen]
    rfl

/-- Witness of amended C17 with the keys 1 to 8. -/
theorem eight_inserts_capacity_four_witness :
    (HashTbl.new 4 0 : HashTbl Nat Nat).m_size = 5 ∧
    ∃ t5 r6 t8,
      insert_all natHash natEq 3 (HashTbl.new 4 0)
        [⟨1, 10⟩, ⟨2, 20⟩, ⟨3, 30⟩, ⟨4, 40⟩, ⟨5, 50⟩] = some t5 ∧
      t5.m_size = 5 ∧ t5.m_count = 5 ∧
      ¬ ((t5.m_count : ℚ) / (t5.m_size : ℚ) > 1) ∧
      triggers_rehash natHash natEq t5 (⟨6, 60⟩ : HashEntry Nat Nat).m_key ∧
      HashTbl.insert natHash natEq 3 t5 (⟨6, 60⟩ : HashEntry Nat Nat).m_key
        (⟨6, 60⟩ : HashEntry Nat Nat).m_data = some r6 ∧
      r6.2.m_size = 11 ∧ r6.2.m_count = 6 ∧
      insert_all natHash natEq 3 r6.2 [⟨7, 70⟩, ⟨8, 80⟩] = some t8 ∧
      insert_all natHash natEq 3 (HashTbl.new 4 0)
        ([⟨1, 10⟩, ⟨2, 20⟩, ⟨3, 30⟩, ⟨4, 40⟩, ⟨5, 50⟩] ++ ⟨6, 60⟩ :: [⟨7, 70⟩, ⟨8, 80⟩])
          = some t8 ∧
      t8.m_size = 11 ∧ t8.size = 8 ∧
      ∀ en ∈ ([⟨1, 10⟩, ⟨2, 20⟩, ⟨3, 30⟩, ⟨4, 40⟩, ⟨5, 50⟩] ++ ⟨6, 60⟩ :: [⟨7, 70⟩, ⟨8, 80⟩] :
          List (HashEntry Nat Nat)),
        HashTbl.retrieve natHash natEq t8 en.m_key = some en.m_data :=
  eight_inserts_capacity_four natLaws 0 [⟨1, 10⟩, ⟨2, 20⟩, ⟨3, 30⟩, ⟨4, 40⟩, ⟨5, 50⟩] ⟨6, 60⟩
    [⟨7, 70⟩, ⟨8, 80⟩] rfl rfl (by decide) 3 (le_refl 3)

/-- Counterexample to C17 as stated: after five insertions with the keys 1 to 5
into a table of capacity 4, the table has 5 buckets, not 11, and the load
factor 5/5 does not exceed 1. -/
theorem five_inserts_keep_five_buckets :
    Option.map (fun t => (t.m_size, t.m_count))
      (insert_all natHash natEq 3 (HashTbl.new 4 0)
        [⟨1, 10⟩, ⟨2, 20⟩, ⟨3, 30⟩, ⟨4, 40⟩, ⟨5, 50⟩]) = some (5, 5) ∧
    ¬ (((5 : Nat) : ℚ) / ((5 : Nat) : ℚ) > 1) := by
  obtain ⟨t5, ht5, _, sz5, cnt5, _⟩ := insert_all_room natLaws 3 (le_refl 3)
    ([⟨1, 10⟩, ⟨2, 20⟩, ⟨3, 30⟩, ⟨4, 40⟩, ⟨5, 50⟩] : List (HashEntry Nat Nat))
    (HashTbl.new 4 0) (wf_new 4 0)
    (by
      show 0 + 5 ≤ find_next_prime 4
      rw [find_next_prime_four])
    (by decide) (fun e _ => retrieve_fresh (find_next_prime 4) rfl _)
  refine ⟨?_, by norm_num⟩
  rw [ht5]
  show some (t5.m_size, t5.m_count) = some (5, 5)
  rw [sz5, cnt5]
  show some (find_next_prime 4, 0 + 5) = some (5, 5)
  rw [find_next_prime_four]

theorem sample_over_table :
    sample_over.m_size = 2 ∧ sample_over.m_count = 5 ∧
      sample_over.m_table = [[⟨4, 0⟩, ⟨2, 0⟩, ⟨0, 0⟩], [⟨3, 0⟩, ⟨1, 0⟩]] := by
  unfold sample_over
  rw [new_one]
  exact ⟨rfl, rfl, rfl⟩

theorem sample_over_reachable : Reachable natHash natEq sample_over :=
  Reachable.get_or_insert 4 (Reachable.get_or_insert 3 (Reachable.get_or_insert 2
    (Reachable.get_or_insert 1 (Reachable.get_or_insert 0 (Reachable.new 1 0)))))

theorem sample_over_triggers : triggers_rehash natHash natEq sample_over 5 := by
  obtain ⟨h1, h2, h3⟩ := sample_over_table
  refine ⟨?_, ?_⟩
  · rw [retrieve_eq_lookup, h1, h3]
    rfl
  · rw [h1, h2, load_gt_one_iff]
    omega

/-- C20 at the failing input. The two-bucket table filled with the keys `0` to
`4` through `operator[]` is reachable; `insert( 5, 9 )` triggers a rehash, whose
re-insertion of the six entries into `find_next_prime( 4 ) = 5` buckets triggers
a second rehash at the sixth entry: the insert ends with 11 buckets, not 5. -/
theorem rehash_nests_after_get_or_insert :
    Reachable natHash natEq sample_over ∧
    triggers_rehash natHash natEq sample_over 5 ∧
    find_next_prime (2 * sample_over.m_size) = 5 ∧
    Option.map (fun r => r.2.m_size) (HashTbl.insert natHash natEq 3 sample_over 5 9) =
      some 11 := by
  obtain ⟨h1, h2, h3⟩ := sample_over_table
  have hc := reachable_chains natLaws sample_over_reachable
  have htr := sample_over_triggers
  have hfour : find_next_prime (2 * sample_over.m_size) = 5 := by
    rw [h1]; exact find_next_prime_four
  refine ⟨sample_over_reachable, htr, hfour, ?_⟩
  obtain ⟨r, hr⟩ := insert_total natLaws 3 (le_refl 3) sample_over 5 9
  obtain ⟨_, hfold, _⟩ := insert_rehash_fold natLaws 2 hc 5 9 htr r hr
  have hentries : (HashTbl.pushed natHash sample_over 5 9).entries =
      [⟨4, 0⟩, ⟨2, 0⟩, ⟨0, 0⟩, ⟨5, 9⟩, ⟨3, 0⟩] ++ [⟨1, 0⟩] := by
    unfold HashTbl.pushed HashTbl.entries
    simp only []
    rw [h1, h3]
    rfl
  have hsz0 : (HashTbl.regrown (HashTbl.pushed natHash sample_over 5 9)).m_size = 5 := hfour
  rw [hentries, List.foldlM_append] at hfold
  obtain ⟨T1, hT1, hlast⟩ := Option.bind_eq_some.1 hfold
  rw [List.foldlM_cons] at hlast
  obtain ⟨T2, hT2, hnil⟩ := Option.bind_eq_some.1 hlast
  obtain ⟨r1, hr1, hr1T⟩ := Option.map_eq_some'.1 hT2
  have hT2r : T2 = r.2 := by
    simp only [List.foldlM_nil] at hnil
    exact Option.some.inj hnil
  obtain ⟨c1, _, ret1, cnt1, num1⟩ := fold_spec (insert_sound natLaws 2) _ _ _
    (chains_regrown (HashTbl.pushed natHash sample_over 5 9)) hT1
  have hcnt0 := counted_regrown (HashTbl.pushed natHash sample_over 5 9)
  have sz1 : T1.m_size = 5 := by
    rw [fold_no_rehash (insert_sound natLaws 2) _ _ _
      (chains_regrown (HashTbl.pushed natHash sample_over 5 9)) hcnt0
      (by rw [hsz0]; exact le_refl 5) hT1, hsz0]
  have cntT1 : T1.m_count = 5 :=
    num1 hcnt0 (by decide) (fun e _ => retrieve_regrown _ _)
  have habs : HashTbl.retrieve natHash natEq T1 1 = none := by
    rw [ret1, retrieve_regrown]
    rfl
  have htr1 : triggers_rehash natHash natEq T1 1 := by
    refine ⟨habs, ?_⟩
    rw [load_gt_one_iff, sz1, cntT1]
    omega
  have sz2 := insert_exact_size natLaws 2 ⟨c1, cnt1 hcnt0⟩ (by rw [sz1, cntT1]) 1 0 htr1 r1 hr1
  rw [sz1, find_next_prime_ten, hr1T, hT2r] at sz2
  rw [hr]
  show some r.2.m_size = some 11
  rw [sz2]

end ScenarioClaims

/-! ## The bucket-array length of reachable tables -/

section SizeInvariant

variable {K V : Type} {hashf : K → Nat} {eq : K → K → Bool}

theorem find_next_prime_one_or_prime (n : Nat) :
    find_next_prime n = 1 ∨ (find_next_prime n).Prime := by
  rcases Nat.eq_zero_or_pos n with h | h
  · rw [h]; exact Or.inl find_next_prime_zero
  · exact Or.inr (find_next_prime_spec n h).1

theorem fold_size_prime {ins : HashTbl K V → K → V → Option (Bool × HashTbl K V)}
    (hins : ∀ t k v r, (t.m_size = 1 ∨ t.m_size.Prime) → ins t k v = some r →
      (r.2.m_size = 1 ∨ r.2.m_size.Prime)) :
    ∀ (L : List (HashEntry K V)) (T T' : HashTbl K V), (T.m_size = 1 ∨ T.m_size.Prime) →
      L.foldlM (fun acc en => (ins acc en.m_key en.m_data).map Prod.snd) T = some T' →
      (T'.m_size = 1 ∨ T'.m_size.Prime) := by
  intro L
  induction L with
  | nil =>
    intro T T' hT h
    simp only [List.foldlM_nil] at h
    have : T = T' := by simpa using h
    rw [← this]
    exact hT
  | cons e L ih =>
    intro T T' hT h
    rw [List.foldlM_cons] at h
    obtain ⟨T1, h1, h2⟩ := Option.bind_eq_some.1 h
    obtain ⟨r, hr, hrT⟩ := Option.map_eq_some'.1 h1
    subst hrT
    exact ih r.2 T' (hins T e.m_key e.m_data r hT hr) h2

/-- Method `insert` keeps the bucket-array length 1 or prime, on any table. -/
theorem insert_size_prime :
    ∀ (fuel : Nat) (t : HashTbl K V) (k : K) (v : V) (r : Bool × HashTbl K V),
      (t.m_size = 1 ∨ t.m_size.Prime) → HashTbl.insert hashf eq fuel t k v = some r →
      (r.2.m_size = 1 ∨ r.2.m_size.Prime) := by
  intro fuel
  induction fuel with
  | zero =>
    intro t k v r _ h
    simp [HashTbl.insert] at h
  | succ fuel ih =>
    intro t k v r hT h
    rw [insert_succ] at h
    by_cases hf : (t.m_table.getD (hashf k % t.m_size) []).any (fun en => eq en.m_key k) = true
    · rw [if_pos hf] at h
      rw [← Option.some.inj h, write_at_found t k v hf]
      exact hT
    · rw [if_neg hf] at h
      by_cases hlf : ((t.m_count + 1 : Nat) : ℚ) / (t.m_size : ℚ) > 1
      · rw [if_pos hlf] at h
        obtain ⟨t2, h2, hr⟩ := Option.map_eq_some'.1 h
        subst hr
        unfold HashTbl.rehash at h2
        simp only [] at h2
        rw [foldlM_flatten] at h2
        exact fold_size_prime ih _ _ _ (find_next_prime_one_or_prime _) h2
      · rw [if_neg hlf] at h
        rw [← Option.some.inj h]
        exact hT

/-- In every reachable table the bucket-array length is 1 or a prime; it is 1
only as long as a table built with capacity 0 or from an empty list has not
been rehashed. -/
theorem reachable_size_prime [Inhabited V] {t : HashTbl K V} (hr : Reachable hashf eq t) :
    t.m_size = 1 ∨ t.m_size.Prime := by
  induction hr with
  | new sz u => exact find_next_prime_one_or_prime sz
  | from_copy _ ih => exact ih
  | from_entries h =>
    exact fold_size_prime (insert_size_prime _) _ _ _ (find_next_prime_one_or_prime _) h
  | assign _ _ _ ih => exact ih
  | assign_self _ ih => exact ih
  | assign_entries _ h _ =>
    exact fold_size_prime (insert_size_prime _) _ _ _ (find_next_prime_one_or_prime _) h
  | insert _ h ih => exact insert_size_prime _ _ _ _ _ ih h
  | @erase t k _ ih =>
    by_cases hf : (t.m_table.getD (hashf k % t.m_size) []).any (fun en => eq en.m_key k) = true
    · rw [erase_found t k hf]; exact ih
    · rw [erase_absent t k (by simpa using hf)]; exact ih
  | clear _ ih => exact ih
  | @write_at t k d _ ih =>
    by_cases hf : (t.m_table.getD (hashf k % t.m_size) []).any (fun en => eq en.m_key k) = true
    · rw [write_at_found t k d hf]; exact ih
    · rw [write_at_absent t k d (by simpa using hf)]; exact ih
  | @get_or_insert t k _ ih =>
    cases hfind : (t.m_table.getD (hashf k % t.m_size) []).find? (fun en => eq en.m_key k) with
    | none =>
      rw [get_or_insert_absent t k ((find_eq_none_iff_any _ k).1 hfind)]
      exact ih
    | some item =>
      rw [get_or_insert_present t k item hfind]
      exact ih
  | set_max_load_factor mlf _ ih => exact ih

/-- On a reachable table, an `insert` that rehashes more than doubles the
bucket-array length and ends with a prime length. -/
theorem rehash_more_than_doubles [Inhabited V] (laws : KeyLaws hashf eq) {t : HashTbl K V}
    (hr : Reachable hashf eq t) (k : K) (v : V) (htr : triggers_rehash hashf eq t k)
    (fuel : Nat) (r : Bool × HashTbl K V) (h : HashTbl.insert hashf eq fuel t k v = some r) :
    2 * t.m_size < r.2.m_size ∧ r.2.m_size.Prime := by
  have sp := insert_sound laws fuel t k v r (reachable_chains laws hr) h
  have h1 := sp.size_grow htr
  have h2 := lt_find_next_prime (2 * t.m_size)
  have hpos := (reachable_chains laws hr).size_pos
  refine ⟨by omega, ?_⟩
  rcases reachable_size_prime (Reachable.insert hr h) with h3 | h3
  · omega
  · exact h3

/-- Copy construction and copy assignment between two distinct tables return
the source. -/
theorem copy_equals_source [Inhabited V] (laws : KeyLaws hashf eq) {source : HashTbl K V}
    (hr : Reachable hashf eq source) (this_ : HashTbl K V) :
    HashTbl.from_copy source = source ∧ HashTbl.assign this_ source = source :=
  ⟨from_copy_eq (reachable_chains laws hr).length_eq,
    assign_eq this_ (reachable_chains laws hr).length_eq⟩

end SizeInvariant

/-! ## Termination of the prime search -/

section TerminationClaims

/-- The loop of `is_prime` stops within `n + 8 - divisor` evaluations of its
condition and decides what `is_prime_loop` decides. -/
theorem is_prime_loop_within_eq (n : Nat) :
    ∀ (rounds d : Nat), n + 7 - d < rounds →
      is_prime_loop_within rounds n d = some (is_prime_loop n d) := by
  intro rounds
  induction rounds with
  | zero => intro d h; omega
  | succ rounds ih =>
    intro d h
    rw [is_prime_loop_within, is_prime_loop]
    by_cases hc : d * d - 2 * d + 1 ≤ n
    · have hd : d ≤ n + 6 := by
        by_contra hcon
        have h1 : 2 * d + n < d * d := by nlinarith
        omega
      rw [if_pos hc, if_pos hc]
      by_cases h1 : n % (d - 1) = 0
      · rw [if_pos h1, if_pos h1]
      · rw [if_neg h1, if_neg h1]
        by_cases h2 : n % (d + 1) = 0
        · rw [if_pos h2, if_pos h2]
        · rw [if_neg h2, if_neg h2]
          exact ih (d + 6) (by omega)
    · rw [if_neg hc, if_neg hc]

/-- The value `find_next_prime` returns is accepted by `is_prime`, and every
number the scan passed on its way is rejected. -/
theorem find_next_prime_accepted (n : Nat) :
    is_prime (find_next_prime n) = true ∧
      ∀ m, n < m → m < find_next_prime n → is_prime m = false := by
  induction n using find_next_prime.induct with
  | case1 n h =>
    rw [find_next_prime, if_pos h]
    exact ⟨h, fun m h1 h2 => by omega⟩
  | case2 n h ih =>
    rw [find_next_prime, if_neg h]
    refine ⟨ih.1, ?_⟩
    intro m h1 h2
    by_cases hm : m = n + 1
    · rw [hm]
      simpa using h
    · exact ih.2 m (by omega) h2

/-- The scan of `find_next_prime` returns once it is given as many rounds as
numbers lie between `n` and the value returned. -/
theorem find_next_prime_within_eq :
    ∀ (rounds n : Nat), find_next_prime n - n ≤ rounds →
      find_next_prime_within rounds n = some (find_next_prime n) := by
  intro rounds
  induction rounds with
  | zero =>
    intro n h
    have := lt_find_next_prime n
    omega
  | succ rounds ih =>
    intro n h
    by_cases hp : is_prime (n + 1) = true
    · have e : find_next_prime n = n + 1 := by rw [find_next_prime, if_pos hp]
      rw [find_next_prime_within, if_pos hp, e]
    · have e : find_next_prime n = find_next_prime (n + 1) := by
        rw [find_next_prime, if_neg hp]
      have hlt := lt_find_next_prime (n + 1)
      rw [find_next_prime_within, if_neg hp, e]
      exact ih (n + 1) (by omega)

/-- The scan stops at `2 * n` at the latest (at 1 for `n = 0`): a prime lies
between `n` and `2 * n`. -/
theorem find_next_prime_le (n : Nat) : find_next_prime n ≤ 2 * n + 1 := by
  rcases Nat.eq_zero_or_pos n with h | h
  · rw [h, find_next_prime_zero]
  · obtain ⟨p, hp, h1, h2⟩ := Nat.exists_prime_lt_and_le_two_mul n (by omega)
    have := (find_next_prime_spec n h).2.2 p hp h1
    omega

/-- C22. Method `find_next_prime( n )` terminates for every natural number
`n`: the scan from `n + 1` upwards returns within `n + 1` evaluations of
`is_prime` (and with any larger bound), the value it returns is the one of the
total function `find_next_prime`, it lies above `n`, it is accepted by
`is_prime`, and every number before it was rejected. Each call of `is_prime`
itself returns: its loop stops within `m + 2` evaluations of its condition. -/
theorem find_next_prime_terminates (n : Nat) :
    (∀ rounds, n + 1 ≤ rounds →
      find_next_prime_within rounds n = some (find_next_prime n)) ∧
    find_next_prime_within (find_next_prime n - n) n = some (find_next_prime n) ∧
    n < find_next_prime n ∧
    is_prime (find_next_prime n) = true ∧
    (∀ m, n < m → m < find_next_prime n → is_prime m = false) ∧
    (∀ m rounds, m + 2 ≤ rounds →
      is_prime_loop_within rounds m 6 = some (is_prime_loop m 6)) := by
  have hle := find_next_prime_le n
  refine ⟨fun rounds h => find_next_prime_within_eq rounds n (by omega),
    find_next_prime_within_eq _ n (le_refl _), lt_find_next_prime n,
    (find_next_prime_accepted n).1, (find_next_prime_accepted n).2, ?_⟩
  intro m rounds h
  exact is_prime_loop_within_eq m rounds 6 (by omega)

end TerminationClaims

/-! ## The representation invariant -/

section InvariantClaims

variable {K V : Type} {hashf : K → Nat} {eq : K → K → Bool}

theorem wf_fresh (n : Nat) (hn : 0 < n) {t : HashTbl K V} (hs : t.m_size = n)
    (hcnt : t.m_count = 0) (ht : t.m_table = List.replicate n []) : WF hashf eq t :=
  ⟨chains_fresh n hn hs ht, counted_fresh n hcnt ht⟩

theorem wf_insert (laws : KeyLaws hashf eq) (fuel : Nat) {t : HashTbl K V} (hwf : WF hashf eq t)
    (k : K) (v : V) (r : Bool × HashTbl K V) (h : HashTbl.insert hashf eq fuel t k v = some r) :
    WF hashf eq r.2 :=
  have sp := insert_sound laws fuel t k v r hwf.1 h
  ⟨sp.chains, (sp.counted hwf.2).1⟩

theorem wf_insert_all (laws : KeyLaws hashf eq) (fuel : Nat) {t t' : HashTbl K V}
    (ilist : List (HashEntry K V)) (hwf : WF hashf eq t)
    (h : insert_all hashf eq fuel t ilist = some t') : WF hashf eq t' :=
  ⟨chains_insert_all laws fuel ilist hwf.1 h, counted_insert_all laws fuel ilist hwf.1 hwf.2 h⟩

theorem wf_erase (laws : KeyLaws hashf eq) {t : HashTbl K V} (hwf : WF hashf eq t) (k : K) :
    WF hashf eq (HashTbl.erase hashf eq t k).2 := by
  refine ⟨chains_erase laws hwf.1 k, ?_⟩
  by_cases hf : (t.m_table.getD (hashf k % t.m_size) []).any (fun en => eq en.m_key k) = true
  · have h4 := (erase_spec laws hwf.1 k hf).2.2.2
    have hcnt : (HashTbl.erase hashf eq t k).2.m_count = t.m_count - 1 := by
      rw [erase_found t k hf]; rfl
    have hct : t.m_count = t.entries.length := hwf.2
    show (HashTbl.erase hashf eq t k).2.m_count = (HashTbl.erase hashf eq t k).2.entries.length
    omega
  · rw [erase_absent t k (by simpa using hf)]
    exact hwf.2

theorem wf_clear {t : HashTbl K V} (hwf : WF hashf eq t) : WF hashf eq (HashTbl.clear t) :=
  wf_fresh t.m_size hwf.1.size_pos rfl rfl (clear_table t hwf.1.length_eq)

theorem wf_write_at (laws : KeyLaws hashf eq) {t : HashTbl K V} (hwf : WF hashf eq t)
    (k : K) (d : V) : WF hashf eq (HashTbl.write_at hashf eq t k d) := by
  refine ⟨chains_write_at laws hwf.1 k d, ?_⟩
  by_cases hf : (t.m_table.getD (hashf k % t.m_size) []).any (fun en => eq en.m_key k) = true
  · have h3 := (assign_spec laws hwf.1 k d hf (HashTbl.write_at hashf eq t k d)
      (by rw [write_at_found t k d hf]) (by rw [write_at_found t k d hf])).2.2
    have hcnt : (HashTbl.write_at hashf eq t k d).m_count = t.m_count := by
      rw [write_at_found t k d hf]
    have hct : t.m_count = t.entries.length := hwf.2
    show (HashTbl.write_at hashf eq t k d).m_count = (HashTbl.write_at hashf eq t k d).entries.length
    omega
  · rw [write_at_absent t k d (by simpa using hf)]
    exact hwf.2

/-- Apart from the assignment of a table to itself, every constructor
establishes and every operation preserves the representation invariant `WF`:
each entry sits in the bucket `hash(key) mod m_size`, no bucket holds two
entries with equal keys, and `m_count` is the number of entries. -/
theorem wf_established_and_preserved [Inhabited V] (laws : KeyLaws hashf eq) :
    (∀ (sz : Nat) (u : ℚ), WF hashf eq (HashTbl.new sz u : HashTbl K V)) ∧
    (∀ (fuel : Nat) (ilist : List (HashEntry K V)) (u : ℚ) (t : HashTbl K V),
      HashTbl.from_entries hashf eq fuel ilist u = some t → WF hashf eq t) ∧
    (∀ source : HashTbl K V, WF hashf eq source → WF hashf eq (HashTbl.from_copy source)) ∧
    (∀ this_ clone : HashTbl K V, WF hashf eq clone → WF hashf eq (HashTbl.assign this_ clone)) ∧
    (∀ (fuel : Nat) (this_ : HashTbl K V) (ilist : List (HashEntry K V)) (t : HashTbl K V),
      HashTbl.assign_entries hashf eq fuel this_ ilist = some t → WF hashf eq t) ∧
    (∀ (fuel : Nat) (t : HashTbl K V) (k : K) (v : V) (r : Bool × HashTbl K V),
      WF hashf eq t → HashTbl.insert hashf eq fuel t k v = some r → WF hashf eq r.2) ∧
    (∀ (fuel : Nat) (t t' : HashTbl K V), Chains hashf eq t →
      HashTbl.rehash (HashTbl.insert hashf eq fuel) t = some t' → WF hashf eq t') ∧
    (∀ (t : HashTbl K V) (k : K), WF hashf eq t → WF hashf eq (HashTbl.erase hashf eq t k).2) ∧
    (∀ t : HashTbl K V, WF hashf eq t → WF hashf eq (HashTbl.clear t)) ∧
    (∀ (t : HashTbl K V) (k : K), WF hashf eq t →
      WF hashf eq (HashTbl.get_or_insert hashf eq t k).2) ∧
    (∀ (t : HashTbl K V) (k : K) (d : V), WF hashf eq t →
      WF hashf eq (HashTbl.write_at hashf eq t k d)) ∧
    (∀ (t : HashTbl K V) (f : ℚ), WF hashf eq t →
      WF hashf eq (HashTbl.set_max_load_factor t f)) := by
  refine ⟨fun sz u => wf_new sz u, ?_, ?_, ?_, ?_, ?_, ?_, ?_, ?_, ?_, ?_, ?_⟩
  · intro fuel ilist u t h
    exact wf_insert_all laws fuel ilist
      (wf_fresh _ (Nat.lt_of_le_of_lt (Nat.zero_le _) (lt_find_next_prime _)) rfl rfl rfl) h
  · intro source hwf
    rw [from_copy_eq hwf.1.length_eq]
    exact hwf
  · intro this_ clone hwf
    rw [assign_eq this_ hwf.1.length_eq]
    exact hwf
  · intro fuel this_ ilist t h
    exact wf_insert_all laws fuel ilist
      (wf_fresh _ (Nat.lt_of_le_of_lt (Nat.zero_le _) (lt_find_next_prime _)) rfl rfl rfl) h
  · intro fuel t k v r hwf h
    exact wf_insert laws fuel hwf k v r h
  · intro fuel t t' hc h
    obtain ⟨r1, r2, _⟩ := rehash_spec laws (insert_sound laws fuel) hc h
    exact ⟨r1, r2⟩
  · intro t k hwf
    exact wf_erase laws hwf k
  · intro t hwf
    exact wf_clear hwf
  · intro t k hwf
    exact wf_get_or_insert laws hwf k
  · intro t k d hwf
    exact wf_write_at laws hwf k d
  · intro t f hwf
    exact ⟨chains_of_fields hwf.1 rfl rfl, hwf.2⟩

/-- C21 at the failing input, a table assigned to itself. The table holding the
keys `0` and `2` meets the representation invariant; after `t = t` its chains
are still well-shaped (all buckets are empty), but `m_count` is 2 while the
buckets hold no entry: part (3) of the invariant is lost. -/
theorem self_assign_breaks_count :
    WF natHash natEq sample_collide ∧
    Reachable natHash natEq (HashTbl.assign_self sample_collide) ∧
    Chains natHash natEq (HashTbl.assign_self sample_collide) ∧
    (HashTbl.assign_self sample_collide).m_count = 2 ∧
    (HashTbl.assign_self sample_collide).entries = [] ∧
    ¬ Counted (HashTbl.assign_self sample_collide) ∧
    ¬ WF natHash natEq (HashTbl.assign_self sample_collide) := by
  have hcnt : (HashTbl.assign_self sample_collide).m_count = 2 := sample_collide_table.2.1
  have hent : (HashTbl.assign_self sample_collide).entries = [] :=
    entries_fresh _ (assign_self_table sample_collide)
  have hnc : ¬ Counted (HashTbl.assign_self sample_collide) := by
    unfold Counted
    rw [hcnt, hent]
    decide
  exact ⟨sample_collide_wf, Reachable.assign_self sample_collide_reachable,
    chains_assign_self sample_collide_wf.1, hcnt, hent, hnc, fun h => hnc h.2⟩

end InvariantClaims

/-! ## Fuel is monotone -/

section FuelLemmas

variable {K V : Type} {hashf : K → Nat} {eq : K → K → Bool}

theorem fold_mono {ins ins' : HashTbl K V → K → V → Option (Bool × HashTbl K V)}
    (hmono : ∀ t k v r, ins t k v = some r → ins' t k v = some r) :
    ∀ (L : List (HashEntry K V)) (T T' : HashTbl K V),
      L.foldlM (fun acc en => (ins acc en.m_key en.m_data).map Prod.snd) T = some T' →
      L.foldlM (fun acc en => (ins' acc en.m_key en.m_data).map Prod.snd) T = some T' := by
  intro L
  induction L with
  | nil => intro T T' h; exact h
  | cons e L ih =>
    intro T T' h
    rw [List.foldlM_cons] at h ⊢
    obtain ⟨T1, h1, h2⟩ := Option.bind_eq_some.1 h
    obtain ⟨r, hr, hrT⟩ := Option.map_eq_some'.1 h1
    subst hrT
    rw [hmono T e.m_key e.m_data r hr]
    exact ih r.2 T' h2

/-- More fuel never changes the result of a completed `insert`. -/
theorem insert_mono :
    ∀ (fuel : Nat) (t : HashTbl K V) (k : K) (v : V) (r : Bool × HashTbl K V),
      HashTbl.insert hashf eq fuel t k v = some r →
      HashTbl.insert hashf eq (fuel + 1) t k v = some r := by
  intro fuel
  induction fuel with
  | zero =>
    intro t k v r h
    simp [HashTbl.insert] at h
  | succ fuel ih =>
    intro t k v r h
    rw [insert_succ] at h ⊢
    by_cases hf : (t.m_table.getD (hashf k % t.m_size) []).any (fun en => eq en.m_key k) = true
    · rw [if_pos hf] at h ⊢
      exact h
    · rw [if_neg hf] at h ⊢
      by_cases hlf : ((t.m_count + 1 : Nat) : ℚ) / (t.m_size : ℚ) > 1
      · rw [if_pos hlf] at h ⊢
        obtain ⟨t2, h2, hr⟩ := Option.map_eq_some'.1 h
        subst hr
        have h3 : HashTbl.rehash (HashTbl.insert hashf eq (fuel + 1))
            (HashTbl.pushed hashf t k v) = some t2 := by
          unfold HashTbl.rehash at h2 ⊢
          simp only [] at h2 ⊢
          rw [foldlM_flatten] at h2 ⊢
          exact fold_mono ih _ _ _ h2
        rw [h3]
        rfl
      · rw [if_neg hlf] at h ⊢
        exact h

theorem insert_mono_le (fuel : Nat) (t : HashTbl K V) (k : K) (v : V) (r : Bool × HashTbl K V)
    (h : HashTbl.insert hashf eq fuel t k v = some r) :
    ∀ more, fuel ≤ more → HashTbl.insert hashf eq more t k v = some r := by
  intro more hle
  induction more with
  | zero =>
    have : fuel = 0 := by omega
    rw [← this]
    exact h
  | succ more ih =>
    by_cases he : fuel = more + 1
    · rw [← he]
      exact h
    · exact insert_mono more t k v r (ih (by omega))

end FuelLemmas

/-! ## Rounding to `float` -/

section FloatLemmas

theorem round_half_even_bounds (x : ℚ) :
    ⌊x⌋ ≤ round_half_even x ∧ round_half_even x ≤ ⌊x⌋ + 1 := by
  unfold round_half_even
  split_ifs <;> omega

theorem round_half_even_int (z : ℤ) : round_half_even (z : ℚ) = z := by
  unfold round_half_even
  simp

theorem round_half_even_mono {x y : ℚ} (h : x ≤ y) : round_half_even x ≤ round_half_even y := by
  have hf : ⌊x⌋ ≤ ⌊y⌋ := Int.floor_mono h
  by_cases he : ⌊x⌋ = ⌊y⌋
  · unfold round_half_even
    rw [he]
    split_ifs <;> first | omega | linarith
  · have h1 := (round_half_even_bounds x).2
    have h2 := (round_half_even_bounds y).1
    omega

theorem round_half_even_gt {x : ℚ} {z : ℤ} (h : (z : ℚ) + 1 / 2 < x) :
    z + 1 ≤ round_half_even x := by
  have hz : z ≤ ⌊x⌋ := Int.le_floor.2 (by linarith)
  by_cases he : ⌊x⌋ = z
  · unfold round_half_even
    rw [he]
    split_ifs <;> first | omega | linarith
  · have := (round_half_even_bounds x).1
    omega

theorem log_two_eq {x : ℚ} {e : ℤ} (hx : 0 < x) (h1 : (2 : ℚ) ^ e ≤ x) (h2 : x < (2 : ℚ) ^ (e + 1)) :
    Int.log 2 x = e := by
  have a := (Int.zpow_le_iff_le_log (b := 2) (x := e) (by norm_num) hx).1 (by exact_mod_cast h1)
  have b := (Int.lt_zpow_iff_log_lt (b := 2) (x := e + 1) (by norm_num) hx).1 (by exact_mod_cast h2)
  omega

theorem log_two_spec {x : ℚ} (hx : 0 < x) :
    (2 : ℚ) ^ (Int.log 2 x) ≤ x ∧ x < (2 : ℚ) ^ (Int.log 2 x + 1) := by
  have a := Int.zpow_log_le_self (b := 2) (r := x) (by norm_num) hx
  have b := Int.lt_zpow_succ_log_self (b := 2) (by norm_num) x
  exact ⟨by exact_mod_cast a, by exact_mod_cast b⟩

theorem to_float_zero : to_float 0 = 0 := by
  unfold to_float
  simp

theorem to_float_eq_self {x : ℚ} (hx : 0 < x) (z : ℤ)
    (h : x / 2 ^ (Int.log 2 x - 23) = (z : ℚ)) : to_float x = x := by
  unfold to_float
  rw [if_neg (not_le.2 hx), h, round_half_even_int, ← h]
  have : (2 : ℚ) ^ (Int.log 2 x - 23) ≠ 0 := zpow_ne_zero _ (by norm_num)
  field_simp

theorem to_float_bounds {x : ℚ} (hx : 0 < x) :
    (2 : ℚ) ^ (Int.log 2 x) ≤ to_float x ∧ to_float x ≤ (2 : ℚ) ^ (Int.log 2 x + 1) := by
  obtain ⟨h1, h2⟩ := log_two_spec hx
  have hq : (0 : ℚ) < 2 ^ (Int.log 2 x - 23) := zpow_pos (by norm_num) _
  have e1 : (2 : ℚ) ^ (Int.log 2 x) = 2 ^ (23 : ℤ) * 2 ^ (Int.log 2 x - 23) := by
    rw [← zpow_add₀ (by norm_num : (2 : ℚ) ≠ 0)]
    congr 1
    omega
  have e2 : (2 : ℚ) ^ (Int.log 2 x + 1) = 2 ^ (24 : ℤ) * 2 ^ (Int.log 2 x - 23) := by
    rw [← zpow_add₀ (by norm_num : (2 : ℚ) ≠ 0)]
    congr 1
    omega
  have l1 : ((2 ^ 23 : ℤ) : ℚ) ≤ x / 2 ^ (Int.log 2 x - 23) := by
    rw [le_div_iff₀ hq]
    rw [e1] at h1
    exact_mod_cast h1
  have l2 : x / 2 ^ (Int.log 2 x - 23) ≤ ((2 ^ 24 : ℤ) : ℚ) := by
    rw [div_le_iff₀ hq]
    rw [e2] at h2
    exact_mod_cast h2.le
  have r1 := round_half_even_mono l1
  have r2 := round_half_even_mono l2
  rw [round_half_even_int] at r1 r2
  unfold to_float
  rw [if_neg (not_le.2 hx), e1, e2]
  constructor
  · apply mul_le_mul_of_nonneg_right _ hq.le
    exact_mod_cast r1
  · apply mul_le_mul_of_nonneg_right _ hq.le
    exact_mod_cast r2

theorem to_float_nonneg (x : ℚ) : 0 ≤ to_float x := by
  by_cases hx : x ≤ 0
  · unfold to_float
    rw [if_pos hx]
  · have := (to_float_bounds (not_le.1 hx)).1
    have : (0 : ℚ) < 2 ^ (Int.log 2 x) := zpow_pos (by norm_num) _
    linarith

theorem to_float_pos {x : ℚ} (hx : 0 < x) : 0 < to_float x := by
  have := (to_float_bounds hx).1
  have : (0 : ℚ) < 2 ^ (Int.log 2 x) := zpow_pos (by norm_num) _
  linarith

theorem to_float_mono {x y : ℚ} (h : x ≤ y) : to_float x ≤ to_float y := by
  by_cases hx : x ≤ 0
  · have : to_float x = 0 := by unfold to_float; rw [if_pos hx]
    rw [this]
    exact to_float_nonneg y
  · have hx' : 0 < x := not_le.1 hx
    have hy' : 0 < y := lt_of_lt_of_le hx' h
    have hlog : Int.log 2 x ≤ Int.log 2 y := Int.log_mono_right hx' h
    by_cases he : Int.log 2 x = Int.log 2 y
    · unfold to_float
      rw [if_neg hx, if_neg (not_le.2 hy'), he]
      have hq : (0 : ℚ) < 2 ^ (Int.log 2 y - 23) := zpow_pos (by norm_num) _
      apply mul_le_mul_of_nonneg_right _ hq.le
      have : x / 2 ^ (Int.log 2 y - 23) ≤ y / 2 ^ (Int.log 2 y - 23) :=
        div_le_div_of_nonneg_right h hq.le
      exact_mod_cast round_half_even_mono this
    · have h1 := (to_float_bounds hx').2
      have h2 := (to_float_bounds hy').1
      have h3 : (2 : ℚ) ^ (Int.log 2 x + 1) ≤ 2 ^ (Int.log 2 y) :=
        zpow_le_zpow_right₀ (by norm_num) (by omega)
      linarith

/-- Every natural number up to `2^24` is a `float`. -/
theorem to_float_nat (n : Nat) (hn : n ≤ 2 ^ 24) : to_float (n : ℚ) = n := by
  rcases Nat.eq_zero_or_pos n with h0 | hpos
  · rw [h0]
    exact to_float_zero
  · have hx : (0 : ℚ) < (n : ℚ) := by exact_mod_cast hpos
    have hlog : Int.log 2 (n : ℚ) = (Nat.log 2 n : ℤ) := Int.log_natCast 2 n
    have hk : Nat.log 2 n ≤ 24 := by
      have := Nat.log_mono_right (b := 2) hn
      rwa [Nat.log_pow (by norm_num)] at this
    by_cases h24 : Nat.log 2 n = 24
    · have hle : 2 ^ 24 ≤ n := by
        have := Nat.pow_log_le_self 2 (Nat.pos_iff_ne_zero.1 hpos)
        rwa [h24] at this
      have hn24 : n = 2 ^ 24 := le_antisymm hn hle
      apply to_float_eq_self hx (2 ^ 23)
      rw [hlog, h24, hn24]
      norm_num
    · apply to_float_eq_self hx ((n * 2 ^ (23 - Nat.log 2 n) : Nat) : ℤ)
      rw [hlog]
      have e : ((Nat.log 2 n : ℤ) - 23) = -((23 - Nat.log 2 n : Nat) : ℤ) := by omega
      rw [e, zpow_neg, zpow_natCast]
      push_cast
      field_simp

theorem to_float_one : to_float 1 = 1 := by
  have := to_float_nat 1 (by norm_num)
  simpa using this

/-- A value above `1 + 2^-24` is rounded to a `float` above `1.0`. -/
theorem to_float_gt_one {x : ℚ} (h : 1 + 1 / 2 ^ 24 < x) : 1 < to_float x := by
  have hx : 0 < x := by
    have : (0 : ℚ) < 1 / 2 ^ 24 := by norm_num
    linarith
  by_cases h2 : x < 2
  · have hlog : Int.log 2 x = 0 := log_two_eq hx (by norm_num; linarith) (by norm_num; exact h2)
    unfold to_float
    rw [if_neg (not_le.2 hx), hlog]
    have hr : (2 ^ 23 : ℤ) + 1 ≤ round_half_even (x / 2 ^ ((0 : ℤ) - 23)) := by
      apply round_half_even_gt
      norm_num
      norm_num at h
      linarith
    have hr' : ((2 ^ 23 : ℤ) : ℚ) + 1 ≤ (round_half_even (x / 2 ^ ((0 : ℤ) - 23)) : ℚ) := by
      exact_mod_cast hr
    norm_num at hr' ⊢
    linarith
  · have h3 := to_float_mono (not_lt.1 h2)
    have h4 := to_float_nat 2 (by norm_num)
    norm_num at h4
    rw [h4] at h3
    linarith

/-- When the count does not exceed the bucket-array length, the `float` load
factor is not above `1.0`. -/
theorem load_factor_float_le (a b : Nat) (h : a ≤ b) : ¬ load_factor_float a b > 1 := by
  unfold load_factor_float
  rw [gt_iff_lt, not_lt]
  rw [← to_float_one]
  apply to_float_mono
  rcases Nat.eq_zero_or_pos b with h0 | hpos
  · subst h0
    simp [to_float_zero]
  · have hb : (0 : ℚ) < to_float (b : ℚ) := to_float_pos (by exact_mod_cast hpos)
    rw [div_le_one hb]
    exact to_float_mono (by exact_mod_cast h)

/-- Below `2^24` buckets the `float` load factor exceeds `1.0` as soon as the
count exceeds the bucket-array length. -/
theorem load_factor_float_gt (a b : Nat) (hpos : 0 < b) (hb : b < 2 ^ 24) (h : b < a) :
    load_factor_float a b > 1 := by
  unfold load_factor_float
  rw [to_float_nat b hb.le]
  have hbq : (0 : ℚ) < (b : ℚ) := by exact_mod_cast hpos
  have h1 : ((b + 1 : Nat) : ℚ) ≤ to_float (a : ℚ) := by
    rw [← to_float_nat (b + 1) (by omega)]
    exact to_float_mono (by exact_mod_cast h)
  apply to_float_gt_one
  have h2 : ((b + 1 : Nat) : ℚ) / (b : ℚ) ≤ to_float (a : ℚ) / (b : ℚ) :=
    div_le_div_of_nonneg_right h1 hbq.le
  have h3 : ((b + 1 : Nat) : ℚ) / (b : ℚ) = 1 + 1 / (b : ℚ) := by
    push_cast
    field_simp
  have h4 : (1 : ℚ) / 2 ^ 24 < 1 / (b : ℚ) := by
    apply one_div_lt_one_div_of_lt hbq
    exact_mod_cast hb
  rw [h3] at h2
  linarith

theorem to_float_16777259 : to_float 16777259 = 16777260 := by
  have hlog : Int.log 2 (16777259 : ℚ) = 24 := log_two_eq (by norm_num) (by norm_num) (by norm_num)
  have hfl : ⌊(16777259 : ℚ) / 2⌋ = 8388629 := by
    rw [Int.floor_eq_iff]
    constructor <;> norm_num
  unfold to_float
  rw [if_neg (by norm_num), hlog]
  have hq : (2 : ℚ) ^ ((24 : ℤ) - 23) = 2 := by norm_num
  rw [hq]
  have hr : round_half_even ((16777259 : ℚ) / 2) = 8388630 := by
    unfold round_half_even
    rw [hfl]
    norm_num
  rw [hr]
  norm_num

/-- One more entry than buckets, and yet a `float` load factor of exactly
`1.0`: the count 16777260 on 16777259 buckets. -/
theorem load_factor_float_big : load_factor_float 16777260 16777259 = 1 := by
  unfold load_factor_float
  have h1 : to_float ((16777260 : Nat) : ℚ) = 16777260 := by
    apply to_float_eq_self (by norm_num) 8388630
    have hlog : Int.log 2 ((16777260 : Nat) : ℚ) = 24 :=
      log_two_eq (by norm_num) (by norm_num) (by norm_num)
    rw [hlog]
    norm_num
  have h2 : to_float ((16777259 : Nat) : ℚ) = 16777260 := by
    have := to_float_16777259
    exact_mod_cast this
  rw [h1, h2]
  norm_num
  exact to_float_one

/-- The `float` load factor of one entry in five buckets is not `1/5`. -/
theorem load_factor_float_fifth : load_factor_float 1 5 = 13421773 / 67108864 := by
  unfold load_factor_float
  rw [to_float_nat 1 (by norm_num), to_float_nat 5 (by norm_num)]
  have hlog : Int.log 2 (((1 : Nat) : ℚ) / ((5 : Nat) : ℚ)) = -3 :=
    log_two_eq (by norm_num) (by norm_num) (by norm_num)
  have hfl : ⌊(((1 : Nat) : ℚ) / ((5 : Nat) : ℚ)) / 2 ^ ((-3 : ℤ) - 23)⌋ = 13421772 := by
    rw [Int.floor_eq_iff]
    constructor <;> norm_num
  unfold to_float
  rw [if_neg (by norm_num), hlog]
  have hr : round_half_even ((((1 : Nat) : ℚ) / ((5 : Nat) : ℚ)) / 2 ^ ((-3 : ℤ) - 23)) = 13421773 := by
    unfold round_half_even
    rw [hfl]
    norm_num
  rw [hr]
  norm_num

end FloatLemmas

/-! ## `insert` with the load factor in `float` -/

section FloatInsertLemmas

variable {K V : Type} {hashf : K → Nat} {eq : K → K → Bool}

/-- The equation of `insert_float` with fuel left. -/
theorem insert_float_succ (fuel : Nat) (t : HashTbl K V) (k : K) (v : V) :
    HashTbl.insert_float hashf eq (fuel + 1) t k v =
      if (t.m_table.getD (hashf k % t.m_size) []).any (fun en => eq en.m_key k) then
        some (false, HashTbl.write_at hashf eq t k v)
      else if load_factor_float (t.m_count + 1) t.m_size > 1 then
        (HashTbl.rehash (HashTbl.insert_float hashf eq fuel)
          (HashTbl.pushed_float hashf t k v)).map (fun t2 => (true, t2))
      else
        some (true, HashTbl.pushed_float hashf t k v) := by
  by_cases hf : (t.m_table.getD (hashf k % t.m_size) []).any (fun en => eq en.m_key k) = true
  · simp only [HashTbl.insert_float, HashTbl.write_at, hf, if_true]
  · simp only [HashTbl.insert_float, hf, Bool.false_eq_true, if_false]
    rfl

theorem SameButFactor.refl (t : HashTbl K V) : SameButFactor t t := ⟨rfl, rfl, rfl⟩

theorem SameButFactor.symm {t t' : HashTbl K V} (h : SameButFactor t t') : SameButFactor t' t :=
  ⟨h.size_eq.symm, h.count_eq.symm, h.table_eq.symm⟩

theorem SameButFactor.trans {t t' t'' : HashTbl K V} (h : SameButFactor t t')
    (h' : SameButFactor t' t'') : SameButFactor t t'' :=
  ⟨h.size_eq.trans h'.size_eq, h.count_eq.trans h'.count_eq, h.table_eq.trans h'.table_eq⟩

theorem SameButFactor.retrieve_eq {t t' : HashTbl K V} (h : SameButFactor t t') (k : K) :
    HashTbl.retrieve hashf eq t k = HashTbl.retrieve hashf eq t' k := by
  unfold HashTbl.retrieve
  rw [h.size_eq, h.table_eq]

theorem SameButFactor.entries_eq {t t' : HashTbl K V} (h : SameButFactor t t') :
    t.entries = t'.entries := by
  unfold HashTbl.entries
  rw [h.table_eq]

theorem SameButFactor.wf {t t' : HashTbl K V} (h : SameButFactor t t')
    (hwf : WF hashf eq t') : WF hashf eq t := by
  refine ⟨chains_of_fields hwf.1 h.size_eq h.table_eq, ?_⟩
  unfold Counted
  rw [h.count_eq, h.entries_eq]
  exact hwf.2

theorem same_write_at {t t' : HashTbl K V} (h : SameButFactor t t') (k : K) (v : V) :
    SameButFactor (HashTbl.write_at hashf eq t k v) (HashTbl.write_at hashf eq t' k v) := by
  by_cases hf : (t.m_table.getD (hashf k % t.m_size) []).any (fun en => eq en.m_key k) = true
  · have hf' : (t'.m_table.getD (hashf k % t'.m_size) []).any (fun en => eq en.m_key k) = true := by
      rw [← h.size_eq, ← h.table_eq]; exact hf
    rw [write_at_found t k v hf, write_at_found t' k v hf']
    refine ⟨h.size_eq, h.count_eq, ?_⟩
    show t.m_table.set _ _ = t'.m_table.set _ _
    rw [h.size_eq, h.table_eq]
  · have hnf : (t.m_table.getD (hashf k % t.m_size) []).any (fun en => eq en.m_key k) = false := by
      simpa using hf
    have hnf' : (t'.m_table.getD (hashf k % t'.m_size) []).any (fun en => eq en.m_key k) = false := by
      rw [← h.size_eq, ← h.table_eq]; exact hnf
    rw [write_at_absent t k v hnf, write_at_absent t' k v hnf']
    exact h

theorem same_pushed {t t' : HashTbl K V} (h : SameButFactor t t') (k : K) (v : V) :
    SameButFactor (HashTbl.pushed_float hashf t k v) (HashTbl.pushed hashf t' k v) := by
  refine ⟨h.size_eq, ?_, ?_⟩
  · show t.m_count + 1 = t'.m_count + 1
    rw [h.count_eq]
  · show t.m_table.set _ _ = t'.m_table.set _ _
    rw [h.size_eq, h.table_eq]

theorem same_regrown {t t' : HashTbl K V} (h : SameButFactor t t') :
    SameButFactor (HashTbl.regrown t) (HashTbl.regrown t') := by
  refine ⟨?_, rfl, ?_⟩
  · show find_next_prime (2 * t.m_size) = find_next_prime (2 * t'.m_size)
    rw [h.size_eq]
  · show List.replicate (find_next_prime (2 * t.m_size)) [] =
      List.replicate (find_next_prime (2 * t'.m_size)) []
    rw [h.size_eq]

/-- With room for one more entry, `insert_float` and `insert` complete without
a `rehash` and do the same to the table, the stored load factor apart. -/
theorem insert_float_light (fuel : Nat) {T T' : HashTbl K V} (hsame : SameButFactor T T')
    (k : K) (v : V) (h : T.m_count + 1 ≤ T.m_size) :
    ∃ r r', HashTbl.insert_float hashf eq (fuel + 1) T k v = some r ∧
      HashTbl.insert hashf eq (fuel + 1) T' k v = some r' ∧
      r.1 = r'.1 ∧ SameButFactor r.2 r'.2 ∧ r.2.m_size = T.m_size ∧
      r.2.m_count ≤ T.m_count + 1 ∧
      ((T.m_max_load_factor = load_factor_float T.m_count T.m_size ∨
          HashTbl.retrieve hashf eq T k = none) →
        r.2.m_max_load_factor = load_factor_float r.2.m_count r.2.m_size) := by
  rw [insert_float_succ, insert_succ]
  by_cases hf : (T.m_table.getD (hashf k % T.m_size) []).any (fun en => eq en.m_key k) = true
  · have hf' : (T'.m_table.getD (hashf k % T'.m_size) []).any (fun en => eq en.m_key k) = true := by
      rw [← hsame.size_eq, ← hsame.table_eq]; exact hf
    rw [if_pos hf, if_pos hf']
    refine ⟨_, _, rfl, rfl, rfl, same_write_at hsame k v, ?_, ?_, ?_⟩
    · rw [write_at_found T k v hf]
    · rw [write_at_found T k v hf]
      exact Nat.le_succ _
    · intro hP
      rw [write_at_found T k v hf]
      rcases hP with hP | hP
      · exact hP
      · rw [retrieve_eq_none_iff, hf] at hP
        exact absurd hP (by simp)
  · have hf' : ¬ (T'.m_table.getD (hashf k % T'.m_size) []).any (fun en => eq en.m_key k) = true := by
      rw [← hsame.size_eq, ← hsame.table_eq]; exact hf
    have hlf : ¬ load_factor_float (T.m_count + 1) T.m_size > 1 :=
      load_factor_float_le _ _ h
    have hlf' : ¬ ((T'.m_count + 1 : Nat) : ℚ) / (T'.m_size : ℚ) > 1 := by
      rw [load_gt_one_iff, ← hsame.size_eq, ← hsame.count_eq]
      omega
    rw [if_neg hf, if_neg hf', if_neg hlf, if_neg hlf']
    exact ⟨_, _, rfl, rfl, rfl, same_pushed hsame k v, rfl, le_refl _, fun _ => rfl⟩

/-- Re-inserting a list into a table with room for all of it: `insert_float`
and `insert` complete without a `rehash` and build the same table, the stored
load factor apart; that one ends as the `float` ratio of count and length. -/
theorem fold_float_light (fuel : Nat) :
    ∀ (L : List (HashEntry K V)) (T T' : HashTbl K V), SameButFactor T T' →
      T.m_count + L.length ≤ T.m_size →
      ∃ R R', L.foldlM (fun acc en =>
          (HashTbl.insert_float hashf eq (fuel + 1) acc en.m_key en.m_data).map Prod.snd) T
            = some R ∧
        L.foldlM (fun acc en =>
          (HashTbl.insert hashf eq (fuel + 1) acc en.m_key en.m_data).map Prod.snd) T'
            = some R' ∧
        SameButFactor R R' ∧ R.m_size = T.m_size ∧
        ((T.m_max_load_factor = load_factor_float T.m_count T.m_size ∨
            (L ≠ [] ∧ ∀ k, HashTbl.retrieve hashf eq T k = none)) →
          R.m_max_load_factor = load_factor_float R.m_count R.m_size) := by
  intro L
  induction L with
  | nil =>
    intro T T' hsame _
    refine ⟨T, T', rfl, rfl, hsame, rfl, ?_⟩
    intro hP
    rcases hP with hP | hP
    · exact hP
    · exact absurd rfl hP.1
  | cons e L ih =>
    intro T T' hsame h
    simp only [List.length_cons] at h
    obtain ⟨r, r', hr, hr', _, hs, hsz, hcnt, hfac⟩ :=
      @insert_float_light K V hashf eq fuel T T' hsame e.m_key e.m_data (by omega)
    obtain ⟨R, R', hR, hR', hS, hSz, hF⟩ := ih r.2 r'.2 hs (by omega)
    refine ⟨R, R', ?_, ?_, hS, by rw [hSz, hsz], ?_⟩
    · rw [List.foldlM_cons, hr]
      exact hR
    · rw [List.foldlM_cons, hr']
      exact hR'
    · intro hP
      apply hF
      left
      apply hfac
      rcases hP with hP | hP
      · exact Or.inl hP
      · exact Or.inr (hP.2 _)

/-- On a table that meets the representation invariant, holds no more entries
than it has buckets and has fewer than `2^24` buckets, `insert_float` completes
with two levels of fuel and does what `insert` does, the stored load factor
apart. -/
theorem insert_float_agrees (laws : KeyLaws hashf eq) (fuel : Nat) {t : HashTbl K V}
    (hwf : WF hashf eq t) (hl : t.m_count ≤ t.m_size) (hs : t.m_size < 2 ^ 24) (k : K) (v : V) :
    ∃ r r', HashTbl.insert_float hashf eq (fuel + 2) t k v = some r ∧
      HashTbl.insert hashf eq (fuel + 2) t k v = some r' ∧
      r.1 = r'.1 ∧ SameButFactor r.2 r'.2 ∧
      (HashTbl.retrieve hashf eq t k = none →
        r.2.m_max_load_factor = load_factor_float r.2.m_count r.2.m_size) := by
  rw [insert_float_succ, insert_succ]
  by_cases hf : (t.m_table.getD (hashf k % t.m_size) []).any (fun en => eq en.m_key k) = true
  · rw [if_pos hf, if_pos hf]
    refine ⟨_, _, rfl, rfl, rfl, SameButFactor.refl _, ?_⟩
    intro ha
    rw [retrieve_eq_none_iff, hf] at ha
    exact absurd ha (by simp)
  · rw [if_neg hf, if_neg hf]
    have hnf : (t.m_table.getD (hashf k % t.m_size) []).any (fun en => eq en.m_key k) = false := by
      simpa using hf
    by_cases hroom : t.m_count + 1 ≤ t.m_size
    · have hlf : ¬ load_factor_float (t.m_count + 1) t.m_size > 1 :=
        load_factor_float_le _ _ hroom
      have hlf' : ¬ ((t.m_count + 1 : Nat) : ℚ) / (t.m_size : ℚ) > 1 := by
        rw [load_gt_one_iff]
        omega
      rw [if_neg hlf, if_neg hlf']
      exact ⟨_, _, rfl, rfl, rfl, same_pushed (SameButFactor.refl t) k v, fun _ => rfl⟩
    · have hpos := hwf.1.size_pos
      have hlf : load_factor_float (t.m_count + 1) t.m_size > 1 :=
        load_factor_float_gt _ _ hpos hs (by omega)
      have hlf' : ((t.m_count + 1 : Nat) : ℚ) / (t.m_size : ℚ) > 1 := by
        rw [load_gt_one_iff]
        omega
      rw [if_pos hlf, if_pos hlf']
      obtain ⟨p1, _, p3⟩ := push_spec laws hwf.1 k v hnf (HashTbl.pushed hashf t k v) rfl rfl
      have hsame : SameButFactor (HashTbl.pushed_float hashf t k v) (HashTbl.pushed hashf t k v) :=
        same_pushed (SameButFactor.refl t) k v
      have pf1 : Chains hashf eq (HashTbl.pushed_float hashf t k v) :=
        chains_of_fields p1 hsame.size_eq hsame.table_eq
      rw [rehash_eq_fold _ _ p1.length_eq, rehash_eq_fold _ _ pf1.length_eq, hsame.entries_eq]
      have hlt := lt_find_next_prime (2 * t.m_size)
      have hct : t.m_count = t.entries.length := hwf.2
      obtain ⟨R, R', hR, hR', hS, _, hF⟩ := @fold_float_light K V hashf eq fuel
        (HashTbl.pushed hashf t k v).entries
        (HashTbl.regrown (HashTbl.pushed_float hashf t k v))
        (HashTbl.regrown (HashTbl.pushed hashf t k v)) (same_regrown hsame) (by
          rw [p3]
          show 0 + (t.entries.length + 1) ≤ find_next_prime (2 * t.m_size)
          omega)
      rw [hR, hR']
      refine ⟨_, _, rfl, rfl, rfl, hS, ?_⟩
      intro _
      apply hF
      right
      refine ⟨?_, fun k' => retrieve_regrown _ k'⟩
      intro he
      rw [he] at p3
      simp at p3

end FloatInsertLemmas

/-! ## Growth when the load factor is a `float` -/

section FloatGrowth

variable {K V : Type} {hashf : K → Nat} {eq : K → K → Bool}

/-- More fuel never changes the result of a completed `insert_float`. -/
theorem insert_float_mono :
    ∀ (fuel : Nat) (t : HashTbl K V) (k : K) (v : V) (r : Bool × HashTbl K V),
      HashTbl.insert_float hashf eq fuel t k v = some r →
      HashTbl.insert_float hashf eq (fuel + 1) t k v = some r := by
  intro fuel
  induction fuel with
  | zero =>
    intro t k v r h
    simp [HashTbl.insert_float] at h
  | succ fuel ih =>
    intro t k v r h
    rw [insert_float_succ] at h ⊢
    by_cases hf : (t.m_table.getD (hashf k % t.m_size) []).any (fun en => eq en.m_key k) = true
    · rw [if_pos hf] at h ⊢
      exact h
    · rw [if_neg hf] at h ⊢
      by_cases hlf : load_factor_float (t.m_count + 1) t.m_size > 1
      · rw [if_pos hlf] at h ⊢
        obtain ⟨t2, h2, hr⟩ := Option.map_eq_some'.1 h
        subst hr
        have h3 : HashTbl.rehash (HashTbl.insert_float hashf eq (fuel + 1))
            (HashTbl.pushed_float hashf t k v) = some t2 := by
          unfold HashTbl.rehash at h2 ⊢
          simp only [] at h2 ⊢
          rw [foldlM_flatten] at h2 ⊢
          exact fold_mono ih _ _ _ h2
        rw [h3]
        rfl
      · rw [if_neg hlf] at h ⊢
        exact h

theorem insert_float_mono_le (fuel : Nat) (t : HashTbl K V) (k : K) (v : V)
    (r : Bool × HashTbl K V) (h : HashTbl.insert_float hashf eq fuel t k v = some r) :
    ∀ more, fuel ≤ more → HashTbl.insert_float hashf eq more t k v = some r := by
  intro more hle
  induction more with
  | zero =>
    have : fuel = 0 := by omega
    rw [← this]
    exact h
  | succ more ih =>
    by_cases he : fuel = more + 1
    · rw [← he]
      exact h
    · exact insert_float_mono more t k v r (ih (by omega))

/-- Two completed runs of `insert_float` with different fuel give the same
result. -/
theorem insert_float_unique (f1 f2 : Nat) (t : HashTbl K V) (k : K) (v : V)
    (r1 r2 : Bool × HashTbl K V) (h1 : HashTbl.insert_float hashf eq f1 t k v = some r1)
    (h2 : HashTbl.insert_float hashf eq f2 t k v = some r2) : r1 = r2 := by
  rcases Nat.le_total f1 f2 with hle | hle
  · have := insert_float_mono_le f1 t k v r1 h1 f2 hle
    rw [h2] at this
    exact (Option.some.inj this).symm
  · have := insert_float_mono_le f2 t k v r2 h2 f1 hle
    rw [h1] at this
    exact Option.some.inj this

theorem fold_size_le {ins : HashTbl K V → K → V → Option (Bool × HashTbl K V)}
    (hins : ∀ t k v r, ins t k v = some r → t.m_size ≤ r.2.m_size) :
    ∀ (L : List (HashEntry K V)) (T T' : HashTbl K V),
      L.foldlM (fun acc en => (ins acc en.m_key en.m_data).map Prod.snd) T = some T' →
      T.m_size ≤ T'.m_size := by
  intro L
  induction L with
  | nil =>
    intro T T' h
    simp only [List.foldlM_nil] at h
    have : T = T' := by simpa using h
    rw [this]
  | cons e L ih =>
    intro T T' h
    rw [List.foldlM_cons] at h
    obtain ⟨T1, h1, h2⟩ := Option.bind_eq_some.1 h
    obtain ⟨r, hr, hrT⟩ := Option.map_eq_some'.1 h1
    subst hrT
    exact Nat.le_trans (hins T e.m_key e.m_data r hr) (ih r.2 T' h2)

/-- Method `insert` never shrinks the bucket array, on any table. -/
theorem insert_float_size_le :
    ∀ (fuel : Nat) (t : HashTbl K V) (k : K) (v : V) (r : Bool × HashTbl K V),
      HashTbl.insert_float hashf eq fuel t k v = some r → t.m_size ≤ r.2.m_size := by
  intro fuel
  induction fuel with
  | zero =>
    intro t k v r h
    simp [HashTbl.insert_float] at h
  | succ fuel ih =>
    intro t k v r h
    rw [insert_float_succ] at h
    by_cases hf : (t.m_table.getD (hashf k % t.m_size) []).any (fun en => eq en.m_key k) = true
    · rw [if_pos hf] at h
      rw [← Option.some.inj h, write_at_found t k v hf]
    · rw [if_neg hf] at h
      by_cases hlf : load_factor_float (t.m_count + 1) t.m_size > 1
      · rw [if_pos hlf] at h
        obtain ⟨t2, h2, hr⟩ := Option.map_eq_some'.1 h
        subst hr
        unfold HashTbl.rehash at h2
        simp only [] at h2
        rw [foldlM_flatten] at h2
        have h3 : find_next_prime (2 * t.m_size) ≤ t2.m_size := fold_size_le ih _ _ _ h2
        have h4 := lt_find_next_prime (2 * t.m_size)
        show t.m_size ≤ t2.m_size
        omega
      · rw [if_neg hlf] at h
        rw [← Option.some.inj h]
        exact Nat.le_refl _

theorem insert_float_ignores_stored_factor (fuel : Nat) (t : HashTbl K V) (f : ℚ) (k : K) (v : V)
    (ha : HashTbl.retrieve hashf eq t k = none) :
    HashTbl.insert_float hashf eq fuel (HashTbl.set_max_load_factor t f) k v =
      HashTbl.insert_float hashf eq fuel t k v := by
  cases fuel with
  | zero => rfl
  | succ fuel =>
    have hnf := (retrieve_eq_none_iff t k).1 ha
    have hnf' : ((HashTbl.set_max_load_factor t f).m_table.getD
        (hashf k % (HashTbl.set_max_load_factor t f).m_size) []).any
          (fun en => eq en.m_key k) = false := hnf
    have e1 : ¬ ((HashTbl.set_max_load_factor t f).m_table.getD
        (hashf k % (HashTbl.set_max_load_factor t f).m_size) []).any
          (fun en => eq en.m_key k) = true := by
      rw [hnf']; exact Bool.false_ne_true
    have e2 : ¬ (t.m_table.getD (hashf k % t.m_size) []).any (fun en => eq en.m_key k) = true := by
      rw [hnf]; exact Bool.false_ne_true
    rw [insert_float_succ, insert_float_succ, if_neg e1, if_neg e2]
    rfl

theorem insert_float_found_stored_factor (fuel : Nat) (t : HashTbl K V) (f : ℚ) (k : K) (v : V)
    (hf : (t.m_table.getD (hashf k % t.m_size) []).any (fun en => eq en.m_key k) = true) :
    HashTbl.insert_float hashf eq (fuel + 1) (HashTbl.set_max_load_factor t f) k v =
      some (false, HashTbl.set_max_load_factor (HashTbl.write_at hashf eq t k v) f) ∧
    HashTbl.insert_float hashf eq (fuel + 1) t k v =
      some (false, HashTbl.write_at hashf eq t k v) := by
  have hf' : ((HashTbl.set_max_load_factor t f).m_table.getD
      (hashf k % (HashTbl.set_max_load_factor t f).m_size) []).any
        (fun en => eq en.m_key k) = true := hf
  constructor
  · rw [insert_float_succ, if_pos hf', write_at_found _ k v hf', write_at_found t k v hf]
    rfl
  · rw [insert_float_succ, if_pos hf]

/-- With fuel 1 an `insert_float` completes only if it does not call `rehash`. -/
theorem insert_float_one_no_rehash (laws : KeyLaws hashf eq) {t : HashTbl K V}
    (hc : Chains hashf eq t) (k : K) (v : V) (r : Bool × HashTbl K V)
    (h : HashTbl.insert_float hashf eq 1 t k v = some r) :
    ¬ (HashTbl.retrieve hashf eq t k = none ∧ load_factor_float (t.m_count + 1) t.m_size > 1) := by
  rintro ⟨ha, hlf⟩
  have hnf := (retrieve_eq_none_iff t k).1 ha
  obtain ⟨p1, _, p3⟩ := push_spec laws hc k v hnf (HashTbl.pushed hashf t k v) rfl rfl
  have hsame : SameButFactor (HashTbl.pushed_float hashf t k v) (HashTbl.pushed hashf t k v) :=
    same_pushed (SameButFactor.refl t) k v
  have pf1 : Chains hashf eq (HashTbl.pushed_float hashf t k v) :=
    chains_of_fields p1 hsame.size_eq hsame.table_eq
  rw [insert_float_succ, if_neg (by rw [hnf]; exact Bool.false_ne_true), if_pos hlf,
    rehash_eq_fold _ _ pf1.length_eq, hsame.entries_eq] at h
  cases hent : (HashTbl.pushed hashf t k v).entries with
  | nil =>
    rw [hent] at p3
    simp at p3
  | cons e L =>
    rw [hent, List.foldlM_cons] at h
    simp [HashTbl.insert_float] at h

theorem reachable_plain_float_fold (fuel : Nat) :
    ∀ (L : List (HashEntry K V)) (T R : HashTbl K V), ReachablePlainFloat hashf eq T →
      L.foldlM (fun acc en =>
        (HashTbl.insert_float hashf eq fuel acc en.m_key en.m_data).map Prod.snd) T = some R →
      ReachablePlainFloat hashf eq R := by
  intro L
  induction L with
  | nil =>
    intro T R hT h
    simp only [List.foldlM_nil] at h
    have : T = R := by simpa using h
    rw [← this]
    exact hT
  | cons e L ih =>
    intro T R hT h
    rw [List.foldlM_cons] at h
    obtain ⟨T1, h1, h2⟩ := Option.bind_eq_some.1 h
    obtain ⟨r, hr, hrT⟩ := Option.map_eq_some'.1 h1
    subst hrT
    exact ih r.2 R (ReachablePlainFloat.insert hT hr) h2

/-- A table created by `new` and modified only by `insert`, `erase` and
`clear` meets the representation invariant and holds no more entries than it
has buckets, as long as it has fewer than `2^24` buckets. -/
theorem plain_float_invariant (laws : KeyLaws hashf eq) {t : HashTbl K V}
    (hp : ReachablePlainFloat hashf eq t) :
    t.m_size < 2 ^ 24 → WF hashf eq t ∧ t.m_count ≤ t.m_size := by
  induction hp with
  | new sz u _ => exact fun _ => ⟨wf_new sz u, Nat.zero_le _⟩
  | @insert fuel t k v r _ h ih =>
    intro hs
    have hle := insert_float_size_le fuel t k v r h
    obtain ⟨hwf, hl⟩ := ih (by omega)
    obtain ⟨ra, r', hra, hr', _, hsame, _⟩ := insert_float_agrees laws 0 hwf hl (by omega) k v
    have he : r = ra := insert_float_unique fuel (0 + 2) t k v r ra h hra
    subst he
    have sp := insert_sound laws (0 + 2) t k v r' hwf.1 hr'
    have hwf' := wf_insert laws (0 + 2) hwf k v r' hr'
    have hl' := light_of_spec sp hwf.2 hl
    refine ⟨hsame.wf hwf', ?_⟩
    rw [hsame.size_eq, hsame.count_eq]
    exact hl'
  | @erase t k _ ih =>
    intro hs
    have hsz : (HashTbl.erase hashf eq t k).2.m_size = t.m_size := by
      by_cases hf : (t.m_table.getD (hashf k % t.m_size) []).any (fun en => eq en.m_key k) = true
      · rw [erase_found t k hf]; rfl
      · rw [erase_absent t k (by simpa using hf)]
    rw [hsz] at hs
    obtain ⟨hwf, hl⟩ := ih hs
    refine ⟨wf_erase laws hwf k, ?_⟩
    by_cases hf : (t.m_table.getD (hashf k % t.m_size) []).any (fun en => eq en.m_key k) = true
    · rw [erase_found t k hf]
      show t.m_count - 1 ≤ t.m_size
      omega
    · rw [erase_absent t k (by simpa using hf)]
      exact hl
  | @clear t _ ih =>
    intro hs
    obtain ⟨hwf, _⟩ := ih hs
    exact ⟨wf_clear hwf, Nat.zero_le _⟩

end FloatGrowth

/-! ## `insert_float` on every table -/

section FloatTotal

variable {K V : Type} {hashf : K → Nat} {eq : K → K → Bool}

theorem to_float_two_mul {x : ℚ} (hx : 0 < x) : to_float (2 * x) = 2 * to_float x := by
  obtain ⟨h1, h2⟩ := log_two_spec hx
  have hlog : Int.log 2 (2 * x) = Int.log 2 x + 1 := by
    apply log_two_eq (by linarith)
    · rw [zpow_add_one₀ (by norm_num : (2 : ℚ) ≠ 0)]
      linarith
    · rw [zpow_add_one₀ (by norm_num : (2 : ℚ) ≠ 0)]
      linarith
  have hq : (2 : ℚ) ^ (Int.log 2 x + 1 - 23) = 2 ^ (Int.log 2 x - 23) * 2 := by
    rw [← zpow_add_one₀ (by norm_num : (2 : ℚ) ≠ 0)]
    congr 1
    omega
  have hne : (2 : ℚ) ^ (Int.log 2 x - 23) ≠ 0 := zpow_ne_zero _ (by norm_num)
  unfold to_float
  rw [if_neg (by linarith), if_neg (by linarith), hlog, hq]
  have e : 2 * x / (2 ^ (Int.log 2 x - 23) * 2) = x / 2 ^ (Int.log 2 x - 23) := by
    field_simp
    ring
  rw [e]
  ring

/-- More than twice as many entries as buckets make the `float` load factor
exceed `1.0`, whatever the size of the table. -/
theorem load_factor_float_gt_of_double (a b : Nat) (hpos : 0 < b) (h : 2 * b < a) :
    load_factor_float a b > 1 := by
  unfold load_factor_float
  have hb : (0 : ℚ) < (b : ℚ) := by exact_mod_cast hpos
  have htb : (0 : ℚ) < to_float (b : ℚ) := to_float_pos hb
  have h1 : 2 * to_float (b : ℚ) ≤ to_float (a : ℚ) := by
    rw [← to_float_two_mul hb]
    apply to_float_mono
    have : 2 * b ≤ a := Nat.le_of_lt h
    exact_mod_cast this
  have h2 : (2 : ℚ) ≤ to_float (a : ℚ) / to_float (b : ℚ) := by
    rw [le_div_iff₀ htb]
    exact h1
  have h3 := to_float_mono h2
  have h4 := to_float_nat 2 (by norm_num)
  norm_num at h4
  rw [h4] at h3
  linarith

theorem fold_float_light_count (fuel : Nat) :
    ∀ (L : List (HashEntry K V)) (T R : HashTbl K V), T.m_count + L.length ≤ T.m_size →
      L.foldlM (fun acc en =>
        (HashTbl.insert_float hashf eq (fuel + 1) acc en.m_key en.m_data).map Prod.snd) T
          = some R →
      R.m_count ≤ T.m_count + L.length := by
  intro L
  induction L with
  | nil =>
    intro T R _ h
    simp only [List.foldlM_nil] at h
    have : T = R := by simpa using h
    rw [← this]
    exact Nat.le_add_right _ _
  | cons e L ih =>
    intro T R hroom h
    simp only [List.length_cons] at hroom ⊢
    obtain ⟨r, _, hr, _, _, _, hsz, hcnt, _⟩ :=
      @insert_float_light K V hashf eq fuel T T (SameButFactor.refl T) e.m_key e.m_data (by omega)
    rw [List.foldlM_cons, hr] at h
    have := ih r.2 R (by omega) h
    omega

theorem fold_float_wf {ins : HashTbl K V → K → V → Option (Bool × HashTbl K V)}
    (hins : ∀ t k v r, Chains hashf eq t → ins t k v = some r →
      Chains hashf eq r.2 ∧ (Counted t → Counted r.2)) :
    ∀ (L : List (HashEntry K V)) (T T' : HashTbl K V), Chains hashf eq T →
      L.foldlM (fun acc en => (ins acc en.m_key en.m_data).map Prod.snd) T = some T' →
      Chains hashf eq T' ∧ (Counted T → Counted T') := by
  intro L
  induction L with
  | nil =>
    intro T T' hc h
    simp only [List.foldlM_nil] at h
    have : T = T' := by simpa using h
    rw [← this]
    exact ⟨hc, fun h => h⟩
  | cons e L ih =>
    intro T T' hc h
    rw [List.foldlM_cons] at h
    obtain ⟨T1, h1, h2⟩ := Option.bind_eq_some.1 h
    obtain ⟨r, hr, hrT⟩ := Option.map_eq_some'.1 h1
    subst hrT
    obtain ⟨c1, c2⟩ := hins T e.m_key e.m_data r hc hr
    obtain ⟨d1, d2⟩ := ih r.2 T' c1 h2
    exact ⟨d1, fun hct => d2 (c2 hct)⟩

/-- Every completed `insert_float` keeps the chains well-shaped and the count
equal to the number of entries. -/
theorem insert_float_wf (laws : KeyLaws hashf eq) :
    ∀ (fuel : Nat) (t : HashTbl K V) (k : K) (v : V) (r : Bool × HashTbl K V),
      Chains hashf eq t → HashTbl.insert_float hashf eq fuel t k v = some r →
      Chains hashf eq r.2 ∧ (Counted t → Counted r.2) := by
  intro fuel
  induction fuel with
  | zero =>
    intro t k v r _ h
    simp [HashTbl.insert_float] at h
  | succ fuel ih =>
    intro t k v r hc h
    rw [insert_float_succ] at h
    by_cases hf : (t.m_table.getD (hashf k % t.m_size) []).any (fun en => eq en.m_key k) = true
    · rw [if_pos hf] at h
      rw [← Option.some.inj h]
      obtain ⟨a1, _, a3⟩ := assign_spec laws hc k v hf
        (HashTbl.write_at hashf eq t k v) (by rw [write_at_found t k v hf])
        (by rw [write_at_found t k v hf])
      refine ⟨a1, ?_⟩
      intro hct
      have hcnt : (HashTbl.write_at hashf eq t k v).m_count = t.m_count := by
        rw [write_at_found t k v hf]
      unfold Counted at hct ⊢
      show (HashTbl.write_at hashf eq t k v).m_count =
        (HashTbl.write_at hashf eq t k v).entries.length
      omega
    · rw [if_neg hf] at h
      have hnf : (t.m_table.getD (hashf k % t.m_size) []).any (fun en => eq en.m_key k) = false := by
        simpa using hf
      obtain ⟨p1, _, p3⟩ := push_spec laws hc k v hnf (HashTbl.pushed hashf t k v) rfl rfl
      have hsame : SameButFactor (HashTbl.pushed_float hashf t k v) (HashTbl.pushed hashf t k v) :=
        same_pushed (SameButFactor.refl t) k v
      have pf1 : Chains hashf eq (HashTbl.pushed_float hashf t k v) :=
        chains_of_fields p1 hsame.size_eq hsame.table_eq
      by_cases hlf : load_factor_float (t.m_count + 1) t.m_size > 1
      · rw [if_pos hlf] at h
        obtain ⟨t2, h2, hr⟩ := Option.map_eq_some'.1 h
        subst hr
        rw [rehash_eq_fold _ _ pf1.length_eq] at h2
        obtain ⟨d1, d2⟩ := fold_float_wf ih _ _ _
          (chains_regrown (HashTbl.pushed_float hashf t k v)) h2
        exact ⟨d1, fun _ => d2 (counted_regrown _)⟩
      · rw [if_neg hlf] at h
        rw [← Option.some.inj h]
        refine ⟨pf1, ?_⟩
        intro hct
        unfold Counted at hct ⊢
        show t.m_count + 1 = (HashTbl.pushed_float hashf t k v).entries.length
        rw [hsame.entries_eq, p3, hct]

/-- On a table that meets the representation invariant and holds at most twice
as many entries as it has buckets, two levels of `insert_float` suffice, and
the result is such a table again. A table built by `insert_float` never holds
more: the `float` load factor of more than twice as many entries as buckets
exceeds `1.0`. -/
theorem insert_float_two (laws : KeyLaws hashf eq) (fuel : Nat) (t : HashTbl K V) (k : K) (v : V)
    (hwf : WF hashf eq t) (hl : t.m_count ≤ 2 * t.m_size) :
    ∃ r, HashTbl.insert_float hashf eq (fuel + 2) t k v = some r ∧
      r.2.m_count ≤ 2 * r.2.m_size := by
  rw [insert_float_succ]
  have hpos := hwf.1.size_pos
  by_cases hf : (t.m_table.getD (hashf k % t.m_size) []).any (fun en => eq en.m_key k) = true
  · rw [if_pos hf]
    refine ⟨_, rfl, ?_⟩
    rw [write_at_found t k v hf]
    exact hl
  · rw [if_neg hf]
    have hnf : (t.m_table.getD (hashf k % t.m_size) []).any (fun en => eq en.m_key k) = false := by
      simpa using hf
    by_cases hlf : load_factor_float (t.m_count + 1) t.m_size > 1
    · rw [if_pos hlf]
      obtain ⟨p1, _, p3⟩ := push_spec laws hwf.1 k v hnf (HashTbl.pushed hashf t k v) rfl rfl
      have hsame : SameButFactor (HashTbl.pushed_float hashf t k v) (HashTbl.pushed hashf t k v) :=
        same_pushed (SameButFactor.refl t) k v
      have pf1 : Chains hashf eq (HashTbl.pushed_float hashf t k v) :=
        chains_of_fields p1 hsame.size_eq hsame.table_eq
      rw [rehash_eq_fold _ _ pf1.length_eq]
      have hlt := lt_find_next_prime (2 * t.m_size)
      have hct : t.m_count = t.entries.length := hwf.2
      have hroom : (HashTbl.regrown (HashTbl.pushed_float hashf t k v)).m_count +
          (HashTbl.pushed_float hashf t k v).entries.length ≤
            (HashTbl.regrown (HashTbl.pushed_float hashf t k v)).m_size := by
        rw [hsame.entries_eq, p3]
        show 0 + (t.entries.length + 1) ≤ find_next_prime (2 * t.m_size)
        omega
      obtain ⟨R, _, hR, _, _, hSz, _⟩ := @fold_float_light K V hashf eq fuel
        (HashTbl.pushed_float hashf t k v).entries
        (HashTbl.regrown (HashTbl.pushed_float hashf t k v))
        (HashTbl.regrown (HashTbl.pushed_float hashf t k v)) (SameButFactor.refl _) hroom
      have hcnt := fold_float_light_count fuel _ _ R hroom hR
      rw [hR]
      refine ⟨_, rfl, ?_⟩
      show R.m_count ≤ 2 * R.m_size
      omega
    · rw [if_neg hlf]
      refine ⟨_, rfl, ?_⟩
      show t.m_count + 1 ≤ 2 * t.m_size
      by_contra hcon
      exact hlf (load_factor_float_gt_of_double _ _ hpos (by omega))

theorem fold_float_two (laws : KeyLaws hashf eq) (fuel : Nat) :
    ∀ (L : List (HashEntry K V)) (T : HashTbl K V), WF hashf eq T → T.m_count ≤ 2 * T.m_size →
      ∃ T', L.foldlM (fun acc en =>
        (HashTbl.insert_float hashf eq (fuel + 2) acc en.m_key en.m_data).map Prod.snd) T
          = some T' := by
  intro L
  induction L with
  | nil => intro T _ _; exact ⟨T, rfl⟩
  | cons e L ih =>
    intro T hwf hl
    obtain ⟨r, hr, hl'⟩ := insert_float_two laws fuel T e.m_key e.m_data hwf hl
    obtain ⟨c1, c2⟩ := insert_float_wf laws (fuel + 2) T e.m_key e.m_data r hwf.1 hr
    obtain ⟨T', hT'⟩ := ih r.2 ⟨c1, c2 hwf.2⟩ hl'
    refine ⟨T', ?_⟩
    rw [List.foldlM_cons, hr]
    exact hT'

/-- With fuel 3 or more `insert_float` completes on every table. -/
theorem insert_float_total (laws : KeyLaws hashf eq) (fuel : Nat) (hfuel : 3 ≤ fuel)
    (t : HashTbl K V) (k : K) (v : V) :
    ∃ r, HashTbl.insert_float hashf eq fuel t k v = some r := by
  obtain ⟨f, rfl⟩ : ∃ f, fuel = f + 2 + 1 := ⟨fuel - 3, by omega⟩
  rw [insert_float_succ]
  by_cases hf : (t.m_table.getD (hashf k % t.m_size) []).any (fun en => eq en.m_key k) = true
  · rw [if_pos hf]
    exact ⟨_, rfl⟩
  · rw [if_neg hf]
    by_cases hlf : load_factor_float (t.m_count + 1) t.m_size > 1
    · rw [if_pos hlf]
      unfold HashTbl.rehash
      simp only []
      rw [foldlM_flatten]
      obtain ⟨T', hT'⟩ := fold_float_two laws f
        (List.filter (fun fl => !fl.isEmpty)
          (List.map (fun i => (HashTbl.pushed_float hashf t k v).m_table.getD i [])
            (List.range (HashTbl.pushed_float hashf t k v).m_size))).flatten
        (HashTbl.regrown (HashTbl.pushed_float hashf t k v))
        ⟨chains_regrown _, counted_regrown _⟩ (Nat.zero_le _)
      unfold HashTbl.regrown at hT'
      rw [hT']
      exact ⟨_, rfl⟩
    · rw [if_neg hlf]
      exact ⟨_, rfl⟩

theorem fold_float_keeps_factor {ins : HashTbl K V → K → V → Option (Bool × HashTbl K V)}
    (hins : ∀ t k v r, Chains hashf eq t → ins t k v = some r →
      Chains hashf eq r.2 ∧
      ((t.m_max_load_factor = load_factor_float t.m_count t.m_size ∨
          HashTbl.retrieve hashf eq t k = none) →
        r.2.m_max_load_factor = load_factor_float r.2.m_count r.2.m_size)) :
    ∀ (L : List (HashEntry K V)) (T T' : HashTbl K V), Chains hashf eq T →
      L.foldlM (fun acc en => (ins acc en.m_key en.m_data).map Prod.snd) T = some T' →
      (T.m_max_load_factor = load_factor_float T.m_count T.m_size ∨
        (L ≠ [] ∧ ∀ k, HashTbl.retrieve hashf eq T k = none)) →
      T'.m_max_load_factor = load_factor_float T'.m_count T'.m_size := by
  intro L
  induction L with
  | nil =>
    intro T T' _ h hP
    simp only [List.foldlM_nil] at h
    have : T = T' := by simpa using h
    rw [← this]
    rcases hP with hP | hP
    · exact hP
    · exact absurd rfl hP.1
  | cons e L ih =>
    intro T T' hc h hP
    rw [List.foldlM_cons] at h
    obtain ⟨T1, h1, h2⟩ := Option.bind_eq_some.1 h
    obtain ⟨r, hr, hrT⟩ := Option.map_eq_some'.1 h1
    subst hrT
    obtain ⟨c1, c2⟩ := hins T e.m_key e.m_data r hc hr
    have hr2 := c2 (by
      rcases hP with hP | hP
      · exact Or.inl hP
      · exact Or.inr (hP.2 _))
    exact ih r.2 T' c1 h2 (Or.inl hr2)

/-- After an `insert_float` that added a key, the stored load factor is the
`float` quotient of count and bucket-array length of the resulting table; an
`insert_float` that found the key leaves the stored value as it was. -/
theorem insert_float_keeps_factor (laws : KeyLaws hashf eq) :
    ∀ (fuel : Nat) (t : HashTbl K V) (k : K) (v : V) (r : Bool × HashTbl K V),
      Chains hashf eq t → HashTbl.insert_float hashf eq fuel t k v = some r →
      Chains hashf eq r.2 ∧
      ((t.m_max_load_factor = load_factor_float t.m_count t.m_size ∨
          HashTbl.retrieve hashf eq t k = none) →
        r.2.m_max_load_factor = load_factor_float r.2.m_count r.2.m_size) := by
  intro fuel
  induction fuel with
  | zero =>
    intro t k v r _ h
    simp [HashTbl.insert_float] at h
  | succ fuel ih =>
    intro t k v r hc h
    refine ⟨(insert_float_wf laws (fuel + 1) t k v r hc h).1, ?_⟩
    intro hP
    rw [insert_float_succ] at h
    by_cases hf : (t.m_table.getD (hashf k % t.m_size) []).any (fun en => eq en.m_key k) = true
    · rw [if_pos hf] at h
      rw [← Option.some.inj h, write_at_found t k v hf]
      rcases hP with hP | hP
      · exact hP
      · rw [retrieve_eq_none_iff, hf] at hP
        exact absurd hP (by simp)
    · rw [if_neg hf] at h
      have hnf : (t.m_table.getD (hashf k % t.m_size) []).any (fun en => eq en.m_key k) = false := by
        simpa using hf
      by_cases hlf : load_factor_float (t.m_count + 1) t.m_size > 1
      · rw [if_pos hlf] at h
        obtain ⟨t2, h2, hr⟩ := Option.map_eq_some'.1 h
        subst hr
        obtain ⟨p1, _, p3⟩ := push_spec laws hc k v hnf (HashTbl.pushed hashf t k v) rfl rfl
        have hsame : SameButFactor (HashTbl.pushed_float hashf t k v)
            (HashTbl.pushed hashf t k v) := same_pushed (SameButFactor.refl t) k v
        have pf1 : Chains hashf eq (HashTbl.pushed_float hashf t k v) :=
          chains_of_fields p1 hsame.size_eq hsame.table_eq
        rw [rehash_eq_fold _ _ pf1.length_eq] at h2
        have hne : (HashTbl.pushed_float hashf t k v).entries ≠ [] := by
          intro he
          rw [hsame.entries_eq] at he
          rw [he] at p3
          simp at p3
        exact fold_float_keeps_factor ih _ _ _
          (chains_regrown (HashTbl.pushed_float hashf t k v)) h2
          (Or.inr ⟨hne, fun k' => retrieve_regrown _ k'⟩)
      · rw [if_neg hlf] at h
        rw [← Option.some.inj h]
        rfl

end FloatTotal

/-! ## The claims on growth, with the load factor in `float` -/

section FloatClaims

variable {K V : Type} {hashf : K → Nat} {eq : K → K → Bool}

/-- The first prime above `2^24`. -/
theorem find_next_prime_16777216 : find_next_prime 16777216 = 16777259 :=
  find_next_prime_eq 16777216 16777259 (by norm_num) (by norm_num) (by norm_num)
    (fun q h1 h2 => by interval_cases q <;> norm_num)

theorem range_entries_length (n : Nat) : (range_entries n).length = n := by
  unfold range_entries
  rw [List.length_map, List.length_range]

theorem range_entries_key_lt (n : Nat) : ∀ en ∈ range_entries n, en.m_key < n := by
  intro en hen
  unfold range_entries at hen
  rw [List.mem_map] at hen
  obtain ⟨i, hi, rfl⟩ := hen
  exact List.mem_range.1 hi

theorem range_entries_distinct (n : Nat) :
    (range_entries n).Pairwise (fun a b => natEq a.m_key b.m_key = false) := by
  unfold range_entries
  rw [List.pairwise_map]
  apply (List.pairwise_lt_range n).imp
  intro a b h
  show (a == b) = false
  rw [beq_eq_false_iff_ne]
  omega

/-- The table `new( 16777216 )` after `insert( i, 0 )` for every `i` below
16777259: it has 16777259 buckets and as many entries, and the key 16777259 is
absent. -/
theorem full_table_float :
    ∃ t : HashTbl Nat Nat, ReachablePlainFloat natHash natEq t ∧ WF natHash natEq t ∧
      t.m_size = 16777259 ∧ t.m_count = 16777259 ∧
      HashTbl.retrieve natHash natEq t 16777259 = none := by
  have hs0 : (HashTbl.new 16777216 0 : HashTbl Nat Nat).m_size = 16777259 :=
    find_next_prime_16777216
  have hroom : (HashTbl.new 16777216 0 : HashTbl Nat Nat).m_count +
      (range_entries 16777259).length ≤ (HashTbl.new 16777216 0 : HashTbl Nat Nat).m_size := by
    rw [range_entries_length, hs0]
    show 0 + 16777259 ≤ 16777259
    omega
  obtain ⟨R, R', hR, hR', hS, hSz, _⟩ := @fold_float_light Nat Nat natHash natEq 2
    (range_entries 16777259) (HashTbl.new 16777216 0) (HashTbl.new 16777216 0)
    (SameButFactor.refl _) hroom
  obtain ⟨T', hT', hwf', hsz', hcnt', hret'⟩ := insert_all_room natLaws 3 (le_refl 3)
    (range_entries 16777259) (HashTbl.new 16777216 0 : HashTbl Nat Nat) (wf_new _ _) hroom
    (range_entries_distinct _) (fun e _ => retrieve_fresh _ rfl _)
  have hTR : T' = R' := by
    unfold insert_all at hT'
    rw [hR'] at hT'
    exact (Option.some.inj hT').symm
  subst hTR
  refine ⟨R, reachable_plain_float_fold 3 _ _ _ (ReachablePlainFloat.new _ _ (by norm_num)) hR,
    hS.wf hwf', by rw [hSz, hs0], ?_, ?_⟩
  · rw [hS.count_eq, hcnt', range_entries_length]
    show 0 + 16777259 = 16777259
    omega
  · rw [hS.retrieve_eq, hret', lookup_none_of_distinct (range_entries 16777259) 16777259 (by
      intro en hen
      have := range_entries_key_lt _ en hen
      show (en.m_key == 16777259) = false
      rw [beq_eq_false_iff_ne]
      omega)]
    exact retrieve_fresh _ rfl _

/-- On a table of 16777259 buckets holding as many entries, `insert` of an
absent key computes the `float` load factor `1.0` and does not rehash. -/
theorem insert_float_full_table (t : HashTbl Nat Nat) (hs : t.m_size = 16777259)
    (hc : t.m_count = 16777259) (ha : HashTbl.retrieve natHash natEq t 16777259 = none)
    (fuel : Nat) :
    HashTbl.insert_float natHash natEq (fuel + 1) t 16777259 0 =
      some (true, HashTbl.pushed_float natHash t 16777259 0) := by
  have hnf := (retrieve_eq_none_iff t 16777259).1 ha
  have hlf : ¬ load_factor_float (t.m_count + 1) t.m_size > 1 := by
    rw [hc, hs]
    show ¬ load_factor_float 16777260 16777259 > 1
    rw [load_factor_float_big]
    exact lt_irrefl 1
  rw [insert_float_succ, if_neg (by rw [hnf]; exact Bool.false_ne_true), if_neg hlf]

/-- Counterexample to C23 as stated. (1) On the table built by `new( 16777216 )`
and 16777259 inserts of different keys (16777259 buckets, as many entries),
after `max_load_factor( 1/2 )` an `insert` of an absent key leaves the
bucket-array length as it was although `count + 1` exceeds it: the `float`
quotient of 16777260 and 16777259 is `1.0`. (2) The stored load factor is the
rounded `float`, not the ratio: after one `insert` into `new( 4 )` it is
13421773 / 2^26, not 1/5. -/
theorem growth_misses_float_rounding :
    (∃ (t : HashTbl Nat Nat) (r : Bool × HashTbl Nat Nat),
      ReachablePlainFloat natHash natEq t ∧ WF natHash natEq t ∧
      HashTbl.retrieve natHash natEq t 16777259 = none ∧ t.m_size < t.m_count + 1 ∧
      HashTbl.insert_float natHash natEq 3 (HashTbl.set_max_load_factor t (1 / 2)) 16777259 0
        = some r ∧
      r.1 = true ∧ r.2.m_size = t.m_size) ∧
    (∃ r : Bool × HashTbl Nat Nat,
      HashTbl.insert_float natHash natEq 3 (HashTbl.new 4 0 : HashTbl Nat Nat) 7 1 = some r ∧
      r.2.m_count = 1 ∧ r.2.m_size = 5 ∧ r.2.max_load_factor = 13421773 / 67108864 ∧
      r.2.max_load_factor ≠ (r.2.m_count : ℚ) / (r.2.m_size : ℚ)) := by
  constructor
  · obtain ⟨t, hreach, hwf, hs, hc, ha⟩ := full_table_float
    refine ⟨t, (true, HashTbl.pushed_float natHash t 16777259 0), hreach, hwf, ha,
      by rw [hs, hc]; omega, ?_, rfl, rfl⟩
    rw [insert_float_ignores_stored_factor 3 t (1 / 2) 16777259 0 ha]
    exact insert_float_full_table t hs hc ha 2
  · have hs : (HashTbl.new 4 0 : HashTbl Nat Nat).m_size = 5 := find_next_prime_four
    have hnf := (@retrieve_eq_none_iff Nat Nat natHash natEq
      (HashTbl.new 4 0 : HashTbl Nat Nat) 7).1 (retrieve_fresh (find_next_prime 4) rfl 7)
    have hval : load_factor_float ((HashTbl.new 4 0 : HashTbl Nat Nat).m_count + 1)
        (HashTbl.new 4 0 : HashTbl Nat Nat).m_size = 13421773 / 67108864 := by
      rw [hs]
      exact load_factor_float_fifth
    have hlf : ¬ load_factor_float ((HashTbl.new 4 0 : HashTbl Nat Nat).m_count + 1)
        (HashTbl.new 4 0 : HashTbl Nat Nat).m_size > 1 := by
      rw [hval]
      norm_num
    refine ⟨(true, HashTbl.pushed_float natHash (HashTbl.new 4 0) 7 1), ?_, rfl, hs, hval, ?_⟩
    · rw [insert_float_succ, if_neg (by rw [hnf]; exact Bool.false_ne_true), if_neg hlf]
    · show load_factor_float ((HashTbl.new 4 0 : HashTbl Nat Nat).m_count + 1)
        (HashTbl.new 4 0 : HashTbl Nat Nat).m_size ≠
          (((HashTbl.new 4 0 : HashTbl Nat Nat).m_count + 1 : Nat) : ℚ) /
            ((HashTbl.new 4 0 : HashTbl Nat Nat).m_size : ℚ)
      rw [hval, hs]
      show (13421773 : ℚ) / 67108864 ≠ ((0 + 1 : Nat) : ℚ) / ((5 : Nat) : ℚ)
      norm_num

/-- C23, amended. On every table with well-shaped chains (every reachable table
is one) that has fewer than `2^24` buckets, and for every value `f` passed to
`max_load_factor( f )` before, `insert( k, v )` completes and changes the
bucket-array length if and only if `k` was absent and `count + 1` is strictly
greater than the bucket-array length. The value `f` has no influence: flag,
bucket-array length, count and buckets are those the insert gives without the
call. When `k` was absent the stored load factor is overwritten and ends as
the `float` quotient `( float ) count / size` of the resulting table; when `k`
was present the stored value stays `f` and nothing grows. The load factor is
computed in `float` as the code does. -/
theorem growth_ignores_max_load_factor_float (laws : KeyLaws hashf eq) {t : HashTbl K V}
    (hc : Chains hashf eq t) (hs : t.m_size < 2 ^ 24)
    (f : ℚ) (k : K) (v : V) (fuel : Nat) (hfuel : 3 ≤ fuel) :
    ∃ r r0,
      HashTbl.insert_float hashf eq fuel (HashTbl.set_max_load_factor t f) k v = some r ∧
      HashTbl.insert_float hashf eq fuel t k v = some r0 ∧
      r.1 = r0.1 ∧ r.2.m_size = r0.2.m_size ∧ r.2.m_count = r0.2.m_count ∧
      r.2.m_table = r0.2.m_table ∧
      (r.2.m_size ≠ t.m_size ↔
        (HashTbl.retrieve hashf eq t k = none ∧ t.m_size < t.m_count + 1)) ∧
      (HashTbl.retrieve hashf eq t k = none →
        r.2.max_load_factor = load_factor_float r.2.m_count r.2.m_size) ∧
      ((HashTbl.retrieve hashf eq t k).isSome = true → r.2.max_load_factor = f) := by
  obtain ⟨g, rfl⟩ : ∃ g, fuel = g + 1 := ⟨fuel - 1, by omega⟩
  obtain ⟨r0, hr0⟩ := insert_float_total laws (g + 1) hfuel t k v
  have hpos := hc.size_pos
  have hlt := lt_find_next_prime (2 * t.m_size)
  by_cases hf : (t.m_table.getD (hashf k % t.m_size) []).any (fun en => eq en.m_key k) = true
  · obtain ⟨e1, e2⟩ := @insert_float_found_stored_factor K V hashf eq g t f k v hf
    have hsome : HashTbl.retrieve hashf eq t k ≠ none := by
      rw [Ne, retrieve_eq_none_iff, hf]
      simp
    refine ⟨_, _, e1, e2, rfl, rfl, rfl, rfl, ?_, fun h => absurd h hsome, fun _ => rfl⟩
    constructor
    · intro hne
      exact absurd (by rw [write_at_found t k v hf]; rfl) hne
    · intro h
      exact absurd h.1 hsome
  · have ha : HashTbl.retrieve hashf eq t k = none :=
      (retrieve_eq_none_iff t k).2 (by simpa using hf)
    have hr : HashTbl.insert_float hashf eq (g + 1) (HashTbl.set_max_load_factor t f) k v
        = some r0 := by
      rw [insert_float_ignores_stored_factor (g + 1) t f k v ha]
      exact hr0
    refine ⟨r0, r0, hr, hr0, rfl, rfl, rfl, rfl, ?_,
      fun _ => (insert_float_keeps_factor laws (g + 1) t k v r0 hc hr0).2 (Or.inr ha), ?_⟩
    · have hr0' := hr0
      rw [insert_float_succ, if_neg hf] at hr0'
      constructor
      · intro hne
        refine ⟨ha, ?_⟩
        by_contra hle
        have hlf : ¬ load_factor_float (t.m_count + 1) t.m_size > 1 :=
          load_factor_float_le _ _ (by omega)
        rw [if_neg hlf] at hr0'
        apply hne
        rw [← Option.some.inj hr0']
        rfl
      · intro h
        have hlf : load_factor_float (t.m_count + 1) t.m_size > 1 :=
          load_factor_float_gt _ _ hpos hs h.2
        rw [if_pos hlf] at hr0'
        obtain ⟨t2, h2, hr2⟩ := Option.map_eq_some'.1 hr0'
        subst hr2
        unfold HashTbl.rehash at h2
        simp only [] at h2
        rw [foldlM_flatten] at h2
        have h3 : find_next_prime (2 * t.m_size) ≤ t2.m_size :=
          fold_size_le (insert_float_size_le g) _ _ _ h2
        show t2.m_size ≠ t.m_size
        omega
    · intro h
      rw [ha] at h
      simp at h

/-- Witness of amended C23: the threshold 1/2 set on the full two-bucket table
holding the keys `0` and `1`, then `insert( 2, 7 )`. -/
theorem growth_ignores_max_load_factor_float_witness :
    ∃ r r0,
      HashTbl.insert_float natHash natEq 3 (HashTbl.set_max_load_factor sample_full (1 / 2)) 2 7
        = some r ∧
      HashTbl.insert_float natHash natEq 3 sample_full 2 7 = some r0 ∧
      r.1 = r0.1 ∧ r.2.m_size = r0.2.m_size ∧ r.2.m_count = r0.2.m_count ∧
      r.2.m_table = r0.2.m_table ∧
      (r.2.m_size ≠ sample_full.m_size ↔
        (HashTbl.retrieve natHash natEq sample_full 2 = none ∧
          sample_full.m_size < sample_full.m_count + 1)) ∧
      (HashTbl.retrieve natHash natEq sample_full 2 = none →
        r.2.max_load_factor = load_factor_float r.2.m_count r.2.m_size) ∧
      ((HashTbl.retrieve natHash natEq sample_full 2).isSome = true →
        r.2.max_load_factor = 1 / 2) :=
  growth_ignores_max_load_factor_float natLaws
    (reachable_chains natLaws sample_full_reachable)
    (show sample_full.m_size < 2 ^ 24 by rw [sample_full_table.1]; norm_num)
    (1 / 2) 2 7 3 (le_refl 3)

/-- Counterexample to C24 as stated. The table built by `new( 16777216 )` and
16777259 inserts of different keys has 16777259 buckets and as many entries;
one more `insert` of an absent key completes without a rehash, because the
`float` quotient of 16777260 and 16777259 is `1.0`, and leaves 16777260 entries
in 16777259 buckets. -/
theorem plain_table_overfills_float :
    ∃ (t : HashTbl Nat Nat) (r : Bool × HashTbl Nat Nat),
      ReachablePlainFloat natHash natEq t ∧ t.m_count ≤ t.m_size ∧
      HashTbl.insert_float natHash natEq 3 t 16777259 0 = some r ∧
      ReachablePlainFloat natHash natEq r.2 ∧
      r.2.m_size = 16777259 ∧ r.2.m_count = 16777260 ∧ ¬ r.2.m_count ≤ r.2.m_size := by
  obtain ⟨t, hreach, _, hs, hc, ha⟩ := full_table_float
  have hins := insert_float_full_table t hs hc ha 2
  have hcnt : (HashTbl.pushed_float natHash t 16777259 0).m_count = 16777260 := by
    show t.m_count + 1 = 16777260
    rw [hc]
  have hsz : (HashTbl.pushed_float natHash t 16777259 0).m_size = 16777259 := hs
  refine ⟨t, _, hreach, by rw [hs, hc], hins, ReachablePlainFloat.insert hreach hins,
    hsz, hcnt, ?_⟩
  rw [hcnt, hsz]
  omega

/-- C24, amended. For every table created by `new( capacity )` and modified
only by `insert`, `erase` and `clear`, as long as its bucket array has fewer
than `2^24` buckets: the count does not exceed the bucket-array length; every
further `insert( k, v )` completes with two levels of fuel, that is with no
`rehash` nested in a `rehash`, and gives the same result with any larger fuel;
the count does not exceed the bucket-array length afterwards either; the insert
changes the bucket-array length exactly when `k` was absent and `count + 1`
exceeds it, and the new length is then exactly `find_next_prime( 2 * old
length )`. The load factor is computed in `float` as the code does. -/
theorem plain_float_tables_stay_light (laws : KeyLaws hashf eq) {t : HashTbl K V}
    (hp : ReachablePlainFloat hashf eq t) (hs : t.m_size < 2 ^ 24) (k : K) (v : V) :
    t.m_count ≤ t.m_size ∧
    ∃ r, HashTbl.insert_float hashf eq 2 t k v = some r ∧
      (∀ fuel, 2 ≤ fuel → HashTbl.insert_float hashf eq fuel t k v = some r) ∧
      r.2.m_count ≤ r.2.m_size ∧
      (r.2.m_size ≠ t.m_size ↔
        (HashTbl.retrieve hashf eq t k = none ∧ t.m_size < t.m_count + 1)) ∧
      (r.2.m_size ≠ t.m_size → r.2.m_size = find_next_prime (2 * t.m_size)) := by
  obtain ⟨hwf, hl⟩ := plain_float_invariant laws hp hs
  obtain ⟨r, r', hr, hr', _, hsame, _⟩ := insert_float_agrees laws 0 hwf hl hs k v
  have sp := insert_sound laws (0 + 2) t k v r' hwf.1 hr'
  have hpos := hwf.1.size_pos
  have hlt := lt_find_next_prime (2 * t.m_size)
  have hgrow : r'.2.m_size ≠ t.m_size → triggers_rehash hashf eq t k := by
    intro hne
    by_contra hnt
    exact hne (sp.size_same hnt)
  refine ⟨hl, r, hr, insert_float_mono_le (0 + 2) t k v r hr, ?_, ?_, ?_⟩
  · rw [hsame.size_eq, hsame.count_eq]
    exact light_of_spec sp hwf.2 hl
  · rw [hsame.size_eq]
    constructor
    · intro hne
      have htr := hgrow hne
      exact ⟨htr.1, ((load_gt_one_iff _ _).1 htr.2).2⟩
    · intro h
      have := sp.size_grow ⟨h.1, (load_gt_one_iff _ _).2 ⟨hpos, h.2⟩⟩
      omega
  · rw [hsame.size_eq]
    intro hne
    exact insert_exact_size laws (0 + 2) hwf hl k v (hgrow hne) r' hr'

theorem new_zero_insert_float :
    HashTbl.insert_float natHash natEq 1 (HashTbl.new 0 0 : HashTbl Nat Nat) 0 0 =
      some (true, HashTbl.pushed_float natHash (HashTbl.new 0 0) 0 0) := by
  have e1 : ¬ ((HashTbl.new 0 0 : HashTbl Nat Nat).m_table.getD
      (natHash 0 % (HashTbl.new 0 0 : HashTbl Nat Nat).m_size) []).any
        (fun en => natEq en.m_key 0) = true := by
    rw [(retrieve_eq_none_iff (HashTbl.new 0 0 : HashTbl Nat Nat) 0).1
      (retrieve_fresh (find_next_prime 0) rfl 0)]
    exact Bool.false_ne_true
  have e2 : ¬ load_factor_float ((HashTbl.new 0 0 : HashTbl Nat Nat).m_count + 1)
      (HashTbl.new 0 0 : HashTbl Nat Nat).m_size > 1 := by
    apply load_factor_float_le
    show 0 + 1 ≤ find_next_prime 0
    rw [find_next_prime_zero]
  rw [insert_float_succ, if_neg e1, if_neg e2]

/-- Witness of amended C24: the one-bucket table `new( 0 )` after
`insert( 0, 0 )`, then `insert( 1, 5 )`, which has to grow the array. -/
theorem plain_float_tables_stay_light_witness :
    (HashTbl.pushed_float natHash (HashTbl.new 0 0 : HashTbl Nat Nat) 0 0).m_count ≤
      (HashTbl.pushed_float natHash (HashTbl.new 0 0 : HashTbl Nat Nat) 0 0).m_size ∧
    ∃ r, HashTbl.insert_float natHash natEq 2
        (HashTbl.pushed_float natHash (HashTbl.new 0 0 : HashTbl Nat Nat) 0 0) 1 5 = some r ∧
      (∀ fuel, 2 ≤ fuel → HashTbl.insert_float natHash natEq fuel
        (HashTbl.pushed_float natHash (HashTbl.new 0 0 : HashTbl Nat Nat) 0 0) 1 5 = some r) ∧
      r.2.m_count ≤ r.2.m_size ∧
      (r.2.m_size ≠ (HashTbl.pushed_float natHash (HashTbl.new 0 0 : HashTbl Nat Nat) 0 0).m_size ↔
        (HashTbl.retrieve natHash natEq
            (HashTbl.pushed_float natHash (HashTbl.new 0 0 : HashTbl Nat Nat) 0 0) 1 = none ∧
          (HashTbl.pushed_float natHash (HashTbl.new 0 0 : HashTbl Nat Nat) 0 0).m_size <
            (HashTbl.pushed_float natHash (HashTbl.new 0 0 : HashTbl Nat Nat) 0 0).m_count + 1)) ∧
      (r.2.m_size ≠ (HashTbl.pushed_float natHash (HashTbl.new 0 0 : HashTbl Nat Nat) 0 0).m_size →
        r.2.m_size = find_next_prime
          (2 * (HashTbl.pushed_float natHash (HashTbl.new 0 0 : HashTbl Nat Nat) 0 0).m_size)) :=
  plain_float_tables_stay_light natLaws
    (ReachablePlainFloat.insert (ReachablePlainFloat.new 0 0 (by norm_num)) new_zero_insert_float)
    (by
      show find_next_prime 0 < 2 ^ 24
      rw [find_next_prime_zero]
      norm_num) 1 5

end FloatClaims

/-! ## The size constructor in `std::size_t` arithmetic -/

section WrapClaims

/-- At `SIZE_MAX` the increment wraps to 0, `is_prime( 0 )` is false and
`is_prime( 1 )` is true: the constructor builds one bucket. -/
theorem new_wrap_size_max (uninit : ℚ) :
    (HashTbl.new_wrap 1 2 (2 ^ 64 - 1) uninit : Option (HashTbl Nat Nat)) =
      some ⟨1, 0, uninit, [[]]⟩ := by
  have h : find_next_prime_wrap 1 2 (2 ^ 64 - 1) = some 1 := by decide
  unfold HashTbl.new_wrap
  rw [h]
  rfl

end WrapClaims

end ac
